import Mathlib

set_option maxRecDepth 8000
set_option linter.unusedVariables false

/-!
Verification development for the JSON Schema → GBNF grammar compiler in
`src/json-schema-to-grammar.ts`.  The TypeScript source is shallowly embedded:
pure string-producing functions become Lean functions, the stateful
`SchemaConverter` becomes explicit state passing with a fuel parameter for the
schema-visitor recursion, and the grammar fragments emitted by the specialised
generators are additionally mirrored as a small grammar-expression AST (`GExpr`)
whose textual rendering reproduces the source's output and whose matching
relation gives the fragments a language semantics.
-/

/-! ## Basic character and digit utilities -/

/-- Characters the rule-name charset admits: digits, ASCII letters and hyphen.
Mirrors the complement of `INVALID_RULE_CHARS_RE = /[^\dA-Za-z-]+/g`
(src line 351). -/
def isValidRuleChar (c : Char) : Bool := c.isDigit || c.isAlpha || c = '-'

/-- Worker for `escapeRuleName`: the flag records whether we are inside a run of
invalid characters (a maximal run is replaced by a single hyphen, as
`String.replace` with the `+`-quantified regex does). -/
def escCharsAux : Bool → List Char → List Char
  | _, [] => []
  | inRun, c :: cs =>
    if isValidRuleChar c then c :: escCharsAux false cs
    else if inRun then escCharsAux true cs
    else '-' :: escCharsAux true cs

/-- Escapes a rule name to the allowed charset,
`name.replace(INVALID_RULE_CHARS_RE, "-")` (src line 430). -/
def escapeRuleName (s : String) : String := String.mk (escCharsAux false s.data)

/-- Decimal digit character for a value below ten. -/
def digitChar (n : Nat) : Char := Char.ofNat (48 + n)

/-- Decimal digit list of a natural number, most significant digit first,
with no leading zeros (the single digit `0` for zero); this is the digit
string `Number.prototype.toString` yields for a non-negative integer. -/
def natDigits (n : Nat) : List Char :=
  if h : n < 10 then [digitChar n]
  else natDigits (n / 10) ++ [digitChar (n % 10)]
  decreasing_by exact Nat.div_lt_self (by omega) (by omega)

/-- Decimal string of a natural number. -/
def natRepr (n : Nat) : String := String.mk (natDigits n)

/-- Decimal character list of an integer, `n.toString()` in JS. -/
def intRepr (n : Int) : List Char :=
  if n < 0 then '-' :: natDigits (-n).toNat else natDigits n.toNat

/-- Numeric value of a digit character. -/
def digitVal (c : Char) : Nat := c.toNat - 48

/-- Whether a character is one of the ten ASCII digits. -/
def isDigitChar (c : Char) : Bool := decide ('0' ≤ c) && decide (c ≤ '9')

/-- Numeric value of a digit string read most-significant-first (leading zeros
allowed). -/
def strVal (s : List Char) : Nat := s.foldl (fun a c => 10 * a + digitVal c) 0

/-! ## Grammar expressions

The specialised generators of the source (`generateMinMaxInt`, `_notStrings`,
`_buildObjectRule`) assemble grammar text by pushing tokens onto a string
buffer.  `GExpr` mirrors those fragments structurally: each constructor
corresponds to one shape of pushed token, `render` reproduces the exact text the
source builds, and `GMatch` is the standard language semantics of the GBNF
dialect the text is written in (quoted literals, `[...]` classes, alternation,
grouping, `?`/`*`/`+`/`{m,n}` repetition, and references to named rules, the
latter interpreted through an environment). -/

/-- One element of a `[...]` character class: a single character or a range. -/
inductive ClsItem : Type
  | single (c : Char)
  | range (a b : Char)
deriving DecidableEq, Repr

/-- A grammar expression. `grp` renders as `(e)`, `grpPad` as `( e )` (the
source uses both spacings), `ref` is a reference to a named rule. -/
inductive GExpr : Type
  | eps
  | lit (cs : List Char)
  | cls (neg : Bool) (items : List ClsItem)
  | seq (a b : GExpr)
  | alt (a b : GExpr)
  | grp (e : GExpr)
  | grpPad (e : GExpr)
  | opt (e : GExpr)
  | star (e : GExpr)
  | plus (e : GExpr)
  | rep (e : GExpr) (lo : Nat) (hi : Option Nat)
  | ref (n : String)
deriving DecidableEq, Repr

/-- Whether one class item admits a character. -/
def clsItemMatches (c : Char) : ClsItem → Bool
  | ClsItem.single d => c = d
  | ClsItem.range a b => decide (a ≤ c) && decide (c ≤ b)

/-- Whether a (possibly negated) character class admits a character. -/
def clsMatches (neg : Bool) (items : List ClsItem) (c : Char) : Bool :=
  if neg then !(items.any (clsItemMatches c)) else items.any (clsItemMatches c)

/-- Interpretation of rule names: the language each named rule denotes. -/
def Env : Type := String → List Char → Prop

mutual
/-- Matching relation of grammar expressions over character lists. -/
inductive GMatch (env : Env) : GExpr → List Char → Prop
  | eps : GMatch env GExpr.eps []
  | lit (cs : List Char) : GMatch env (GExpr.lit cs) cs
  | cls {neg : Bool} {items : List ClsItem} {c : Char} :
      clsMatches neg items c = true → GMatch env (GExpr.cls neg items) [c]
  | seq {a b : GExpr} {u v : List Char} :
      GMatch env a u → GMatch env b v → GMatch env (GExpr.seq a b) (u ++ v)
  | altL {a b : GExpr} {w : List Char} :
      GMatch env a w → GMatch env (GExpr.alt a b) w
  | altR {a b : GExpr} {w : List Char} :
      GMatch env b w → GMatch env (GExpr.alt a b) w
  | grp {e : GExpr} {w : List Char} : GMatch env e w → GMatch env (GExpr.grp e) w
  | grpPad {e : GExpr} {w : List Char} :
      GMatch env e w → GMatch env (GExpr.grpPad e) w
  | optN {e : GExpr} : GMatch env (GExpr.opt e) []
  | optS {e : GExpr} {w : List Char} : GMatch env e w → GMatch env (GExpr.opt e) w
  | star {e : GExpr} {k : Nat} {w : List Char} :
      GPow env e k w → GMatch env (GExpr.star e) w
  | plus {e : GExpr} {k : Nat} {w : List Char} :
      GPow env e k w → 1 ≤ k → GMatch env (GExpr.plus e) w
  | rep {e : GExpr} {lo : Nat} {hi : Option Nat} {k : Nat} {w : List Char} :
      GPow env e k w → lo ≤ k → (∀ m, hi = some m → k ≤ m) →
      GMatch env (GExpr.rep e lo hi) w
  | ref {n : String} {w : List Char} : env n w → GMatch env (GExpr.ref n) w

/-- k-fold concatenation of an expression's language. -/
inductive GPow (env : Env) : GExpr → Nat → List Char → Prop
  | zero {e : GExpr} : GPow env e 0 []
  | succ {e : GExpr} {k : Nat} {u v : List Char} :
      GMatch env e u → GPow env e k v → GPow env e (k + 1) (u ++ v)
end

/-- Textual form of one class item. -/
def renderClsItem : ClsItem → String
  | ClsItem.single c => String.singleton c
  | ClsItem.range a b => String.singleton a ++ "-" ++ String.singleton b

/-- Textual form of a class item list. -/
def renderClsItems : List ClsItem → String
  | [] => ""
  | i :: is => renderClsItem i ++ renderClsItems is

/-- Renders a grammar expression back to exactly the text the source pushes:
sequencing separates with a single space, alternation with `" | "`, and
repetition suffixes attach directly. -/
def render : GExpr → String
  | GExpr.eps => ""
  | GExpr.lit cs => "\"" ++ String.mk cs ++ "\""
  | GExpr.cls neg items =>
      "[" ++ (if neg then "^" else "") ++ renderClsItems items ++ "]"
  | GExpr.seq a b => render a ++ " " ++ render b
  | GExpr.alt a b => render a ++ " | " ++ render b
  | GExpr.grp e => "(" ++ render e ++ ")"
  | GExpr.grpPad e => "( " ++ render e ++ " )"
  | GExpr.opt e => render e ++ "?"
  | GExpr.star e => render e ++ "*"
  | GExpr.plus e => render e ++ "+"
  | GExpr.rep e lo hi =>
      render e ++ "\x7b" ++ natRepr lo ++
        (if hi = some lo then ""
         else "," ++ (match hi with | some m => natRepr m | none => "")) ++ "\x7d"
  | GExpr.ref n => n

/-! ### Inversion lemmas for the matching relation -/

theorem gmatch_eps_iff {env : Env} {w : List Char} :
    GMatch env GExpr.eps w ↔ w = [] := by
  constructor
  · intro h; cases h; rfl
  · rintro rfl; exact GMatch.eps

theorem gmatch_lit_iff {env : Env} {cs w : List Char} :
    GMatch env (GExpr.lit cs) w ↔ w = cs := by
  constructor
  · intro h; cases h; rfl
  · rintro rfl; exact GMatch.lit _

theorem gmatch_cls_iff {env : Env} {neg : Bool} {items : List ClsItem}
    {w : List Char} :
    GMatch env (GExpr.cls neg items) w ↔
      ∃ c, w = [c] ∧ clsMatches neg items c = true := by
  constructor
  · intro h; cases h with
    | cls hc => exact ⟨_, rfl, hc⟩
  · rintro ⟨c, rfl, hc⟩; exact GMatch.cls hc

theorem gmatch_seq_iff {env : Env} {a b : GExpr} {w : List Char} :
    GMatch env (GExpr.seq a b) w ↔
      ∃ u v, w = u ++ v ∧ GMatch env a u ∧ GMatch env b v := by
  constructor
  · intro h; cases h with
    | seq ha hb => exact ⟨_, _, rfl, ha, hb⟩
  · rintro ⟨u, v, rfl, ha, hb⟩; exact GMatch.seq ha hb

theorem gmatch_alt_iff {env : Env} {a b : GExpr} {w : List Char} :
    GMatch env (GExpr.alt a b) w ↔ GMatch env a w ∨ GMatch env b w := by
  constructor
  · intro h; cases h with
    | altL h => exact Or.inl h
    | altR h => exact Or.inr h
  · rintro (h | h)
    · exact GMatch.altL h
    · exact GMatch.altR h

theorem gmatch_grp_iff {env : Env} {e : GExpr} {w : List Char} :
    GMatch env (GExpr.grp e) w ↔ GMatch env e w := by
  constructor
  · intro h; cases h with
    | grp h => exact h
  · exact GMatch.grp

theorem gmatch_grpPad_iff {env : Env} {e : GExpr} {w : List Char} :
    GMatch env (GExpr.grpPad e) w ↔ GMatch env e w := by
  constructor
  · intro h; cases h with
    | grpPad h => exact h
  · exact GMatch.grpPad

theorem gmatch_opt_iff {env : Env} {e : GExpr} {w : List Char} :
    GMatch env (GExpr.opt e) w ↔ w = [] ∨ GMatch env e w := by
  constructor
  · intro h; cases h with
    | optN => exact Or.inl rfl
    | optS h => exact Or.inr h
  · rintro (rfl | h)
    · exact GMatch.optN
    · exact GMatch.optS h

theorem gmatch_star_iff {env : Env} {e : GExpr} {w : List Char} :
    GMatch env (GExpr.star e) w ↔ ∃ k, GPow env e k w := by
  constructor
  · intro h; cases h with
    | star h => exact ⟨_, h⟩
  · rintro ⟨k, h⟩; exact GMatch.star h

theorem gmatch_plus_iff {env : Env} {e : GExpr} {w : List Char} :
    GMatch env (GExpr.plus e) w ↔ ∃ k, GPow env e k w ∧ 1 ≤ k := by
  constructor
  · intro h; cases h with
    | plus h hk => exact ⟨_, h, hk⟩
  · rintro ⟨k, h, hk⟩; exact GMatch.plus h hk

theorem gmatch_rep_iff {env : Env} {e : GExpr} {lo : Nat} {hi : Option Nat}
    {w : List Char} :
    GMatch env (GExpr.rep e lo hi) w ↔
      ∃ k, GPow env e k w ∧ lo ≤ k ∧ (∀ m, hi = some m → k ≤ m) := by
  constructor
  · intro h; cases h with
    | rep h hlo hhi => exact ⟨_, h, hlo, hhi⟩
  · rintro ⟨k, h, hlo, hhi⟩; exact GMatch.rep h hlo hhi

theorem gmatch_ref_iff {env : Env} {n : String} {w : List Char} :
    GMatch env (GExpr.ref n) w ↔ env n w := by
  constructor
  · intro h; cases h with
    | ref h => exact h
  · exact GMatch.ref

theorem gpow_zero_iff {env : Env} {e : GExpr} {w : List Char} :
    GPow env e 0 w ↔ w = [] := by
  constructor
  · intro h; cases h; rfl
  · rintro rfl; exact GPow.zero

theorem gpow_succ_iff {env : Env} {e : GExpr} {k : Nat} {w : List Char} :
    GPow env e (k + 1) w ↔
      ∃ u v, w = u ++ v ∧ GMatch env e u ∧ GPow env e k v := by
  constructor
  · intro h; cases h with
    | succ hu hv => exact ⟨_, _, rfl, hu, hv⟩
  · rintro ⟨u, v, rfl, hu, hv⟩; exact GPow.succ hu hv

/-! ### Character order and digit lemmas -/

theorem charLe_iff (a b : Char) : a ≤ b ↔ a.toNat ≤ b.toNat := by
  cases a; cases b
  simp [Char.le_def, Char.toNat, UInt32.le_def, BitVec.le_def, UInt32.toNat]

theorem charLt_iff (a b : Char) : a < b ↔ a.toNat < b.toNat := by
  cases a; cases b
  simp [Char.lt_def, Char.toNat, UInt32.lt_def, BitVec.lt_def, UInt32.toNat]

theorem charEq_iff (a b : Char) : a = b ↔ a.toNat = b.toNat := by
  constructor
  · intro h; rw [h]
  · intro h; exact Char.eq_of_val_eq (by
      cases a; cases b
      simp [Char.toNat, UInt32.toNat] at h
      exact UInt32.eq_of_toBitVec_eq (BitVec.eq_of_toNat_eq h))

theorem digitChar_toNat {n : Nat} (h : n < 10) : (digitChar n).toNat = 48 + n := by
  have hv : (48 + n).isValidChar := Or.inl (by omega)
  simp [digitChar, Char.ofNat, hv, Char.toNat, Char.ofNatAux, UInt32.toNat]

theorem digitVal_digitChar {n : Nat} (h : n < 10) : digitVal (digitChar n) = n := by
  simp [digitVal, digitChar_toNat h]

theorem isDigitChar_iff_toNat (c : Char) :
    isDigitChar c = true ↔ 48 ≤ c.toNat ∧ c.toNat ≤ 57 := by
  simp [isDigitChar, charLe_iff]

theorem isDigitChar_digitChar {n : Nat} (h : n < 10) :
    isDigitChar (digitChar n) = true := by
  rw [isDigitChar_iff_toNat, digitChar_toNat h]
  omega

theorem digitVal_lt_ten {c : Char} (h : isDigitChar c = true) : digitVal c < 10 := by
  rw [isDigitChar_iff_toNat] at h
  simp [digitVal]; omega

theorem digitChar_digitVal {c : Char} (h : isDigitChar c = true) :
    digitChar (digitVal c) = c := by
  rw [isDigitChar_iff_toNat] at h
  rw [charEq_iff, digitChar_toNat (by simp [digitVal]; omega)]
  simp [digitVal]; omega

theorem digitChar_inj {a b : Nat} (ha : a < 10) (hb : b < 10)
    (h : digitChar a = digitChar b) : a = b := by
  rw [charEq_iff, digitChar_toNat ha, digitChar_toNat hb] at h
  omega

/-- Whether every character of a list is a decimal digit. -/
def allDigits (s : List Char) : Bool := s.all isDigitChar

theorem strVal_nil : strVal [] = 0 := rfl

theorem foldl_strVal (a : Nat) (s : List Char) :
    s.foldl (fun a c => 10 * a + digitVal c) a = a * 10 ^ s.length + strVal s := by
  induction s generalizing a with
  | nil => simp [strVal]
  | cons c cs ih =>
    simp only [List.foldl_cons, List.length_cons]
    have h0 : strVal (c :: cs) = (10 * 0 + digitVal c) * 10 ^ cs.length + strVal cs := ih _
    rw [ih, h0]
    ring

theorem strVal_cons (c : Char) (s : List Char) :
    strVal (c :: s) = digitVal c * 10 ^ s.length + strVal s := by
  have h0 : strVal (c :: s) = (10 * 0 + digitVal c) * 10 ^ s.length + strVal s :=
    foldl_strVal (10 * 0 + digitVal c) s
  rw [h0]; ring

theorem strVal_append (a b : List Char) :
    strVal (a ++ b) = strVal a * 10 ^ b.length + strVal b := by
  show List.foldl _ 0 (a ++ b) = _
  rw [List.foldl_append]
  exact foldl_strVal _ _

theorem strVal_lt (s : List Char) (h : allDigits s = true) :
    strVal s < 10 ^ s.length := by
  induction s with
  | nil => simp [strVal]
  | cons c cs ih =>
    simp [allDigits] at h ih
    have h1 : digitVal c < 10 := digitVal_lt_ten h.1
    have h2 := ih h.2
    rw [strVal_cons]
    have : digitVal c * 10 ^ cs.length ≤ 9 * 10 ^ cs.length :=
      Nat.mul_le_mul_right _ (by omega)
    calc digitVal c * 10 ^ cs.length + strVal cs
        ≤ 9 * 10 ^ cs.length + strVal cs := by omega
      _ < 9 * 10 ^ cs.length + 10 ^ cs.length := by omega
      _ = 10 ^ (cs.length + 1) := by ring
      _ = 10 ^ (c :: cs).length := by simp

theorem natDigits_lt_ten {n : Nat} (h : n < 10) : natDigits n = [digitChar n] := by
  rw [natDigits]; simp [h]

theorem natDigits_ge_ten {n : Nat} (h : ¬ n < 10) :
    natDigits n = natDigits (n / 10) ++ [digitChar (n % 10)] := by
  rw [natDigits]; simp [h]

theorem natDigits_ne_nil (n : Nat) : natDigits n ≠ [] := by
  by_cases h : n < 10
  · rw [natDigits_lt_ten h]; simp
  · rw [natDigits_ge_ten h]; simp

theorem allDigits_natDigits (n : Nat) : allDigits (natDigits n) = true := by
  induction n using Nat.strong_induction_on with
  | _ n ih =>
    by_cases h : n < 10
    · rw [natDigits_lt_ten h]
      simp [allDigits, isDigitChar_digitChar h]
    · rw [natDigits_ge_ten h]
      have h1 := ih (n / 10) (Nat.div_lt_self (by omega) (by omega))
      simp [allDigits] at h1 ⊢
      exact ⟨h1, isDigitChar_digitChar (Nat.mod_lt _ (by omega))⟩

theorem strVal_natDigits (n : Nat) : strVal (natDigits n) = n := by
  induction n using Nat.strong_induction_on with
  | _ n ih =>
    by_cases h : n < 10
    · rw [natDigits_lt_ten h]
      simp [strVal_cons, digitVal_digitChar h, strVal_nil]
    · rw [natDigits_ge_ten h]
      rw [strVal_append]
      have h1 := ih (n / 10) (Nat.div_lt_self (by omega) (by omega))
      have hm : n % 10 < 10 := Nat.mod_lt _ (by omega)
      rw [h1]
      simp [strVal_cons, digitVal_digitChar hm, strVal_nil]
      omega

theorem natDigits_inj {a b : Nat} (h : natDigits a = natDigits b) : a = b := by
  have := strVal_natDigits a
  rw [h, strVal_natDigits] at this
  omega

theorem natRepr_inj {a b : Nat} (h : natRepr a = natRepr b) : a = b := by
  simp only [natRepr] at h
  exact natDigits_inj (by injection h)

/-! ## The rule table and `_addRule`

The table `this._rules` is a JS object mapping rule names to bodies; we model
it as an association list in insertion order with unique keys.  `_addRule`
(src lines 429-450) escapes the requested name, dedups against the existing
entry, and otherwise probes suffixed names `name0, name1, ...` for the first
slot that is unused or already holds the identical body. -/

/-- The rule table: name/body pairs in insertion order. -/
abbrev Rules : Type := List (String × String)

/-- First-match lookup (JS object keys are unique, so first = only). -/
def lookupRule : Rules → String → Option String
  | [], _ => none
  | (n, b) :: rest, k => if n = k then some b else lookupRule rest k

/-- Models `this._rules[key] = rule`.  In `_addRule` the written key is always
either absent or already bound to an identical body, so keeping the first
binding coincides with the JS overwrite. -/
def insertRule (rules : Rules) (k v : String) : Rules :=
  if (lookupRule rules k).isSome then rules else rules ++ [(k, v)]

/-- The i-th probed key `` `${escName}${i}` ``. -/
def probeKey (esc : String) (i : Nat) : String := esc ++ natRepr i

/-- Whether the probe loop may stop at index `i`: the slot is unused or already
holds the identical body (negation of the `while` condition, src lines 439-444). -/
def probeFree (rules : Rules) (esc body : String) (i : Nat) : Bool :=
  match lookupRule rules (probeKey esc i) with
  | none => true
  | some b => b = body

/-- The `while` loop of `_addRule`.  The fuel is only a structural-recursion
device: `addRule` passes `rules.length + 1`, which `probeLoop_fuel_sufficient`
shows always reaches a free slot first. -/
def probeLoop : Rules → String → String → Nat → Nat → Nat
  | _, _, _, i, 0 => i
  | rules, esc, body, i, fuel + 1 =>
    if probeFree rules esc body i then i
    else probeLoop rules esc body (i + 1) fuel

/-- `_addRule(name, rule)` (src lines 429-450): returns the updated table and
the key the rule was registered under. -/
def addRule (rules : Rules) (name body : String) : Rules × String :=
  let esc := escapeRuleName name
  match lookupRule rules esc with
  | none => (insertRule rules esc body, esc)
  | some b =>
    if b = body then (rules, esc)
    else
      let i := probeLoop rules esc body 0 (rules.length + 1)
      (insertRule rules (probeKey esc i) body, probeKey esc i)

/-! ### Lookup and insertion lemmas -/

theorem lookupRule_append_left {a : Rules} (b : Rules) {k : String} {v : String}
    (h : lookupRule a k = some v) : lookupRule (a ++ b) k = some v := by
  induction a with
  | nil => simp [lookupRule] at h
  | cons p rest ih =>
    obtain ⟨n, bdy⟩ := p
    simp only [lookupRule] at h ⊢
    by_cases hn : n = k
    · simpa [hn] using h
    · simp [hn] at h ⊢
      exact ih h

theorem lookupRule_append_right {a : Rules} (b : Rules) {k : String}
    (h : lookupRule a k = none) : lookupRule (a ++ b) k = lookupRule b k := by
  induction a with
  | nil => simp [lookupRule]
  | cons p rest ih =>
    obtain ⟨n, bdy⟩ := p
    simp only [lookupRule] at h ⊢
    by_cases hn : n = k
    · simp [hn] at h
    · simp [hn] at h ⊢
      exact ih h

theorem lookupRule_isSome_iff {rules : Rules} {k : String} :
    (lookupRule rules k).isSome = true ↔ k ∈ rules.map Prod.fst := by
  induction rules with
  | nil => simp [lookupRule]
  | cons p rest ih =>
    obtain ⟨n, bdy⟩ := p
    simp only [lookupRule, List.map_cons, List.mem_cons]
    by_cases hn : n = k
    · simp [hn]
    · rw [if_neg hn, ih]
      constructor
      · exact fun h => Or.inr h
      · rintro (h | h)
        · exact absurd h.symm hn
        · exact h

theorem insertRule_lookup_self {rules : Rules} {k v : String}
    (h : lookupRule rules k = none) :
    lookupRule (insertRule rules k v) k = some v := by
  simp only [insertRule, h, Option.isSome_none, Bool.false_eq_true, if_false]
  rw [lookupRule_append_right _ h]
  simp [lookupRule]

theorem insertRule_preserves {rules : Rules} {k v k' b : String}
    (h : lookupRule rules k' = some b) :
    lookupRule (insertRule rules k v) k' = some b := by
  simp only [insertRule]
  by_cases hs : (lookupRule rules k).isSome = true
  · simp [hs, h]
  · simp [hs]
    exact lookupRule_append_left _ h

theorem insertRule_keys {rules : Rules} {k v : String} :
    (insertRule rules k v).map Prod.fst = rules.map Prod.fst ∨
    (insertRule rules k v).map Prod.fst = rules.map Prod.fst ++ [k] := by
  simp only [insertRule]
  by_cases hs : (lookupRule rules k).isSome = true
  · simp [hs]
  · simp [hs]

/-! ### Probe-loop correctness -/

theorem probeKey_inj {esc : String} {i j : Nat} (h : probeKey esc i = probeKey esc j) :
    i = j := by
  simp only [probeKey] at h
  have hd : esc.data ++ (natRepr i).data = esc.data ++ (natRepr j).data := by
    have := congrArg String.data h
    simpa [String.data_append] using this
  have := List.append_cancel_left hd
  exact natRepr_inj (by
    cases hi : natRepr i
    cases hj : natRepr j
    simp [hi, hj] at this
    simp [this])

theorem probe_exists (rules : Rules) (esc : String) :
    ∃ i, i ≤ rules.length ∧ lookupRule rules (probeKey esc i) = none := by
  by_contra hc
  push_neg at hc
  have hmem : ∀ i, i ≤ rules.length → probeKey esc i ∈ rules.map Prod.fst := by
    intro i hi
    have := hc i hi
    rw [← lookupRule_isSome_iff]
    cases hl : lookupRule rules (probeKey esc i)
    · exact absurd hl this
    · simp
  have hinj : Function.Injective (probeKey esc) := fun a b => probeKey_inj
  have hnodup : ((List.range (rules.length + 1)).map (probeKey esc)).Nodup :=
    (List.nodup_range _).map hinj
  have hsub : ((List.range (rules.length + 1)).map (probeKey esc)) ⊆
      rules.map Prod.fst := by
    intro x hx
    simp only [List.mem_map, List.mem_range] at hx
    obtain ⟨i, hi, rfl⟩ := hx
    exact hmem i (by omega)
  have hlen := List.Subperm.length_le (List.subperm_of_subset hnodup hsub)
  simp at hlen

theorem probeLoop_spec (rules : Rules) (esc body : String) :
    ∀ fuel start,
      (∃ j, start ≤ j ∧ j < start + fuel ∧ probeFree rules esc body j = true) →
      probeFree rules esc body (probeLoop rules esc body start fuel) = true ∧
      start ≤ probeLoop rules esc body start fuel ∧
      ∀ j, start ≤ j → j < probeLoop rules esc body start fuel →
        probeFree rules esc body j = false := by
  intro fuel
  induction fuel with
  | zero =>
    intro start ⟨j, h1, h2, _⟩
    omega
  | succ f ih =>
    intro start ⟨j, h1, h2, h3⟩
    simp only [probeLoop]
    by_cases hfree : probeFree rules esc body start = true
    · simp [hfree]
      intro j hj1 hj2; omega
    · simp [hfree]
      have hj : start ≠ j := by
        intro he; rw [he] at hfree; exact hfree h3
      have := ih (start + 1) ⟨j, by omega, by omega, h3⟩
      refine ⟨this.1, by omega, ?_⟩
      intro m hm1 hm2
      by_cases hms : m = start
      · rw [hms]
        exact Bool.not_eq_true _ ▸ (by simpa using hfree)
      · exact this.2.2 m (by omega) hm2

/-- A rule name drawn from the allowed charset `[0-9A-Za-z-]`. -/
def validRuleName (k : String) : Prop := ∀ c ∈ k.data, isValidRuleChar c = true

instance validRuleName.dec (k : String) : Decidable (validRuleName k) := by
  unfold validRuleName
  infer_instance

theorem escCharsAux_valid : ∀ (flag : Bool) (cs : List Char),
    ∀ c ∈ escCharsAux flag cs, isValidRuleChar c = true := by
  intro flag cs
  induction cs generalizing flag with
  | nil => intro c hc; simp [escCharsAux] at hc
  | cons x xs ih =>
    intro c hc
    simp only [escCharsAux] at hc
    by_cases hv : isValidRuleChar x
    · simp [hv] at hc
      rcases hc with rfl | hc
      · exact hv
      · exact ih false c hc
    · simp [hv] at hc
      by_cases hf : flag
      · simp [hf] at hc
        exact ih true c hc
      · simp [hf] at hc
        rcases hc with rfl | hc
        · simp [isValidRuleChar]
        · exact ih true c hc

theorem escapeRuleName_valid (s : String) : validRuleName (escapeRuleName s) := by
  intro c hc
  exact escCharsAux_valid false s.data c hc

theorem isDigit_eq_isDigitChar (c : Char) : c.isDigit = isDigitChar c := by
  simp [Char.isDigit, isDigitChar, charLe_iff, Char.toNat, ge_iff_le,
    UInt32.le_def, BitVec.le_def, UInt32.toNat]

theorem isValidRuleChar_of_digit {c : Char} (h : isDigitChar c = true) :
    isValidRuleChar c = true := by
  simp [isValidRuleChar, isDigit_eq_isDigitChar, h]

theorem probeKey_valid {esc : String} (hesc : validRuleName esc) (i : Nat) :
    validRuleName (probeKey esc i) := by
  intro c hc
  simp only [probeKey] at hc
  rw [String.data_append] at hc
  rcases List.mem_append.mp hc with hc | hc
  · exact hesc c hc
  · have hall := allDigits_natDigits i
    simp only [allDigits, List.all_eq_true] at hall
    exact isValidRuleChar_of_digit (hall c hc)

theorem probeFree_true_iff {rules : Rules} {esc body : String} {i : Nat} :
    probeFree rules esc body i = true ↔
      lookupRule rules (probeKey esc i) = none ∨
      lookupRule rules (probeKey esc i) = some body := by
  simp only [probeFree]
  cases h : lookupRule rules (probeKey esc i) <;> simp [h]

theorem probeFree_false_iff {rules : Rules} {esc body : String} {i : Nat} :
    probeFree rules esc body i = false ↔
      ∃ b, lookupRule rules (probeKey esc i) = some b ∧ b ≠ body := by
  simp only [probeFree]
  cases h : lookupRule rules (probeKey esc i) <;> simp [h]

theorem addRule_probe {rules : Rules} {name body : String} (b : String)
    (h : lookupRule rules (escapeRuleName name) = some b) (hne : b ≠ body) :
    ∃ i, addRule rules name body =
        (insertRule rules (probeKey (escapeRuleName name) i) body,
          probeKey (escapeRuleName name) i) ∧
      (lookupRule rules (probeKey (escapeRuleName name) i) = none ∨
       lookupRule rules (probeKey (escapeRuleName name) i) = some body) ∧
      (∀ j < i, ∃ bj, lookupRule rules (probeKey (escapeRuleName name) j) = some bj ∧
        bj ≠ body) := by
  obtain ⟨i0, hi0, hnone⟩ := probe_exists rules (escapeRuleName name)
  have hex : ∃ j, 0 ≤ j ∧ j < 0 + (rules.length + 1) ∧
      probeFree rules (escapeRuleName name) body j = true :=
    ⟨i0, by omega, by omega, probeFree_true_iff.mpr (Or.inl hnone)⟩
  have hs := probeLoop_spec rules (escapeRuleName name) body (rules.length + 1) 0 hex
  refine ⟨probeLoop rules (escapeRuleName name) body 0 (rules.length + 1), ?_, ?_, ?_⟩
  · simp [addRule, h, hne]
  · exact probeFree_true_iff.mp hs.1
  · intro j hj
    exact probeFree_false_iff.mp (hs.2.2 j (by omega) hj)

/-- C4: `_addRule(name, body)` first escapes the name to the allowed charset;
an unused escaped name is registered verbatim; a name already holding the
identical body is returned unchanged (idempotence); a name holding a different
body is disambiguated by probing `name0, name1, ...` in order until the first
slot that is unused or holds the identical body, and that key is used and
returned. -/
theorem claim_C4_addRule_spec (rules : Rules) (name body : String) :
    (lookupRule rules (escapeRuleName name) = none →
      addRule rules name body =
        (insertRule rules (escapeRuleName name) body, escapeRuleName name)) ∧
    (lookupRule rules (escapeRuleName name) = some body →
      addRule rules name body = (rules, escapeRuleName name)) ∧
    (∀ b, lookupRule rules (escapeRuleName name) = some b → b ≠ body →
      ∃ i, addRule rules name body =
          (insertRule rules (probeKey (escapeRuleName name) i) body,
            probeKey (escapeRuleName name) i) ∧
        (lookupRule rules (probeKey (escapeRuleName name) i) = none ∨
         lookupRule rules (probeKey (escapeRuleName name) i) = some body) ∧
        (∀ j < i, ∃ bj,
          lookupRule rules (probeKey (escapeRuleName name) j) = some bj ∧
          bj ≠ body)) := by
  refine ⟨?_, ?_, ?_⟩
  · intro h; simp [addRule, h]
  · intro h; simp [addRule, h]
  · intro b hb hne
    exact addRule_probe b hb hne

/-- Witness for C4 at a concrete table: base name `r` is taken with a different
body and `r0` is taken with yet another body, so the probe settles on `r1`. -/
theorem claim_C4_witness :
    lookupRule [("r", "b1"), ("r0", "b2")] (escapeRuleName "r") = some "b1" ∧
    ∃ i, addRule [("r", "b1"), ("r0", "b2")] "r" "b3" =
        (insertRule [("r", "b1"), ("r0", "b2")] (probeKey (escapeRuleName "r") i) "b3",
          probeKey (escapeRuleName "r") i) ∧
      (lookupRule [("r", "b1"), ("r0", "b2")] (probeKey (escapeRuleName "r") i) = none ∨
       lookupRule [("r", "b1"), ("r0", "b2")] (probeKey (escapeRuleName "r") i) =
         some "b3") ∧
      (∀ j < i, ∃ bj,
        lookupRule [("r", "b1"), ("r0", "b2")] (probeKey (escapeRuleName "r") j) =
          some bj ∧ bj ≠ "b3") := by
  refine ⟨by decide, ?_⟩
  exact (claim_C4_addRule_spec [("r", "b1"), ("r0", "b2")] "r" "b3").2.2 "b1"
    (by decide) (by decide)

/-- C10: every `_addRule` call keeps the rule-table invariant: the returned key
maps to exactly the given body, no existing entry is changed or removed, the
returned key is drawn from `[0-9A-Za-z-]`, and a table whose keys all lie in
that charset keeps that property. -/
theorem claim_C10_addRule_invariant (rules : Rules) (name body : String) :
    lookupRule (addRule rules name body).1 (addRule rules name body).2 = some body ∧
    (∀ k b, lookupRule rules k = some b →
      lookupRule (addRule rules name body).1 k = some b) ∧
    validRuleName (addRule rules name body).2 ∧
    ((∀ k, k ∈ rules.map Prod.fst → validRuleName k) →
      ∀ k, k ∈ (addRule rules name body).1.map Prod.fst → validRuleName k) := by
  have keyCase : ∀ (res : Rules × String) (key : String),
      res = (insertRule rules key body, key) →
      (lookupRule rules key = none ∨ lookupRule rules key = some body) →
      validRuleName key →
      lookupRule res.1 res.2 = some body ∧
      (∀ k b, lookupRule rules k = some b → lookupRule res.1 k = some b) ∧
      validRuleName res.2 ∧
      ((∀ k, k ∈ rules.map Prod.fst → validRuleName k) →
        ∀ k, k ∈ res.1.map Prod.fst → validRuleName k) := by
    rintro res key rfl hfree hval
    refine ⟨?_, ?_, hval, ?_⟩
    · rcases hfree with h | h
      · exact insertRule_lookup_self h
      · exact insertRule_preserves h
    · intro k b hk
      exact insertRule_preserves hk
    · intro hinv k hk
      rcases @insertRule_keys rules key body with he | he
      · exact hinv k (he ▸ hk)
      · rw [he] at hk
        rcases List.mem_append.mp hk with hk | hk
        · exact hinv k hk
        · simp at hk
          exact hk ▸ hval
  cases h : lookupRule rules (escapeRuleName name) with
  | none =>
    have he : addRule rules name body =
        (insertRule rules (escapeRuleName name) body, escapeRuleName name) := by
      simp [addRule, h]
    exact keyCase _ _ he (Or.inl h) (escapeRuleName_valid name)
  | some b =>
    by_cases hb : b = body
    · have he : addRule rules name body = (rules, escapeRuleName name) := by
        simp [addRule, h, hb]
      rw [he]
      exact ⟨hb ▸ h, fun k b hk => hk, escapeRuleName_valid name,
        fun hinv k hk => hinv k hk⟩
    · obtain ⟨i, hi, hfree, _⟩ := addRule_probe b h hb
      exact keyCase _ _ hi hfree (probeKey_valid (escapeRuleName_valid name) i)

/-- Witness for C10 at a concrete table with an invalid-charset request name. -/
theorem claim_C10_witness :
    lookupRule [("space", "S")] "space" = some "S" ∧
    (∀ k, k ∈ ([("space", "S")] : Rules).map Prod.fst → validRuleName k) ∧
    (∀ k, k ∈ (addRule [("space", "S")] "a b!c" "body").1.map Prod.fst →
      validRuleName k) ∧
    lookupRule (addRule [("space", "S")] "a b!c" "body").1 "space" = some "S" := by
  have hsp : validRuleName "space" := by decide
  have hinv : ∀ k, k ∈ ([("space", "S")] : Rules).map Prod.fst → validRuleName k := by
    intro k hk
    simp at hk
    subst hk
    exact hsp
  have hmain := claim_C10_addRule_invariant [("space", "S")] "a b!c" "body"
  exact ⟨by decide, hinv, hmain.2.2.2 hinv, hmain.2.1 "space" "S" (by decide)⟩

/-! ## The string-exclusion trie (`_notStrings`, src lines 384-401 and 697-738)

`TrieNode` owns children keyed by single characters plus an end-of-string
flag; we model the children as an association list in insertion order
(`node.children[c] = new TrieNode()` appends).  The `visit` closure iterates
children in sorted key order, so the emitted grammar only depends on the sorted
view. -/

/-- A trie node: children in insertion order plus the end-of-string flag. -/
inductive Trie : Type
  | mk (children : List (Char × Trie)) (isEnd : Bool)

/-- Children accessor. -/
def Trie.children : Trie → List (Char × Trie)
  | Trie.mk cs _ => cs

/-- End-of-string accessor. -/
def Trie.isEnd : Trie → Bool
  | Trie.mk _ e => e

/-- The freshly constructed `new TrieNode()`. -/
def emptyTrie : Trie := Trie.mk [] false

/-- Looks up the child for a character (`node.children[c]`). -/
def findChild : List (Char × Trie) → Char → Option Trie
  | [], _ => none
  | (d, u) :: rest, c => if d = c then some u else findChild rest c

/-- Replaces the child for a character, or appends a new binding
(`node.children[c] = ...`). -/
def setChild : List (Char × Trie) → Char → Trie → List (Char × Trie)
  | [], c, t => [(c, t)]
  | (d, u) :: rest, c, t =>
    if d = c then (d, t) :: rest else (d, u) :: setChild rest c t

/-- `TrieNode.insert(str)` (src lines 391-400): walks the characters, creating
missing children, and marks the final node as end-of-string. -/
def trieInsert : Trie → List Char → Trie
  | Trie.mk cs _, [] => Trie.mk cs true
  | Trie.mk cs e, c :: rest =>
    let child := (findChild cs c).getD emptyTrie
    Trie.mk (setChild cs c (trieInsert child rest)) e

/-- The trie over a set of literal strings (the insertion loop of
`_notStrings`, src lines 698-701). -/
def trieOf (strings : List String) : Trie :=
  strings.foldl (fun t s => trieInsert t s.data) emptyTrie

/-- Whether the trie contains a word (walks edges, checks the final flag). -/
def trieAccepts : Trie → List Char → Bool
  | t, [] => t.isEnd
  | t, c :: rest =>
    match findChild t.children c with
    | none => false
    | some child => trieAccepts child rest

/-- Whether a character list traces a path of edges in the trie. -/
def triePath : Trie → List Char → Bool
  | _, [] => true
  | t, c :: rest =>
    match findChild t.children c with
    | none => false
    | some child => triePath child rest

/-- Language of the alternation `visit` emits for a node with children,
computed directly on the trie: a string is admitted when it is nonempty and
either leaves the trie's edges at some point or runs past a leaf. -/
def trieInnerAccept : Trie → List Char → Bool
  | _, [] => false
  | t, c :: rest =>
    match findChild t.children c with
    | none => true
    | some child =>
      match child.children with
      | [] => decide (rest ≠ [])
      | _ :: _ => trieInnerAccept child rest

/-! ### Find/set lemmas and the insert characterisations -/

theorem findChild_setChild (cs : List (Char × Trie)) (c d : Char) (t : Trie) :
    findChild (setChild cs c t) d = if c = d then some t else findChild cs d := by
  induction cs with
  | nil =>
    simp only [setChild, findChild]
  | cons p rest ih =>
    obtain ⟨e, u⟩ := p
    simp only [setChild]
    by_cases he : e = c
    · subst he
      simp only [if_pos rfl, findChild]
      by_cases hd : e = d
      · simp [hd]
      · simp [hd]
    · simp only [if_neg he, findChild]
      by_cases hd : e = d
      · subst hd
        have hc : ¬ c = e := fun h => he h.symm
        simp [findChild, hc]
      · simp [findChild, hd, ih]

theorem trieInsert_children_ne_nil (t : Trie) (c : Char) (rest : List Char) :
    (trieInsert t (c :: rest)).children ≠ [] := by
  obtain ⟨cs, e⟩ := t
  simp only [trieInsert, Trie.children]
  cases cs with
  | nil => simp [setChild]
  | cons p r =>
    obtain ⟨d, u⟩ := p
    simp only [setChild]
    by_cases hd : d = c <;> simp [hd]

theorem trieInsert_isEnd (t : Trie) (s : List Char) :
    (trieInsert t s).isEnd = (if s = [] then true else t.isEnd) := by
  obtain ⟨cs, e⟩ := t
  cases s with
  | nil => simp [trieInsert, Trie.isEnd]
  | cons c rest => simp [trieInsert, Trie.isEnd]

theorem trieAccepts_emptyTrie (x : List Char) : trieAccepts emptyTrie x = false := by
  cases x with
  | nil => rfl
  | cons c rest => simp [trieAccepts, emptyTrie, Trie.children, findChild]

theorem triePath_emptyTrie (x : List Char) : triePath emptyTrie x = decide (x = []) := by
  cases x with
  | nil => rfl
  | cons c rest => simp [triePath, emptyTrie, Trie.children, findChild]

theorem trieAccepts_insert (s : List Char) : ∀ (t : Trie) (x : List Char),
    trieAccepts (trieInsert t s) x = (decide (x = s) || trieAccepts t x) := by
  induction s with
  | nil =>
    intro t x
    obtain ⟨cs, e⟩ := t
    cases x with
    | nil => simp [trieInsert, trieAccepts, Trie.isEnd]
    | cons c rest => simp [trieInsert, trieAccepts, Trie.children]
  | cons c srest ih =>
    intro t x
    obtain ⟨cs, e⟩ := t
    cases x with
    | nil => simp [trieInsert, trieAccepts, Trie.isEnd]
    | cons d xrest =>
      simp only [trieInsert, trieAccepts, Trie.children, findChild_setChild]
      by_cases hd : c = d
      · subst hd
        rw [if_pos rfl]
        show trieAccepts (trieInsert ((findChild cs c).getD emptyTrie) srest) xrest = _
        rw [ih]
        cases hf : findChild cs c with
        | none =>
          simp [trieAccepts_emptyTrie]
        | some child =>
          simp
      · rw [if_neg hd]
        have hne : ¬ (d :: xrest = c :: srest) := by
          intro h
          injection h with h1 _
          exact hd h1.symm
        simp [hne]

theorem triePath_insert (s : List Char) : ∀ (t : Trie) (x : List Char),
    triePath (trieInsert t s) x = (decide (x <+: s) || triePath t x) := by
  induction s with
  | nil =>
    intro t x
    obtain ⟨cs, e⟩ := t
    cases x with
    | nil => simp [trieInsert, triePath]
    | cons c rest =>
      simp only [trieInsert, triePath, Trie.children]
      have hne : ¬ (c :: rest <+: ([] : List Char)) := by
        intro h
        simpa using h.length_le
      simp [hne]
  | cons c srest ih =>
    intro t x
    obtain ⟨cs, e⟩ := t
    cases x with
    | nil => simp [trieInsert, triePath]
    | cons d xrest =>
      simp only [trieInsert, triePath, Trie.children, findChild_setChild]
      by_cases hd : c = d
      · subst hd
        rw [if_pos rfl]
        show triePath (trieInsert ((findChild cs c).getD emptyTrie) srest) xrest = _
        rw [ih]
        have hpfx : (c :: xrest <+: c :: srest) ↔ (xrest <+: srest) := by
          constructor
          · intro ⟨l, hl⟩
            injection hl with _ h2
            exact ⟨l, h2⟩
          · intro ⟨l, hl⟩
            exact ⟨l, by simp [hl]⟩
        cases hf : findChild cs c with
        | none =>
          simp [triePath_emptyTrie, hpfx]
          intro h
          subst h
          exact ⟨srest, rfl⟩
        | some child =>
          simp [hpfx]
      · rw [if_neg hd]
        have hne : ¬ (d :: xrest <+: c :: srest) := by
          intro ⟨l, hl⟩
          injection hl with h1 _
          exact hd h1.symm
        simp [hne]

theorem trieAccepts_trieOf (strings : List String) (x : List Char) :
    trieAccepts (trieOf strings) x = true ↔ ∃ w ∈ strings, w.data = x := by
  suffices h : ∀ (t : Trie),
      trieAccepts (strings.foldl (fun t s => trieInsert t s.data) t) x = true ↔
      (∃ w ∈ strings, w.data = x) ∨ trieAccepts t x = true by
    rw [trieOf, h emptyTrie]
    simp [trieAccepts_emptyTrie]
  induction strings with
  | nil => simp
  | cons w ws ih =>
    intro t
    simp only [List.foldl_cons, ih, trieAccepts_insert]
    constructor
    · rintro (h | h)
      · obtain ⟨v, hv, hvx⟩ := h
        exact Or.inl ⟨v, by simp [hv], hvx⟩
      · simp at h
        rcases h with h | h
        · exact Or.inl ⟨w, by simp, by simp [h]⟩
        · exact Or.inr h
    · rintro (⟨v, hv, rfl⟩ | h)
      · simp at hv
        rcases hv with rfl | hv
        · simp
        · exact Or.inl ⟨v, hv, rfl⟩
      · simp [h]

theorem triePath_trieOf (strings : List String) (x : List Char) :
    triePath (trieOf strings) x = true ↔ x = [] ∨ ∃ w ∈ strings, x <+: w.data := by
  suffices h : ∀ (t : Trie),
      triePath (strings.foldl (fun t s => trieInsert t s.data) t) x = true ↔
      (∃ w ∈ strings, x <+: w.data) ∨ triePath t x = true by
    rw [trieOf, h emptyTrie]
    rw [triePath_emptyTrie]
    simp
    rw [Or.comm]
  induction strings with
  | nil => simp
  | cons w ws ih =>
    intro t
    simp only [List.foldl_cons, ih, triePath_insert]
    constructor
    · rintro (h | h)
      · obtain ⟨v, hv, hvx⟩ := h
        exact Or.inl ⟨v, by simp [hv], hvx⟩
      · simp at h
        rcases h with h | h
        · exact Or.inl ⟨w, by simp, h⟩
        · exact Or.inr h
    · rintro (⟨v, hv, hp⟩ | h)
      · simp at hv
        rcases hv with rfl | hv
        · simp [hp]
        · exact Or.inl ⟨v, hv, hp⟩
      · simp [h]

theorem trieInnerAccept_eq (t : Trie) (x : List Char) :
    trieInnerAccept t x = (decide (x ≠ []) && !triePath t x) := by
  induction x generalizing t with
  | nil => simp [trieInnerAccept, triePath]
  | cons c rest ih =>
    simp only [trieInnerAccept, triePath]
    cases hf : findChild t.children c with
    | none => simp
    | some child =>
      simp only
      cases hc : child.children with
      | nil =>
        cases rest with
        | nil => simp [triePath]
        | cons d drest =>
          obtain ⟨ccs, ce⟩ := child
          simp only [Trie.children] at hc
          subst hc
          simp [triePath, Trie.children, findChild]
      | cons p ps =>
        rw [ih]
        simp
        intro h hrest
        subst hrest
        simp [triePath] at h

/-! ### Well-formedness of insert-built tries

JS object keys are unique, and every childless node an insert creates is
end-marked; both facts are needed to read the emitted grammar back off the
trie. -/

/-- Invariant of insert-built tries: distinct child keys and end-marked
leaves, hereditarily. -/
inductive TrieWF : Trie → Prop
  | mk {cs : List (Char × Trie)} {e : Bool} :
      (cs.map Prod.fst).Nodup →
      (∀ p ∈ cs, p.2.children = [] → p.2.isEnd = true) →
      (∀ p ∈ cs, TrieWF p.2) →
      TrieWF (Trie.mk cs e)

theorem TrieWF.nodupKeys {t : Trie} (h : TrieWF t) : (t.children.map Prod.fst).Nodup := by
  cases h with
  | mk h1 h2 h3 => exact h1

theorem TrieWF.leafEnd {t : Trie} (h : TrieWF t) :
    ∀ p ∈ t.children, p.2.children = [] → p.2.isEnd = true := by
  cases h with
  | mk h1 h2 h3 => exact h2

theorem TrieWF.child {t : Trie} (h : TrieWF t) : ∀ p ∈ t.children, TrieWF p.2 := by
  cases h with
  | mk h1 h2 h3 => exact h3

theorem trieWF_empty : TrieWF emptyTrie :=
  TrieWF.mk (by simp) (by simp) (by simp)

theorem findChild_none_iff {cs : List (Char × Trie)} {c : Char} :
    findChild cs c = none ↔ c ∉ cs.map Prod.fst := by
  induction cs with
  | nil => simp [findChild]
  | cons p rest ih =>
    obtain ⟨d, u⟩ := p
    rw [List.map_cons]
    simp only [findChild]
    by_cases hd : d = c
    · simp [hd]
    · rw [if_neg hd, ih]
      constructor
      · intro h hm
        rcases List.mem_cons.mp hm with he | hm'
        · exact hd he.symm
        · exact h hm'
      · intro h hm
        exact h (List.mem_cons_of_mem _ hm)

theorem findChild_some_mem {cs : List (Char × Trie)} {c : Char} {u : Trie}
    (h : findChild cs c = some u) : (c, u) ∈ cs := by
  induction cs with
  | nil => simp [findChild] at h
  | cons p rest ih =>
    obtain ⟨d, v⟩ := p
    simp only [findChild] at h
    by_cases hd : d = c
    · simp [hd] at h
      simp [← hd, ← h]
    · simp [hd] at h
      exact List.mem_cons_of_mem _ (ih h)

theorem mem_findChild {cs : List (Char × Trie)} {c : Char} {u : Trie}
    (hnodup : (cs.map Prod.fst).Nodup) (hmem : (c, u) ∈ cs) :
    findChild cs c = some u := by
  induction cs with
  | nil => simp at hmem
  | cons p rest ih =>
    obtain ⟨d, v⟩ := p
    rw [List.map_cons, List.nodup_cons] at hnodup
    rcases List.mem_cons.mp hmem with he | hmem'
    · injection he with h1 h2
      simp [findChild, h1, h2]
    · have hdc : d ≠ c := by
        rintro rfl
        exact hnodup.1 (List.mem_map.mpr ⟨(d, u), hmem', rfl⟩)
      simp [findChild, hdc]
      exact ih hnodup.2 hmem'

theorem setChild_keys (cs : List (Char × Trie)) (c : Char) (t : Trie) :
    (setChild cs c t).map Prod.fst =
      (if c ∈ cs.map Prod.fst then cs.map Prod.fst else cs.map Prod.fst ++ [c]) := by
  induction cs with
  | nil => simp [setChild]
  | cons p rest ih =>
    obtain ⟨d, u⟩ := p
    simp only [setChild]
    by_cases hd : d = c
    · subst hd
      simp
    · have hcd : ¬ c = d := fun h => hd h.symm
      simp only [if_neg hd, List.map_cons, ih]
      by_cases hm : c ∈ rest.map Prod.fst
      · simp [hm, hcd]
      · simp [hm, hcd]

theorem setChild_mem {cs : List (Char × Trie)} {c : Char} {t : Trie} :
    ∀ p ∈ setChild cs c t, p = (c, t) ∨ p ∈ cs := by
  induction cs with
  | nil =>
    intro p hp
    simp [setChild] at hp
    simp [hp]
  | cons q rest ih =>
    obtain ⟨d, u⟩ := q
    intro p hp
    simp only [setChild] at hp
    by_cases hd : d = c
    · subst hd
      rcases List.mem_cons.mp (by simpa using hp) with he | hm
      · exact Or.inl (by simp [he])
      · exact Or.inr (List.mem_cons_of_mem _ hm)
    · rw [if_neg hd] at hp
      rcases List.mem_cons.mp hp with he | hm
      · exact Or.inr (by simp [he])
      · rcases ih p hm with h | h
        · exact Or.inl h
        · exact Or.inr (List.mem_cons_of_mem _ h)

theorem trieWF_insert (s : List Char) : ∀ (t : Trie), TrieWF t →
    TrieWF (trieInsert t s) := by
  induction s with
  | nil =>
    intro t h
    obtain ⟨cs, e⟩ := t
    exact TrieWF.mk h.nodupKeys h.leafEnd h.child
  | cons c rest ih =>
    intro t h
    obtain ⟨cs, e⟩ := t
    have hchildwf : TrieWF ((findChild cs c).getD emptyTrie) := by
      cases hf : findChild cs c with
      | none => exact trieWF_empty
      | some u => exact h.child _ (findChild_some_mem hf)
    have hinswf : TrieWF (trieInsert ((findChild cs c).getD emptyTrie) rest) :=
      ih _ hchildwf
    refine TrieWF.mk ?_ ?_ ?_
    · rw [setChild_keys]
      by_cases hm : c ∈ cs.map Prod.fst
      · simpa [hm] using h.nodupKeys
      · simp only [if_neg hm]
        have := h.nodupKeys
        simp only [Trie.children] at this
        exact List.Nodup.append this (by simp) (by
          intro a ha hb
          simp at hb
          subst hb
          exact hm ha)
    · intro p hp
      rcases setChild_mem p hp with he | hm
      · subst he
        intro hleaf
        cases rest with
        | nil => simp [trieInsert_isEnd]
        | cons d drest => exact absurd hleaf (trieInsert_children_ne_nil _ _ _)
      · exact h.leafEnd p hm
    · intro p hp
      rcases setChild_mem p hp with he | hm
      · subst he
        exact hinswf
      · exact h.child p hm

theorem trieWF_trieOf (strings : List String) : TrieWF (trieOf strings) := by
  suffices h : ∀ t, TrieWF t →
      TrieWF (strings.foldl (fun t s => trieInsert t s.data) t) by
    exact h emptyTrie trieWF_empty
  induction strings with
  | nil => intro t h; exact h
  | cons w ws ih =>
    intro t h
    exact ih _ (trieWF_insert w.data t h)

theorem trieOf_isEnd_false (strings : List String) (h : ∀ w ∈ strings, w ≠ "") :
    (trieOf strings).isEnd = false := by
  suffices hh : ∀ t, t.isEnd = false →
      (strings.foldl (fun t s => trieInsert t s.data) t).isEnd = false by
    exact hh emptyTrie rfl
  induction strings with
  | nil => intro t ht; exact ht
  | cons w ws ih =>
    intro t ht
    refine ih (fun v hv => h v (by simp [hv])) _ ?_
    rw [trieInsert_isEnd]
    have hw : w.data ≠ [] := by
      intro hd
      exact h w (by simp) (by
        cases w with
        | mk d => simp at hd; simp [hd])
    simp [hw, ht]

/-! ### Sorted child order (`Object.keys(node.children).sort()`) -/

/-- Insertion of one child into a key-sorted list. -/
def insChild (p : Char × Trie) : List (Char × Trie) → List (Char × Trie)
  | [] => [p]
  | q :: rest => if p.1 ≤ q.1 then p :: q :: rest else q :: insChild p rest

/-- The children in ascending key order (src line 709 sorts the single-char
keys; JS string comparison on single characters is code-unit order). -/
def sortChildren : List (Char × Trie) → List (Char × Trie)
  | [] => []
  | p :: rest => insChild p (sortChildren rest)

theorem insChild_perm (p : Char × Trie) (l : List (Char × Trie)) :
    (insChild p l).Perm (p :: l) := by
  induction l with
  | nil => simp [insChild]
  | cons q rest ih =>
    simp only [insChild]
    by_cases h : p.1 ≤ q.1
    · simp [h]
    · rw [if_neg h]
      exact (ih.cons q).trans (List.Perm.swap p q rest)

theorem sortChildren_perm (l : List (Char × Trie)) : (sortChildren l).Perm l := by
  induction l with
  | nil => simp [sortChildren]
  | cons p rest ih =>
    exact (insChild_perm p _).trans (ih.cons p)

theorem mem_sortChildren {l : List (Char × Trie)} {p : Char × Trie} :
    p ∈ sortChildren l ↔ p ∈ l :=
  (sortChildren_perm l).mem_iff

theorem sortChildren_keys_mem {l : List (Char × Trie)} {c : Char} :
    c ∈ (sortChildren l).map Prod.fst ↔ c ∈ l.map Prod.fst :=
  ((sortChildren_perm l).map Prod.fst).mem_iff

theorem sortChildren_eq_nil_iff {l : List (Char × Trie)} :
    sortChildren l = [] ↔ l = [] := by
  constructor
  · intro h
    have := (sortChildren_perm l).length_eq
    rw [h] at this
    exact List.length_eq_zero.mp this.symm
  · rintro rfl
    simp [sortChildren]

/-! ### The grammar fragment `visit` emits, as an expression -/

mutual
/-- Size measure on tries, permutation-invariant on child lists. -/
def trieSize : Trie → Nat
  | Trie.mk cs _ => 1 + trieSizeL cs

/-- Size measure on child lists. -/
def trieSizeL : List (Char × Trie) → Nat
  | [] => 0
  | (_, t) :: rest => trieSize t + 1 + trieSizeL rest
end

theorem trieSizeL_perm {l1 l2 : List (Char × Trie)} (h : l1.Perm l2) :
    trieSizeL l1 = trieSizeL l2 := by
  induction h with
  | nil => rfl
  | cons x h ih =>
    obtain ⟨c, t⟩ := x
    simp [trieSizeL, ih]
  | swap x y l =>
    obtain ⟨c, t⟩ := x
    obtain ⟨d, u⟩ := y
    simp [trieSizeL]
    omega
  | trans h1 h2 ih1 ih2 => omega

mutual
/-- The per-node `visit` closure of `_notStrings` (src lines 706-734): the
alternation over the node's sorted edges followed by the rejection alternative
`[^"<keys>] char*`; a childless node pushes nothing. -/
def trieVisit (cname : String) (t : Trie) : GExpr :=
  match hs : sortChildren t.children with
  | [] => GExpr.eps
  | p :: ps =>
    GExpr.alt (trieAlts cname (p :: ps))
      (GExpr.seq
        (GExpr.cls true (ClsItem.single '"' ::
          (p :: ps).map (fun q => ClsItem.single q.1)))
        (GExpr.star (GExpr.ref cname)))
termination_by (trieSize t, 0)
decreasing_by
  obtain ⟨cs, e⟩ := t
  simp only [Trie.children] at hs
  have hsz : trieSizeL (p :: ps) = trieSizeL cs :=
    trieSizeL_perm (hs ▸ sortChildren_perm cs)
  simp only [trieSize]
  apply Prod.Lex.left
  omega

/-- The `" | "`-joined edge alternatives of one node. -/
def trieAlts (cname : String) (l : List (Char × Trie)) : GExpr :=
  match l with
  | [] => GExpr.eps
  | [p] => trieEdgeExpr cname p
  | p :: q :: rest => GExpr.alt (trieEdgeExpr cname p) (trieAlts cname (q :: rest))
termination_by (trieSizeL l, 2)
decreasing_by
  all_goals (apply Prod.Lex.left; simp only [trieSizeL]; omega)

/-- One edge alternative (src lines 717-725): `[c] (<nested>)` when the child
has children, `[c] char+` when it is an end-of-string leaf, bare `[c]`
otherwise (unreachable on insert-built tries). -/
def trieEdgeExpr (cname : String) (p : Char × Trie) : GExpr :=
  match p.2.children with
  | [] =>
    if p.2.isEnd then
      GExpr.seq (GExpr.cls false [ClsItem.single p.1]) (GExpr.plus (GExpr.ref cname))
    else GExpr.cls false [ClsItem.single p.1]
  | _ :: _ =>
    GExpr.seq (GExpr.cls false [ClsItem.single p.1])
      (GExpr.grp (trieVisit cname p.2))
termination_by (trieSize p.2, 1)
decreasing_by
  apply Prod.Lex.right'
  · omega
  · omega
end

/-! ### The `char` and `space` primitive rules -/

/-- Body of the `char` primitive (src lines 320-323):
`[^"\\\x7F\x00-\x1F] | [\\] (["\\bfnrt] | "u" [0-9a-fA-F]{4})`. -/
def charExpr : GExpr :=
  GExpr.alt
    (GExpr.cls true [ClsItem.single '"', ClsItem.single '\\',
      ClsItem.single (Char.ofNat 127), ClsItem.range (Char.ofNat 0) (Char.ofNat 31)])
    (GExpr.seq (GExpr.cls false [ClsItem.single '\\'])
      (GExpr.grp (GExpr.alt
        (GExpr.cls false [ClsItem.single '"', ClsItem.single '\\', ClsItem.single 'b',
          ClsItem.single 'f', ClsItem.single 'n', ClsItem.single 'r', ClsItem.single 't'])
        (GExpr.seq (GExpr.lit ['u'])
          (GExpr.rep (GExpr.cls false [ClsItem.range '0' '9', ClsItem.range 'a' 'f',
            ClsItem.range 'A' 'F']) 4 (some 4))))))

/-- Body of the shared `space` rule `SPACE_RULE` (src line 23):
`| " " | "\n"{1,2} [ \t]{0,20}` — empty, one blank, or one to two newlines
followed by up to twenty blanks/tabs. -/
def spaceExpr : GExpr :=
  GExpr.alt (GExpr.alt GExpr.eps (GExpr.lit [' ']))
    (GExpr.seq (GExpr.rep (GExpr.lit ['\n']) 1 (some 2))
      (GExpr.rep (GExpr.cls false [ClsItem.single ' ', ClsItem.single '\t']) 0 (some 20)))

/-- The empty environment; the `char` and `space` bodies are closed, so any
choice works for them. -/
def emptyEnv : Env := fun _ _ => False

/-- Language of one `char` token. -/
def charTok (w : List Char) : Prop := GMatch emptyEnv charExpr w

/-- Language of the `space` rule. -/
def spaceTok (w : List Char) : Prop := GMatch emptyEnv spaceExpr w

/-- Standard interpretation of the rule references the generated fragments
use: `char` and `space` denote their primitive-rule languages. -/
def stdEnv : Env := fun n w =>
  if n = "char" then charTok w else if n = "space" then spaceTok w else False

/-- Plain string-content characters: printable, not a quote, backslash or DEL —
the single characters the `char` rule admits directly and the trie classes
treat verbatim. -/
def plainChar (c : Char) : Bool :=
  decide (c ≠ '"') && decide (c ≠ '\\') && decide (32 ≤ c.toNat) && decide (c.toNat ≠ 127)

theorem spaceTok_nil : spaceTok [] :=
  GMatch.altL (GMatch.altL GMatch.eps)

theorem plainChar_ne_quote {c : Char} (h : plainChar c = true) : c ≠ '"' := by
  simp only [plainChar, Bool.and_eq_true, decide_eq_true_eq] at h
  exact h.1.1.1

theorem charTok_single {c : Char} (h : plainChar c = true) : charTok [c] := by
  simp only [plainChar, Bool.and_eq_true, decide_eq_true_eq] at h
  obtain ⟨⟨⟨h1, h2⟩, h3⟩, h4⟩ := h
  have hc31 : ¬ (c ≤ Char.ofNat 31) := by
    rw [charLe_iff]
    show ¬ (c.toNat ≤ 31)
    omega
  have hc127 : ¬ (c = Char.ofNat 127) := by
    rw [charEq_iff]
    show ¬ (c.toNat = 127)
    omega
  apply GMatch.altL
  apply GMatch.cls
  simp [clsMatches, clsItemMatches, h1, h2, hc31, hc127]

theorem charTok_ne_nil {w : List Char} (h : charTok w) : w ≠ [] := by
  intro he
  subst he
  cases h with
  | altL h => cases h
  | altR h =>
    rcases gmatch_seq_iff.mp h with ⟨u, v, he, hu, hv⟩
    rcases List.append_eq_nil.mp he.symm with ⟨rfl, rfl⟩
    cases hu

theorem gpow_char_of_plain {env : Env} {n : String}
    (hn : ∀ w, env n w ↔ charTok w) :
    ∀ {u : List Char}, (∀ c ∈ u, plainChar c = true) →
      GPow env (GExpr.ref n) u.length u := by
  intro u
  induction u with
  | nil => intro _; exact GPow.zero
  | cons c rest ih =>
    intro hp
    have h1 : GMatch env (GExpr.ref n) [c] :=
      GMatch.ref ((hn [c]).mpr (charTok_single (hp c (by simp))))
    exact GPow.succ h1 (ih (fun d hd => hp d (by simp [hd])))

theorem star_char_of_plain {env : Env} {n : String}
    (hn : ∀ w, env n w ↔ charTok w) {u : List Char}
    (hp : ∀ c ∈ u, plainChar c = true) :
    GMatch env (GExpr.star (GExpr.ref n)) u :=
  GMatch.star (gpow_char_of_plain hn hp)

theorem plus_char_of_plain {env : Env} {n : String}
    (hn : ∀ w, env n w ↔ charTok w) {u : List Char}
    (hp : ∀ c ∈ u, plainChar c = true) (hne : u ≠ []) :
    GMatch env (GExpr.plus (GExpr.ref n)) u := by
  refine GMatch.plus (gpow_char_of_plain hn hp) ?_
  cases u with
  | nil => exact absurd rfl hne
  | cons c rest => simp

theorem plus_ref_ne_nil {env : Env} {n : String}
    (hn : ∀ w, env n w ↔ charTok w) {u : List Char}
    (h : GMatch env (GExpr.plus (GExpr.ref n)) u) : u ≠ [] := by
  rcases gmatch_plus_iff.mp h with ⟨k, hpow, hk⟩
  cases k with
  | zero => omega
  | succ k' =>
    rcases gpow_succ_iff.mp hpow with ⟨w1, v, he, hw1, hv⟩
    have hne : w1 ≠ [] := charTok_ne_nil ((hn w1).mp (gmatch_ref_iff.mp hw1))
    subst he
    intro hemp
    exact hne (List.append_eq_nil.mp hemp).1

theorem trieVisit_eq_of_sort {cname : String} {t : Trie} {p : Char × Trie}
    {ps : List (Char × Trie)} (h : sortChildren t.children = p :: ps) :
    trieVisit cname t =
      GExpr.alt (trieAlts cname (p :: ps))
        (GExpr.seq
          (GExpr.cls true (ClsItem.single '"' ::
            (p :: ps).map (fun q => ClsItem.single q.1)))
          (GExpr.star (GExpr.ref cname))) := by
  rw [trieVisit]
  split
  · rename_i heq
    rw [h] at heq
    cases heq
  · rename_i p' ps' heq
    rw [h] at heq
    injection heq with h1 h2
    subst h1
    subst h2
    rfl

theorem trieAlts_singleton {cname : String} {p : Char × Trie} :
    trieAlts cname [p] = trieEdgeExpr cname p := by
  rw [trieAlts]

theorem trieAlts_cons2 {cname : String} {p q : Char × Trie}
    {rest : List (Char × Trie)} :
    trieAlts cname (p :: q :: rest) =
      GExpr.alt (trieEdgeExpr cname p) (trieAlts cname (q :: rest)) := by
  rw [trieAlts]

theorem trieEdgeExpr_leaf {cname : String} {p : Char × Trie}
    (h : p.2.children = []) :
    trieEdgeExpr cname p =
      (if p.2.isEnd then
        GExpr.seq (GExpr.cls false [ClsItem.single p.1])
          (GExpr.plus (GExpr.ref cname))
      else GExpr.cls false [ClsItem.single p.1]) := by
  rw [trieEdgeExpr]
  split
  · rfl
  · rename_i q qs heq
    rw [h] at heq
    cases heq

theorem trieEdgeExpr_node {cname : String} {p : Char × Trie} {q : Char × Trie}
    {qs : List (Char × Trie)} (h : p.2.children = q :: qs) :
    trieEdgeExpr cname p =
      GExpr.seq (GExpr.cls false [ClsItem.single p.1])
        (GExpr.grp (trieVisit cname p.2)) := by
  rw [trieEdgeExpr]
  split
  · rename_i heq
    rw [h] at heq
    cases heq
  · rfl

theorem trieAlts_iff {cname : String} {env : Env} {w : List Char} :
    ∀ {l : List (Char × Trie)}, l ≠ [] →
      (GMatch env (trieAlts cname l) w ↔
        ∃ p ∈ l, GMatch env (trieEdgeExpr cname p) w) := by
  intro l
  induction l with
  | nil => intro h; exact absurd rfl h
  | cons p rest ih =>
    intro _
    cases rest with
    | nil =>
      rw [trieAlts_singleton]
      simp
    | cons q rest' =>
      rw [trieAlts_cons2, gmatch_alt_iff, ih (by simp)]
      constructor
      · rintro (h | ⟨r, hr, hm⟩)
        · exact ⟨p, by simp, h⟩
        · exact ⟨r, by simp [hr], hm⟩
      · rintro ⟨r, hr, hm⟩
        rcases List.mem_cons.mp hr with rfl | hr'
        · exact Or.inl hm
        · exact Or.inr ⟨r, hr', hm⟩

theorem trieEdgeExpr_not_nil {cname : String} {env : Env} {p : Char × Trie}
    (h : GMatch env (trieEdgeExpr cname p) []) : False := by
  cases hcc : p.2.children with
  | nil =>
    rw [trieEdgeExpr_leaf hcc] at h
    by_cases he : p.2.isEnd
    · rw [if_pos he] at h
      rcases gmatch_seq_iff.mp h with ⟨u, v, hv, hu, _⟩
      rcases List.append_eq_nil.mp hv.symm with ⟨rfl, rfl⟩
      cases hu
    · rw [if_neg he] at h
      cases h
  | cons q qs =>
    rw [trieEdgeExpr_node hcc] at h
    rcases gmatch_seq_iff.mp h with ⟨u, v, hv, hu, _⟩
    rcases List.append_eq_nil.mp hv.symm with ⟨rfl, rfl⟩
    cases hu

theorem clsNeg_iff {items : List ClsItem} {c : Char} :
    clsMatches true items c = true ↔ ∀ i ∈ items, clsItemMatches c i = false := by
  have h0 : clsMatches true items c = !(items.any (clsItemMatches c)) := rfl
  rw [h0, Bool.not_eq_true', List.any_eq_false]
  simp

theorem clsReject_iff {l : List (Char × Trie)} {c : Char} :
    clsMatches true (ClsItem.single '"' :: l.map (fun q => ClsItem.single q.1)) c =
      true ↔ c ≠ '"' ∧ ∀ q ∈ l, c ≠ q.1 := by
  rw [clsNeg_iff]
  constructor
  · intro h
    refine ⟨?_, ?_⟩
    · have := h (ClsItem.single '"') (by simp)
      simpa [clsItemMatches] using this
    · intro q hq
      have := h (ClsItem.single q.1) (by
        simp only [List.mem_cons]
        right
        exact List.mem_map.mpr ⟨q, hq, rfl⟩)
      simpa [clsItemMatches] using this
  · intro ⟨h1, h2⟩ i hi
    rcases List.mem_cons.mp hi with rfl | hi'
    · simpa [clsItemMatches] using h1
    · rcases List.mem_map.mp hi' with ⟨q, hq, rfl⟩
      simpa [clsItemMatches] using h2 q hq

theorem trieInnerAccept_cons_none {t : Trie} {c : Char} {rest : List Char}
    (h : findChild t.children c = none) :
    trieInnerAccept t (c :: rest) = true := by
  simp [trieInnerAccept, h]

theorem trieInnerAccept_cons_leaf {t child : Trie} {c : Char} {rest : List Char}
    (h : findChild t.children c = some child) (hc : child.children = []) :
    trieInnerAccept t (c :: rest) = decide (rest ≠ []) := by
  simp [trieInnerAccept, h, hc]

theorem trieInnerAccept_cons_node {t child : Trie} {c : Char} {rest : List Char}
    {q : Char × Trie} {qs : List (Char × Trie)}
    (h : findChild t.children c = some child) (hc : child.children = q :: qs) :
    trieInnerAccept t (c :: rest) = trieInnerAccept child rest := by
  simp [trieInnerAccept, h, hc]

/-- Language of the per-node alternation over plain strings: exactly the
nonempty strings `trieInnerAccept` admits. -/
theorem trieVisit_lang {cname : String} {env : Env}
    (hchar : ∀ w, env cname w ↔ charTok w) :
    ∀ (x : List Char) (t : Trie), TrieWF t → t.children ≠ [] →
      (∀ c ∈ x, plainChar c = true) →
      (GMatch env (trieVisit cname t) x ↔ trieInnerAccept t x = true) := by
  intro x
  induction x with
  | nil =>
    intro t hwf hne hplain
    obtain ⟨p, ps, hs⟩ : ∃ p ps, sortChildren t.children = p :: ps := by
      cases hsc : sortChildren t.children with
      | nil => exact absurd (sortChildren_eq_nil_iff.mp hsc) hne
      | cons p ps => exact ⟨p, ps, rfl⟩
    constructor
    · intro h
      exfalso
      rw [trieVisit_eq_of_sort hs] at h
      rcases gmatch_alt_iff.mp h with h | h
      · rcases (trieAlts_iff (by simp)).mp h with ⟨q, _, hm⟩
        exact trieEdgeExpr_not_nil hm
      · rcases gmatch_seq_iff.mp h with ⟨u, v, hv, hu, _⟩
        rcases List.append_eq_nil.mp hv.symm with ⟨rfl, rfl⟩
        cases hu
    · intro h
      simp [trieInnerAccept] at h
  | cons c rest ih =>
    intro t hwf hne hplain
    obtain ⟨p, ps, hs⟩ : ∃ p ps, sortChildren t.children = p :: ps := by
      cases hsc : sortChildren t.children with
      | nil => exact absurd (sortChildren_eq_nil_iff.mp hsc) hne
      | cons p ps => exact ⟨p, ps, rfl⟩
    have hplc : plainChar c = true := hplain c (by simp)
    have hplrest : ∀ d ∈ rest, plainChar d = true := fun d hd => hplain d (by simp [hd])
    rw [trieVisit_eq_of_sort hs, gmatch_alt_iff]
    constructor
    · rintro (h | h)
      · rcases (trieAlts_iff (by simp)).mp h with ⟨⟨d, child⟩, hqmem, hmatch⟩
        have hmemch : (d, child) ∈ t.children :=
          mem_sortChildren.mp (by rw [hs]; exact hqmem)
        cases hcc : child.children with
        | nil =>
          have hend : child.isEnd = true := hwf.leafEnd _ hmemch hcc
          rw [@trieEdgeExpr_leaf cname (d, child) hcc] at hmatch
          rw [if_pos hend] at hmatch
          rcases gmatch_seq_iff.mp hmatch with ⟨u, v, he, hu, hv⟩
          rcases gmatch_cls_iff.mp hu with ⟨cc, rfl, hcls⟩
          have hcd : cc = d := by simpa [clsMatches, clsItemMatches] using hcls
          rw [List.singleton_append] at he
          injection he with he1 he2
          subst he2
          subst he1
          subst hcd
          have hvne := plus_ref_ne_nil hchar hv
          rw [trieInnerAccept_cons_leaf (mem_findChild hwf.nodupKeys hmemch) hcc]
          simpa using hvne
        | cons q qs =>
          rw [@trieEdgeExpr_node cname (d, child) q qs hcc] at hmatch
          rcases gmatch_seq_iff.mp hmatch with ⟨u, v, he, hu, hv⟩
          rcases gmatch_cls_iff.mp hu with ⟨cc, rfl, hcls⟩
          have hcd : cc = d := by simpa [clsMatches, clsItemMatches] using hcls
          rw [List.singleton_append] at he
          injection he with he1 he2
          subst he2
          subst he1
          subst hcd
          have hsub := gmatch_grp_iff.mp hv
          rw [trieInnerAccept_cons_node (mem_findChild hwf.nodupKeys hmemch) hcc]
          exact (ih child (hwf.child _ hmemch) (by rw [hcc]; simp) hplrest).mp hsub
      · rcases gmatch_seq_iff.mp h with ⟨u, v, he, hu, hv⟩
        rcases gmatch_cls_iff.mp hu with ⟨cc, rfl, hcls⟩
        rw [List.singleton_append] at he
        injection he with he1 he2
        subst he2
        subst he1
        rcases clsReject_iff.mp hcls with ⟨hq, hkeys⟩
        have hfn : findChild t.children c = none := by
          rw [findChild_none_iff]
          intro hmem
          have hmem' : c ∈ (sortChildren t.children).map Prod.fst :=
            sortChildren_keys_mem.mpr hmem
          rw [hs] at hmem'
          rcases List.mem_map.mp hmem' with ⟨q, hq', he⟩
          exact hkeys q hq' he.symm
        exact trieInnerAccept_cons_none hfn
    · intro h
      cases hf : findChild t.children c with
      | none =>
        right
        have hcls : clsMatches true (ClsItem.single '"' ::
            (p :: ps).map (fun q => ClsItem.single q.1)) c = true := by
          rw [clsReject_iff]
          refine ⟨plainChar_ne_quote hplc, ?_⟩
          intro q hq he
          apply findChild_none_iff.mp hf
          rw [← sortChildren_keys_mem, hs]
          exact List.mem_map.mpr ⟨q, hq, he.symm⟩
        exact GMatch.seq (GMatch.cls hcls) (star_char_of_plain hchar hplrest)
      | some child =>
        left
        apply (trieAlts_iff (by simp)).mpr
        have hmemch : (c, child) ∈ t.children := findChild_some_mem hf
        have hmemsort : (c, child) ∈ p :: ps := by
          rw [← hs]
          exact mem_sortChildren.mpr hmemch
        refine ⟨(c, child), hmemsort, ?_⟩
        cases hcc : child.children with
        | nil =>
          have hrest : rest ≠ [] := by
            have hla := @trieInnerAccept_cons_leaf t child c rest hf hcc
            rw [hla] at h
            simpa using h
          have hend := hwf.leafEnd _ hmemch hcc
          rw [@trieEdgeExpr_leaf cname (c, child) hcc, if_pos hend]
          exact GMatch.seq (GMatch.cls (by simp [clsMatches, clsItemMatches]))
            (plus_char_of_plain hchar hplrest hrest)
        | cons q qs =>
          have h' : trieInnerAccept child rest = true := by
            rw [trieInnerAccept_cons_node hf hcc] at h
            exact h
          rw [@trieEdgeExpr_node cname (c, child) q qs hcc]
          exact GMatch.seq (GMatch.cls (by simp [clsMatches, clsItemMatches]))
            (GMatch.grp ((ih child (hwf.child _ hmemch) (by rw [hcc]; simp)
              hplrest).mpr h'))

/-- The grammar fragment `_notStrings(strings)` returns (src lines 697-738):
`["] ( <trie alternation> )? ["] space` — the `?` omitted when the empty
string itself is among the excluded strings; `cname` is the name
`_addPrimitive("char", ...)` returned. -/
def notStringsExpr (cname : String) (strings : List String) : GExpr :=
  GExpr.seq (GExpr.cls false [ClsItem.single '"'])
    (GExpr.seq
      (if (trieOf strings).isEnd then GExpr.grpPad (trieVisit cname (trieOf strings))
       else GExpr.opt (GExpr.grpPad (trieVisit cname (trieOf strings))))
      (GExpr.seq (GExpr.cls false [ClsItem.single '"']) (GExpr.ref "space")))

theorem quote_split {x u2 u4 : List Char} (hx : ∀ c ∈ x, c ≠ '"')
    (he : u2 ++ '"' :: u4 = x ++ ['"']) : u2 = x ∧ u4 = [] := by
  induction x generalizing u2 with
  | nil =>
    cases u2 with
    | nil =>
      simp at he
      simp [he]
    | cons a u2' =>
      simp at he
  | cons b xs ih =>
    cases u2 with
    | nil =>
      simp at he
      exact absurd he.1.symm (hx b (by simp))
    | cons a u2' =>
      simp at he
      rcases he with ⟨rfl, he2⟩
      have := ih (fun c hc => hx c (List.mem_cons_of_mem _ hc)) he2
      simp [this]

theorem trieOf_children_ne_nil {strings : List String} (h1 : strings ≠ [])
    (h2 : ∀ w ∈ strings, w.data ≠ []) : (trieOf strings).children ≠ [] := by
  obtain ⟨w, hw⟩ : ∃ w, w ∈ strings := by
    cases strings with
    | nil => exact absurd rfl h1
    | cons a l => exact ⟨a, by simp⟩
  have hpath : triePath (trieOf strings) w.data = true :=
    (triePath_trieOf _ _).mpr (Or.inr ⟨w, hw, List.prefix_refl _⟩)
  intro hc
  cases hd : w.data with
  | nil => exact h2 w hw hd
  | cons c rest =>
    rw [hd] at hpath
    simp [triePath, hc, findChild] at hpath

/-- Language of the full `_notStrings` fragment on JSON-quoted plain strings:
the quoted form of `x` is accepted exactly when `x` is empty or the trie
alternation admits it. -/
theorem notStrings_lang {env : Env}
    (hchar : ∀ w, env "char" w ↔ charTok w)
    (hspace : env "space" [])
    (strings : List String) (hne : strings ≠ [])
    (hw : ∀ w ∈ strings, w.data ≠ [])
    (x : List Char) (hx : ∀ c ∈ x, plainChar c = true) :
    GMatch env (notStringsExpr "char" strings) ('"' :: x ++ ['"']) ↔
      (x = [] ∨ trieInnerAccept (trieOf strings) x = true) := by
  have hTend : (trieOf strings).isEnd = false :=
    trieOf_isEnd_false strings (by
      intro w hw' he
      apply hw w hw'
      rw [he])
  have hTne : (trieOf strings).children ≠ [] := trieOf_children_ne_nil hne hw
  have hTwf : TrieWF (trieOf strings) := trieWF_trieOf strings
  have hxq : ∀ c ∈ x, c ≠ '"' := fun c hc => plainChar_ne_quote (hx c hc)
  constructor
  · intro h
    rw [notStringsExpr] at h
    rcases gmatch_seq_iff.mp h with ⟨u1, v1, he1, hu1, hv1⟩
    rcases gmatch_cls_iff.mp hu1 with ⟨q1, rfl, hq1⟩
    have hq1' : q1 = '"' := by simpa [clsMatches, clsItemMatches] using hq1
    subst hq1'
    rw [List.singleton_append] at he1
    injection he1 with _ he1'
    subst he1'
    rcases gmatch_seq_iff.mp hv1 with ⟨u2, v2, he2, hu2, hv2⟩
    rcases gmatch_seq_iff.mp hv2 with ⟨u3, u4, he3, hu3, hu4⟩
    rcases gmatch_cls_iff.mp hu3 with ⟨q3, rfl, hq3⟩
    have hq3' : q3 = '"' := by simpa [clsMatches, clsItemMatches] using hq3
    subst hq3'
    have hsplit : u2 ++ '"' :: u4 = x ++ ['"'] := by
      rw [he3] at he2
      simpa using he2.symm
    obtain ⟨hu2x, hu4nil⟩ := quote_split hxq hsplit
    rw [hu2x] at hu2
    rw [hTend] at hu2
    simp only [Bool.false_eq_true, if_false] at hu2
    rcases gmatch_opt_iff.mp hu2 with he | hm
    · exact Or.inl he
    · exact Or.inr ((trieVisit_lang hchar x _ hTwf hTne hx).mp (gmatch_grpPad_iff.mp hm))
  · intro h
    rw [notStringsExpr, hTend]
    simp only [Bool.false_eq_true, if_false]
    have hmid : GMatch env (GExpr.opt (GExpr.grpPad
        (trieVisit "char" (trieOf strings)))) x := by
      rcases h with rfl | h
      · exact GMatch.optN
      · exact GMatch.optS (GMatch.grpPad
          ((trieVisit_lang hchar x _ hTwf hTne hx).mpr h))
    have hq : GMatch env (GExpr.cls false [ClsItem.single '"']) ['"'] :=
      GMatch.cls (by simp [clsMatches, clsItemMatches])
    have := GMatch.seq hq (GMatch.seq hmid (GMatch.seq hq (GMatch.ref hspace)))
    simpa using this

theorem stdEnv_char (w : List Char) : stdEnv "char" w ↔ charTok w := by
  simp [stdEnv]

theorem stdEnv_space (w : List Char) : stdEnv "space" w ↔ spaceTok w := by
  have hne : ("space" : String) ≠ "char" := by decide
  simp [stdEnv, hne]

theorem stdEnv_space_nil : stdEnv "space" [] :=
  (stdEnv_space []).mpr spaceTok_nil

/-- C1: the claim is false on the code: `"na"` is not one of the excluded
strings `{"name","age"}`, yet its JSON-quoted form is rejected by the
`_notStrings` fragment — a nonempty proper prefix of an excluded literal is
rejected, not accepted. -/
theorem claim_C1_counterexample :
    ¬ ("na" ∈ ["name", "age"]) ∧
    (∀ c ∈ ("na".data : List Char), plainChar c = true) ∧
    ¬ GMatch stdEnv (notStringsExpr "char" ["name", "age"])
      ('"' :: "na".data ++ ['"']) := by
  refine ⟨by decide, by decide, ?_⟩
  intro h
  have hres := (notStrings_lang stdEnv_char stdEnv_space_nil ["name", "age"]
    (by decide) (by decide) "na".data (by decide)).mp h
  rcases hres with h1 | h2
  · exact absurd h1 (by decide)
  · exact absurd h2 (by decide)

/-- C1 (amended): over plain characters, the String-Exclusion grammar
accepts the JSON-quoted form of `x` iff `x` is empty or `x` is not a prefix
(proper or full) of any excluded literal; in particular exact matches and
their nonempty prefixes are rejected, while extensions of excluded literals
and all diverging strings are accepted. -/
theorem claim_C1_notStrings_amended (strings : List String) (x : List Char)
    (h1 : strings ≠ []) (h2 : ∀ w ∈ strings, w.data ≠ [])
    (h3 : ∀ c ∈ x, plainChar c = true) :
    GMatch stdEnv (notStringsExpr "char" strings) ('"' :: x ++ ['"']) ↔
      (x = [] ∨ ∀ w ∈ strings, ¬ (x <+: w.data)) := by
  rw [notStrings_lang stdEnv_char stdEnv_space_nil strings h1 h2 x h3]
  constructor
  · rintro (rfl | h)
    · exact Or.inl rfl
    · right
      rw [trieInnerAccept_eq] at h
      simp only [Bool.and_eq_true, decide_eq_true_eq, Bool.not_eq_true'] at h
      intro w hw hpfx
      have hp : triePath (trieOf strings) x = true :=
        (triePath_trieOf _ _).mpr (Or.inr ⟨w, hw, hpfx⟩)
      rw [h.2] at hp
      cases hp
  · rintro (rfl | h)
    · exact Or.inl rfl
    · by_cases hx0 : x = []
      · exact Or.inl hx0
      · right
        rw [trieInnerAccept_eq]
        simp only [Bool.and_eq_true, decide_eq_true_eq, Bool.not_eq_true']
        refine ⟨hx0, ?_⟩
        cases htp : triePath (trieOf strings) x with
        | false => rfl
        | true =>
          rcases (triePath_trieOf _ _).mp htp with he | ⟨w, hw, hpfx⟩
          · exact absurd he hx0
          · exact absurd hpfx (h w hw)

/-- Witness for the amended C1: excluding `{"name","age"}`, the quoted string
`"email"` is characterised by the non-prefix condition (and is accepted, as
`"email"` is a prefix of neither literal). -/
theorem claim_C1_witness :
    GMatch stdEnv (notStringsExpr "char" ["name", "age"])
      ('"' :: "email".data ++ ['"']) ↔
      ("email".data = [] ∨ ∀ w ∈ ["name", "age"], ¬ ("email".data <+: w.data)) :=
  claim_C1_notStrings_amended ["name", "age"] "email".data (by decide) (by decide)
    (by decide)

/-- Textual faithfulness check: on the excluded set `{"ab"}` the rendered
expression is exactly the string the source's pushes produce. -/
theorem notStrings_render_example :
    render (notStringsExpr "char" ["ab"]) =
      "[\"] ( [a] ([b] char+ | [^\"b] char*) | [^\"a] char* )? [\"] space" := by
  have hleaf : trieEdgeExpr "char" ('b', Trie.mk [] true) =
      GExpr.seq (GExpr.cls false [ClsItem.single 'b'])
        (GExpr.plus (GExpr.ref "char")) := by
    rw [@trieEdgeExpr_leaf "char" ('b', Trie.mk [] true) rfl]
    rfl
  have hinner : trieVisit "char" (Trie.mk [('b', Trie.mk [] true)] false) =
      GExpr.alt
        (GExpr.seq (GExpr.cls false [ClsItem.single 'b'])
          (GExpr.plus (GExpr.ref "char")))
        (GExpr.seq (GExpr.cls true [ClsItem.single '"', ClsItem.single 'b'])
          (GExpr.star (GExpr.ref "char"))) := by
    rw [trieVisit_eq_of_sort (show sortChildren
      (Trie.mk [('b', Trie.mk [] true)] false).children =
        [('b', Trie.mk [] true)] from rfl)]
    rw [trieAlts_singleton, hleaf]
    rfl
  have hnodeA : trieEdgeExpr "char" ('a', Trie.mk [('b', Trie.mk [] true)] false) =
      GExpr.seq (GExpr.cls false [ClsItem.single 'a'])
        (GExpr.grp (trieVisit "char" (Trie.mk [('b', Trie.mk [] true)] false))) := by
    rw [@trieEdgeExpr_node "char" ('a', Trie.mk [('b', Trie.mk [] true)] false)
      ('b', Trie.mk [] true) [] rfl]
  have htr : trieOf ["ab"] =
      Trie.mk [('a', Trie.mk [('b', Trie.mk [] true)] false)] false := rfl
  rw [notStringsExpr, htr]
  rw [trieVisit_eq_of_sort (show sortChildren
    (Trie.mk [('a', Trie.mk [('b', Trie.mk [] true)] false)] false).children =
      [('a', Trie.mk [('b', Trie.mk [] true)] false)] from rfl)]
  rw [trieAlts_singleton, hnodeA, hinner]
  rfl

/-! ## The Integer Range Generator (`generateMinMaxInt`, src lines 66-280)

The generator pushes grammar tokens onto a string buffer; we mirror each
helper as an expression builder.  Throughout, digit strings are character
lists and `Number.prototype.toString` is `natDigits`/`intRepr`. -/

/-- `String.fromCharCode(c.charCodeAt(0) + 1)`. -/
def chSucc (c : Char) : Char := Char.ofNat (c.toNat + 1)

/-- `String.fromCharCode(c.charCodeAt(0) - 1)`. -/
def chPred (c : Char) : Char := Char.ofNat (c.toNat - 1)

/-- `digitRange(fromChar, toChar)` (src lines 76-86). -/
def digitRangeE (a b : Char) : GExpr :=
  GExpr.cls false (if a = b then [ClsItem.single a] else [ClsItem.range a b])

/-- The `[0-9]` class. -/
def digitCls : GExpr := GExpr.cls false [ClsItem.range '0' '9']

/-- `moreDigits(minDigits, maxDigits)` (src lines 88-102); `none` models the
`Number.MAX_SAFE_INTEGER` sentinel, whose upper bound is left off the
repetition. -/
def moreDigitsE (mn : Nat) (mx : Option Nat) : GExpr :=
  if mn = 1 ∧ mx = some 1 then digitCls
  else GExpr.rep digitCls mn mx

/-- Length of the common prefix (the `while` loop of src lines 105-108). -/
def commonPrefixLen : List Char → List Char → Nat
  | a :: as, b :: bs => if a = b then commonPrefixLen as bs + 1 else 0
  | _, _ => 0

/-- `uniformRange(fromStr, toStr)` (src lines 104-171): strips the common
prefix, then branches on the first diverging digit; each `out.push` of the
source appears as the corresponding node. -/
def uniformRangeE (ds bs : List Char) : GExpr :=
  let i := commonPrefixLen ds bs
  if hl : i < ds.length then
    let d := ds.get ⟨i, hl⟩
    let b := bs.getD i '0'
    let subLen := ds.length - i - 1
    let core :=
      if 0 < subLen then
        let fromSub := ds.drop (i + 1)
        let toSub := bs.drop (i + 1)
        let subZeros := List.replicate subLen '0'
        let subNines := List.replicate subLen '9'
        GExpr.grp
          (if fromSub = subZeros then
            GExpr.alt
              (GExpr.seq (digitRangeE d (chPred b)) (moreDigitsE subLen (some subLen)))
              (GExpr.seq (digitRangeE b b) (uniformRangeE subZeros toSub))
          else
            let base := GExpr.seq (GExpr.cls false [ClsItem.single d])
              (GExpr.grp (uniformRangeE fromSub subNines))
            if d.toNat < b.toNat - 1 then
              if toSub = subNines then
                GExpr.alt base
                  (GExpr.seq (digitRangeE (chSucc d) b) (moreDigitsE subLen (some subLen)))
              else
                GExpr.alt
                  (GExpr.alt base
                    (GExpr.seq (digitRangeE (chSucc d) (chPred b))
                      (moreDigitsE subLen (some subLen))))
                  (GExpr.seq (digitRangeE b b) (uniformRangeE subZeros toSub))
            else
              GExpr.alt base
                (GExpr.seq (digitRangeE b b) (uniformRangeE subZeros toSub)))
      else GExpr.cls false [ClsItem.range d b]
    if 0 < i then GExpr.seq (GExpr.lit (ds.take i)) core else core
  else
    if 0 < i then GExpr.lit (ds.take i) else GExpr.eps
termination_by ds.length
decreasing_by
  all_goals (simp only [List.length_replicate, List.length_drop]; omega)

/-! ### Digit-string arithmetic support -/

theorem allDigits_append {a b : List Char} :
    allDigits (a ++ b) = (allDigits a && allDigits b) := by
  simp [allDigits, List.all_append]

theorem allDigits_cons {c : Char} {s : List Char} :
    allDigits (c :: s) = (isDigitChar c && allDigits s) := by
  simp [allDigits]

theorem toNat_eq_digitVal {c : Char} (h : isDigitChar c = true) :
    c.toNat = 48 + digitVal c := by
  rw [isDigitChar_iff_toNat] at h
  simp [digitVal]
  omega

theorem digit_le_iff {a c : Char} (ha : isDigitChar a = true)
    (hc : isDigitChar c = true) : a ≤ c ↔ digitVal a ≤ digitVal c := by
  rw [charLe_iff, toNat_eq_digitVal ha, toNat_eq_digitVal hc]
  omega

theorem digit_eq_iff {a c : Char} (ha : isDigitChar a = true)
    (hc : isDigitChar c = true) : a = c ↔ digitVal a = digitVal c := by
  rw [charEq_iff, toNat_eq_digitVal ha, toNat_eq_digitVal hc]
  omega

theorem chSucc_digit {d : Char} (h : isDigitChar d = true) :
    chSucc d = digitChar (digitVal d + 1) := by
  simp only [chSucc, digitChar, toNat_eq_digitVal h]
  congr 1

theorem chPred_digit {b : Char} (h : isDigitChar b = true)
    (h1 : 1 ≤ digitVal b) : chPred b = digitChar (digitVal b - 1) := by
  simp only [chPred, digitChar, toNat_eq_digitVal h]
  congr 1
  omega

theorem strVal_inj : ∀ {s t : List Char}, s.length = t.length →
    allDigits s = true → allDigits t = true → strVal s = strVal t → s = t := by
  intro s
  induction s with
  | nil =>
    intro t hl _ _ _
    cases t with
    | nil => rfl
    | cons c cs => simp at hl
  | cons c cs ih =>
    intro t hl hds hdt hv
    cases t with
    | nil => simp at hl
    | cons d ds =>
      simp only [List.length_cons] at hl
      rw [allDigits_cons, Bool.and_eq_true] at hds hdt
      rw [strVal_cons, strVal_cons] at hv
      have hlen : cs.length = ds.length := by omega
      rw [hlen] at hv
      have hb1 : strVal cs < 10 ^ ds.length := hlen ▸ strVal_lt cs hds.2
      have hb2 : strVal ds < 10 ^ ds.length := strVal_lt ds hdt.2
      have hdv : digitVal c = digitVal d := by
        by_cases hcd : digitVal c = digitVal d
        · exact hcd
        · exfalso
          rcases Nat.lt_or_ge (digitVal c) (digitVal d) with hlt | hge
          · nlinarith [hv, hb1, hb2]
          · have : digitVal d < digitVal c := by omega
            nlinarith [hv, hb1, hb2]
      have hc : c = d := (digit_eq_iff hds.1 hdt.1).mpr hdv
      have hs : cs = ds := ih hlen hds.2 hdt.2 (by
        rw [hdv] at hv
        omega)
      rw [hc, hs]

theorem strVal_le_of_take_eq {s t : List Char} (hlen : s.length = t.length)
    (hds : allDigits s = true) (hdt : allDigits t = true) :
    ∀ (m : Nat), s.take m = t.take m →
      (strVal s ≤ strVal t ↔ strVal (s.drop m) ≤ strVal (t.drop m)) := by
  intro m hpre
  have hs : s = s.take m ++ s.drop m := (List.take_append_drop m s).symm
  have ht : t = t.take m ++ t.drop m := (List.take_append_drop m t).symm
  constructor
  · intro h
    rw [hs, ht, strVal_append, strVal_append, hpre] at h
    have hdl : (s.drop m).length = (t.drop m).length := by
      simp [hlen]
    rw [hdl] at h
    omega
  · intro h
    rw [hs, ht, strVal_append, strVal_append, hpre]
    have hdl : (s.drop m).length = (t.drop m).length := by
      simp [hlen]
    rw [hdl]
    omega

theorem take_val_between {lo hi s : List Char} (m : Nat)
    (hlo_len : lo.length = s.length) (hhi_len : hi.length = s.length)
    (hm : m ≤ s.length)
    (hd1 : allDigits lo = true) (hd2 : allDigits hi = true)
    (hd3 : allDigits s = true)
    (hpre : lo.take m = hi.take m)
    (h1 : strVal lo ≤ strVal s) (h2 : strVal s ≤ strVal hi) :
    s.take m = lo.take m := by
  have hslo : lo = lo.take m ++ lo.drop m := (List.take_append_drop m lo).symm
  have hshi : hi = hi.take m ++ hi.drop m := (List.take_append_drop m hi).symm
  have hss : s = s.take m ++ s.drop m := (List.take_append_drop m s).symm
  have hdlo_len : (lo.drop m).length = s.length - m := by simp [hlo_len]
  have hdhi_len : (hi.drop m).length = s.length - m := by simp [hhi_len]
  have hds_len : (s.drop m).length = s.length - m := by simp
  have hdiglo := @allDigits_append (lo.take m) (lo.drop m)
  rw [← hslo, hd1] at hdiglo
  have hdighi := @allDigits_append (hi.take m) (hi.drop m)
  rw [← hshi, hd2] at hdighi
  have hdigs := @allDigits_append (s.take m) (s.drop m)
  rw [← hss, hd3] at hdigs
  have hblo : strVal (lo.drop m) < 10 ^ (s.length - m) := by
    rw [← hdlo_len]
    exact strVal_lt _ (by
      rcases Bool.and_eq_true _ _ |>.mp hdiglo.symm with ⟨_, h⟩
      exact h)
  have hbhi : strVal (hi.drop m) < 10 ^ (s.length - m) := by
    rw [← hdhi_len]
    exact strVal_lt _ (by
      rcases Bool.and_eq_true _ _ |>.mp hdighi.symm with ⟨_, h⟩
      exact h)
  have hbs : strVal (s.drop m) < 10 ^ (s.length - m) := by
    rw [← hds_len]
    exact strVal_lt _ (by
      rcases Bool.and_eq_true _ _ |>.mp hdigs.symm with ⟨_, h⟩
      exact h)
  have hv1 : strVal lo =
      strVal (lo.take m) * 10 ^ (s.length - m) + strVal (lo.drop m) := by
    conv_lhs => rw [hslo]
    rw [strVal_append, hdlo_len]
  have hv2 : strVal hi =
      strVal (hi.take m) * 10 ^ (s.length - m) + strVal (hi.drop m) := by
    conv_lhs => rw [hshi]
    rw [strVal_append, hdhi_len]
  have hv3 : strVal s =
      strVal (s.take m) * 10 ^ (s.length - m) + strVal (s.drop m) := by
    conv_lhs => rw [hss]
    rw [strVal_append, hds_len]
  have hveq : strVal (s.take m) = strVal (lo.take m) := by
    rw [hpre] at hv1 ⊢
    have hB : 0 < 10 ^ (s.length - m) := Nat.pos_pow_of_pos _ (by omega)
    nlinarith [hv1, hv2, hv3, hblo, hbhi, hbs]
  refine strVal_inj ?_ ?_ ?_ hveq
  · simp [hlo_len]
  · rcases Bool.and_eq_true _ _ |>.mp hdigs.symm with ⟨h, _⟩
    exact h
  · rcases Bool.and_eq_true _ _ |>.mp hdiglo.symm with ⟨h, _⟩
    exact h

/-! ### Languages of the small integer-range pieces -/

theorem clsMatches_digit (c : Char) :
    clsMatches false [ClsItem.range '0' '9'] c = isDigitChar c := by
  simp [clsMatches, clsItemMatches, isDigitChar]

theorem gpow_digits {env : Env} : ∀ (k : Nat) (s : List Char),
    GPow env digitCls k s ↔ s.length = k ∧ allDigits s = true := by
  intro k
  induction k with
  | zero =>
    intro s
    rw [gpow_zero_iff]
    constructor
    · rintro rfl; simp [allDigits]
    · intro ⟨h, _⟩
      exact List.length_eq_zero.mp h
  | succ n ih =>
    intro s
    rw [gpow_succ_iff]
    constructor
    · rintro ⟨u, v, rfl, hu, hv⟩
      rcases gmatch_cls_iff.mp hu with ⟨c, rfl, hc⟩
      rw [clsMatches_digit] at hc
      rcases (ih v).mp hv with ⟨hl, hd⟩
      refine ⟨by simp [hl], ?_⟩
      rw [List.singleton_append, allDigits_cons, hc, hd]
      rfl
    · intro ⟨hl, hd⟩
      cases s with
      | nil => simp at hl
      | cons c v =>
        rw [allDigits_cons, Bool.and_eq_true] at hd
        refine ⟨[c], v, rfl, GMatch.cls (by rw [clsMatches_digit]; exact hd.1), ?_⟩
        exact (ih v).mpr ⟨by simpa using hl, hd.2⟩

theorem moreDigitsE_lang {env : Env} (k : Nat) (hk : 0 < k) (s : List Char) :
    GMatch env (moreDigitsE k (some k)) s ↔ s.length = k ∧ allDigits s = true := by
  by_cases h1 : k = 1
  · subst h1
    rw [moreDigitsE, if_pos (by simp)]
    constructor
    · intro h
      rcases gmatch_cls_iff.mp h with ⟨c, rfl, hc⟩
      rw [clsMatches_digit] at hc
      simp [allDigits, hc]
    · intro ⟨hl, hd⟩
      cases s with
      | nil => simp at hl
      | cons c v =>
        have hv : v = [] := by
          simpa using hl
        subst hv
        rw [allDigits_cons] at hd
        simp at hd
        exact GMatch.cls (by rw [clsMatches_digit]; simp [hd])
  · rw [moreDigitsE, if_neg (by simp [h1])]
    rw [gmatch_rep_iff]
    constructor
    · rintro ⟨j, hpow, hlo, hhi⟩
      have := hhi k rfl
      have hj : j = k := by omega
      subst hj
      exact (gpow_digits _ _).mp hpow
    · intro ⟨hl, hd⟩
      exact ⟨k, (gpow_digits _ _).mpr ⟨hl, hd⟩, le_refl _, fun m hm => by
        injection hm with hm
        omega⟩

theorem digitRangeE_lang {env : Env} {a b : Char} (ha : isDigitChar a = true)
    (hb : isDigitChar b = true) (s : List Char) :
    GMatch env (digitRangeE a b) s ↔
      ∃ c, s = [c] ∧ isDigitChar c = true ∧
        digitVal a ≤ digitVal c ∧ digitVal c ≤ digitVal b := by
  rw [digitRangeE]
  by_cases hab : a = b
  · rw [if_pos hab]
    rw [gmatch_cls_iff]
    constructor
    · rintro ⟨c, rfl, hc⟩
      have hceq : c = a := by simpa [clsMatches, clsItemMatches] using hc
      subst hceq
      subst hab
      exact ⟨c, rfl, ha, le_refl _, le_refl _⟩
    · rintro ⟨c, rfl, hc, h1, h2⟩
      subst hab
      have hdv : digitVal c = digitVal a := by omega
      have hca : c = a := (digit_eq_iff hc ha).mpr hdv
      subst hca
      refine ⟨c, rfl, ?_⟩
      simp [clsMatches, clsItemMatches]
  · rw [if_neg hab]
    rw [gmatch_cls_iff]
    constructor
    · rintro ⟨c, rfl, hc⟩
      rw [show clsMatches false [ClsItem.range a b] c =
          (decide (a ≤ c) && decide (c ≤ b)) by
        simp [clsMatches, clsItemMatches]] at hc
      rw [Bool.and_eq_true, decide_eq_true_eq, decide_eq_true_eq] at hc
      have hcd : isDigitChar c = true := by
        rw [isDigitChar_iff_toNat]
        have h1 := (charLe_iff a c).mp hc.1
        have h2 := (charLe_iff c b).mp hc.2
        rw [toNat_eq_digitVal ha] at h1
        rw [toNat_eq_digitVal hb] at h2
        have hvb := digitVal_lt_ten hb
        omega
      refine ⟨c, rfl, hcd, ?_, ?_⟩
      · exact (digit_le_iff ha hcd).mp hc.1
      · exact (digit_le_iff hcd hb).mp hc.2
    · rintro ⟨c, rfl, hc, h1, h2⟩
      refine ⟨c, rfl, ?_⟩
      rw [show clsMatches false [ClsItem.range a b] c =
          (decide (a ≤ c) && decide (c ≤ b)) by
        simp [clsMatches, clsItemMatches]]
      rw [Bool.and_eq_true, decide_eq_true_eq, decide_eq_true_eq]
      exact ⟨(digit_le_iff ha hc).mpr h1, (digit_le_iff hc hb).mpr h2⟩

/-! ### Common-prefix lemmas -/

theorem commonPrefixLen_le_left : ∀ (a b : List Char), commonPrefixLen a b ≤ a.length := by
  intro a
  induction a with
  | nil => intro b; simp [commonPrefixLen]
  | cons x xs ih =>
    intro b
    cases b with
    | nil => simp [commonPrefixLen]
    | cons y ys =>
      simp only [commonPrefixLen]
      by_cases h : x = y
      · simp only [if_pos h, List.length_cons]
        have := ih ys
        omega
      · simp [h]

theorem commonPrefixLen_take : ∀ (a b : List Char),
    a.take (commonPrefixLen a b) = b.take (commonPrefixLen a b) := by
  intro a
  induction a with
  | nil => intro b; simp [commonPrefixLen]
  | cons x xs ih =>
    intro b
    cases b with
    | nil => simp [commonPrefixLen]
    | cons y ys =>
      simp only [commonPrefixLen]
      by_cases h : x = y
      · simp only [if_pos h, List.take_succ_cons]
        rw [h, ih ys]
      · simp [h]

theorem list_getD_eq_get {l : List Char} {i : Nat} (h : i < l.length) :
    l.getD i '0' = l.get ⟨i, h⟩ := by
  rw [List.getD_eq_getElem l '0' h]
  simp

theorem commonPrefixLen_getD_ne : ∀ (a b : List Char),
    commonPrefixLen a b < a.length → commonPrefixLen a b < b.length →
    a.getD (commonPrefixLen a b) '0' ≠ b.getD (commonPrefixLen a b) '0' := by
  intro a
  induction a with
  | nil => intro b h1; simp at h1
  | cons x xs ih =>
    intro b h1 h2
    cases b with
    | nil => simp at h2
    | cons y ys =>
      by_cases h : x = y
      · have he : commonPrefixLen (x :: xs) (y :: ys) = commonPrefixLen xs ys + 1 := by
          simp [commonPrefixLen, h]
        rw [he] at h1 h2 ⊢
        simp only [List.getD_cons_succ]
        exact ih ys (by simpa using h1) (by simpa using h2)
      · have he : commonPrefixLen (x :: xs) (y :: ys) = 0 := by
          simp [commonPrefixLen, h]
        rw [he]
        simpa using h

/-! ### Branch unfoldings of `uniformRangeE` -/

theorem uniformRangeE_allCommon {ds bs : List Char}
    (h : ¬ commonPrefixLen ds bs < ds.length) :
    uniformRangeE ds bs =
      (if 0 < commonPrefixLen ds bs then GExpr.lit (ds.take (commonPrefixLen ds bs))
       else GExpr.eps) := by
  rw [uniformRangeE, dif_neg h]

theorem uniformRangeE_case0 {ds bs : List Char} {d b : Char}
    (h : commonPrefixLen ds bs < ds.length)
    (hd : ds.get ⟨commonPrefixLen ds bs, h⟩ = d)
    (hb : bs.getD (commonPrefixLen ds bs) '0' = b)
    (hs : ds.length - commonPrefixLen ds bs - 1 = 0) :
    uniformRangeE ds bs =
      (if 0 < commonPrefixLen ds bs then
        GExpr.seq (GExpr.lit (ds.take (commonPrefixLen ds bs)))
          (GExpr.cls false [ClsItem.range d b])
      else GExpr.cls false [ClsItem.range d b]) := by
  subst hd
  subst hb
  rw [uniformRangeE, dif_pos h]
  have hc : ¬ (0 < ds.length - commonPrefixLen ds bs - 1) := by omega
  simp only [if_neg hc]

theorem uniformRangeE_caseZeros {ds bs : List Char} {d b : Char} {k : Nat}
    (h : commonPrefixLen ds bs < ds.length)
    (hd : ds.get ⟨commonPrefixLen ds bs, h⟩ = d)
    (hb : bs.getD (commonPrefixLen ds bs) '0' = b)
    (hk : ds.length - commonPrefixLen ds bs - 1 = k)
    (hpos : 0 < k)
    (hz : ds.drop (commonPrefixLen ds bs + 1) = List.replicate k '0') :
    uniformRangeE ds bs =
      (if 0 < commonPrefixLen ds bs then
        GExpr.seq (GExpr.lit (ds.take (commonPrefixLen ds bs)))
          (GExpr.grp (GExpr.alt
            (GExpr.seq (digitRangeE d (chPred b)) (moreDigitsE k (some k)))
            (GExpr.seq (digitRangeE b b)
              (uniformRangeE (List.replicate k '0')
                (bs.drop (commonPrefixLen ds bs + 1))))))
      else
        GExpr.grp (GExpr.alt
          (GExpr.seq (digitRangeE d (chPred b)) (moreDigitsE k (some k)))
          (GExpr.seq (digitRangeE b b)
            (uniformRangeE (List.replicate k '0')
              (bs.drop (commonPrefixLen ds bs + 1)))))) := by
  subst hd
  subst hb
  subst hk
  rw [uniformRangeE, dif_pos h]
  simp only [if_pos hpos, if_pos hz]

theorem uniformRangeE_caseNines {ds bs : List Char} {d b : Char} {k : Nat}
    (h : commonPrefixLen ds bs < ds.length)
    (hd : ds.get ⟨commonPrefixLen ds bs, h⟩ = d)
    (hb : bs.getD (commonPrefixLen ds bs) '0' = b)
    (hk : ds.length - commonPrefixLen ds bs - 1 = k)
    (hpos : 0 < k)
    (hnz : ¬ ds.drop (commonPrefixLen ds bs + 1) = List.replicate k '0')
    (hgap : d.toNat < b.toNat - 1)
    (hnines : bs.drop (commonPrefixLen ds bs + 1) = List.replicate k '9') :
    uniformRangeE ds bs =
      (if 0 < commonPrefixLen ds bs then
        GExpr.seq (GExpr.lit (ds.take (commonPrefixLen ds bs)))
          (GExpr.grp (GExpr.alt
            (GExpr.seq (GExpr.cls false [ClsItem.single d])
              (GExpr.grp (uniformRangeE (ds.drop (commonPrefixLen ds bs + 1))
                (List.replicate k '9'))))
            (GExpr.seq (digitRangeE (chSucc d) b) (moreDigitsE k (some k)))))
      else
        GExpr.grp (GExpr.alt
          (GExpr.seq (GExpr.cls false [ClsItem.single d])
            (GExpr.grp (uniformRangeE (ds.drop (commonPrefixLen ds bs + 1))
              (List.replicate k '9'))))
          (GExpr.seq (digitRangeE (chSucc d) b) (moreDigitsE k (some k))))) := by
  subst hd
  subst hb
  subst hk
  rw [uniformRangeE, dif_pos h]
  simp only [if_pos hpos, if_neg hnz, if_pos hgap, if_pos hnines]

theorem uniformRangeE_caseMid {ds bs : List Char} {d b : Char} {k : Nat}
    (h : commonPrefixLen ds bs < ds.length)
    (hd : ds.get ⟨commonPrefixLen ds bs, h⟩ = d)
    (hb : bs.getD (commonPrefixLen ds bs) '0' = b)
    (hk : ds.length - commonPrefixLen ds bs - 1 = k)
    (hpos : 0 < k)
    (hnz : ¬ ds.drop (commonPrefixLen ds bs + 1) = List.replicate k '0')
    (hgap : d.toNat < b.toNat - 1)
    (hnines : ¬ bs.drop (commonPrefixLen ds bs + 1) = List.replicate k '9') :
    uniformRangeE ds bs =
      (if 0 < commonPrefixLen ds bs then
        GExpr.seq (GExpr.lit (ds.take (commonPrefixLen ds bs)))
          (GExpr.grp (GExpr.alt
            (GExpr.alt
              (GExpr.seq (GExpr.cls false [ClsItem.single d])
                (GExpr.grp (uniformRangeE (ds.drop (commonPrefixLen ds bs + 1))
                  (List.replicate k '9'))))
              (GExpr.seq (digitRangeE (chSucc d) (chPred b)) (moreDigitsE k (some k))))
            (GExpr.seq (digitRangeE b b)
              (uniformRangeE (List.replicate k '0')
                (bs.drop (commonPrefixLen ds bs + 1))))))
      else
        GExpr.grp (GExpr.alt
          (GExpr.alt
            (GExpr.seq (GExpr.cls false [ClsItem.single d])
              (GExpr.grp (uniformRangeE (ds.drop (commonPrefixLen ds bs + 1))
                (List.replicate k '9'))))
            (GExpr.seq (digitRangeE (chSucc d) (chPred b)) (moreDigitsE k (some k))))
          (GExpr.seq (digitRangeE b b)
            (uniformRangeE (List.replicate k '0')
              (bs.drop (commonPrefixLen ds bs + 1)))))) := by
  subst hd
  subst hb
  subst hk
  rw [uniformRangeE, dif_pos h]
  simp only [if_pos hpos, if_neg hnz, if_pos hgap, if_neg hnines]

theorem uniformRangeE_caseAdj {ds bs : List Char} {d b : Char} {k : Nat}
    (h : commonPrefixLen ds bs < ds.length)
    (hd : ds.get ⟨commonPrefixLen ds bs, h⟩ = d)
    (hb : bs.getD (commonPrefixLen ds bs) '0' = b)
    (hk : ds.length - commonPrefixLen ds bs - 1 = k)
    (hpos : 0 < k)
    (hnz : ¬ ds.drop (commonPrefixLen ds bs + 1) = List.replicate k '0')
    (hgap : ¬ d.toNat < b.toNat - 1) :
    uniformRangeE ds bs =
      (if 0 < commonPrefixLen ds bs then
        GExpr.seq (GExpr.lit (ds.take (commonPrefixLen ds bs)))
          (GExpr.grp (GExpr.alt
            (GExpr.seq (GExpr.cls false [ClsItem.single d])
              (GExpr.grp (uniformRangeE (ds.drop (commonPrefixLen ds bs + 1))
                (List.replicate k '9'))))
            (GExpr.seq (digitRangeE b b)
              (uniformRangeE (List.replicate k '0')
                (bs.drop (commonPrefixLen ds bs + 1))))))
      else
        GExpr.grp (GExpr.alt
          (GExpr.seq (GExpr.cls false [ClsItem.single d])
            (GExpr.grp (uniformRangeE (ds.drop (commonPrefixLen ds bs + 1))
              (List.replicate k '9'))))
          (GExpr.seq (digitRangeE b b)
            (uniformRangeE (List.replicate k '0')
              (bs.drop (commonPrefixLen ds bs + 1)))))) := by
  subst hd
  subst hb
  subst hk
  rw [uniformRangeE, dif_pos h]
  simp only [if_pos hpos, if_neg hnz, if_neg hgap]

theorem allDigits_replicate_zero (k : Nat) : allDigits (List.replicate k '0') = true := by
  rw [allDigits, List.all_eq_true]
  intro c hc
  rw [List.eq_of_mem_replicate hc]
  decide

theorem allDigits_replicate_nine (k : Nat) : allDigits (List.replicate k '9') = true := by
  rw [allDigits, List.all_eq_true]
  intro c hc
  rw [List.eq_of_mem_replicate hc]
  decide

theorem strVal_replicate_zero (k : Nat) : strVal (List.replicate k '0') = 0 := by
  induction k with
  | zero => rfl
  | succ n ih =>
    rw [List.replicate_succ, strVal_cons, ih]
    have h0 : digitVal '0' = 0 := by decide
    rw [h0]
    simp

theorem strVal_replicate_nine (k : Nat) : strVal (List.replicate k '9') = 10 ^ k - 1 := by
  induction k with
  | zero => rfl
  | succ n ih =>
    rw [List.replicate_succ, strVal_cons, ih]
    have h9 : digitVal '9' = 9 := by decide
    rw [h9]
    simp only [List.length_replicate]
    have : 0 < 10 ^ n := Nat.pos_pow_of_pos _ (by omega)
    have : (10 : Nat) ^ (n + 1) = 10 * 10 ^ n := by ring
    omega

theorem eq_replicate_zero_of_val {x : List Char} {k : Nat} (hl : x.length = k)
    (hd : allDigits x = true) (hv : strVal x = 0) : x = List.replicate k '0' := by
  refine strVal_inj ?_ hd (allDigits_replicate_zero k) ?_
  · simp [hl]
  · rw [hv, strVal_replicate_zero]

theorem eq_replicate_nine_of_val {x : List Char} {k : Nat} (hl : x.length = k)
    (hd : allDigits x = true) (hv : strVal x = 10 ^ k - 1) :
    x = List.replicate k '9' := by
  refine strVal_inj ?_ hd (allDigits_replicate_nine k) ?_
  · simp [hl]
  · rw [hv, strVal_replicate_nine]

theorem interval_head_split {B vd vb vF vT vc vx : Nat} (hB : 0 < B)
    (hF : vF < B) (hT : vT < B) (hx : vx < B) (hdb : vd < vb) :
    (vd * B + vF ≤ vc * B + vx ∧ vc * B + vx ≤ vb * B + vT) ↔
      ((vc = vd ∧ vF ≤ vx) ∨ (vd < vc ∧ vc < vb) ∨ (vc = vb ∧ vx ≤ vT)) := by
  constructor
  · intro ⟨h1, h2⟩
    have hlo : vd ≤ vc := by nlinarith
    have hhi : vc ≤ vb := by nlinarith
    rcases Nat.eq_or_lt_of_le hlo with he | hlt
    · left
      refine ⟨he.symm, ?_⟩
      rw [← he] at h1
      omega
    · rcases Nat.eq_or_lt_of_le hhi with he2 | hlt2
      · right; right
        refine ⟨he2, ?_⟩
        rw [he2] at h2
        omega
      · right; left
        exact ⟨hlt, hlt2⟩
  · rintro (⟨rfl, hle⟩ | ⟨h1, h2⟩ | ⟨rfl, hle⟩)
    · constructor
      · omega
      · nlinarith
    · constructor
      · nlinarith
      · nlinarith
    · constructor
      · nlinarith
      · omega

theorem seq_single_iff {env : Env} {d : Char} {e : GExpr} {s : List Char} :
    GMatch env (GExpr.seq (GExpr.cls false [ClsItem.single d]) e) s ↔
      ∃ x, s = d :: x ∧ GMatch env e x := by
  rw [gmatch_seq_iff]
  constructor
  · rintro ⟨u, v, rfl, hu, hv⟩
    rcases gmatch_cls_iff.mp hu with ⟨c, rfl, hc⟩
    have : c = d := by simpa [clsMatches, clsItemMatches] using hc
    subst this
    exact ⟨v, rfl, hv⟩
  · rintro ⟨x, rfl, hx⟩
    exact ⟨[d], x, rfl, GMatch.cls (by simp [clsMatches, clsItemMatches]), hx⟩

theorem seq_digitRange_iff {env : Env} {a b : Char} (ha : isDigitChar a = true)
    (hb : isDigitChar b = true) {e : GExpr} {s : List Char} :
    GMatch env (GExpr.seq (digitRangeE a b) e) s ↔
      ∃ c x, s = c :: x ∧ isDigitChar c = true ∧
        digitVal a ≤ digitVal c ∧ digitVal c ≤ digitVal b ∧ GMatch env e x := by
  rw [gmatch_seq_iff]
  constructor
  · rintro ⟨u, v, rfl, hu, hv⟩
    rcases (digitRangeE_lang ha hb u).mp hu with ⟨c, rfl, hc, h1, h2⟩
    exact ⟨c, v, rfl, hc, h1, h2, hv⟩
  · rintro ⟨c, x, rfl, hc, h1, h2, hx⟩
    exact ⟨[c], x, rfl, (digitRangeE_lang ha hb [c]).mpr ⟨c, rfl, hc, h1, h2⟩, hx⟩

theorem wrapPre_lang {env : Env} {i : Nat} {ds : List Char} {core : GExpr}
    {s : List Char} :
    GMatch env (if 0 < i then GExpr.seq (GExpr.lit (ds.take i)) core else core) s ↔
      ∃ s', s = ds.take i ++ s' ∧ GMatch env core s' := by
  by_cases h : 0 < i
  · rw [if_pos h, gmatch_seq_iff]
    constructor
    · rintro ⟨u, v, rfl, hu, hv⟩
      rw [gmatch_lit_iff] at hu
      subst hu
      exact ⟨v, rfl, hv⟩
    · rintro ⟨s', rfl, hc⟩
      exact ⟨_, _, rfl, GMatch.lit _, hc⟩
  · rw [if_neg h]
    have : i = 0 := by omega
    subst this
    simp

theorem allDigits_mem {l : List Char} (h : allDigits l = true) {c : Char}
    (hc : c ∈ l) : isDigitChar c = true := by
  rw [allDigits, List.all_eq_true] at h
  exact h c hc

theorem cons_interval_iff {d b : Char} {fromSub toSub : List Char} {k : Nat}
    (hdig_d : isDigitChar d = true) (hdig_b : isDigitChar b = true)
    (hlF : fromSub.length = k) (hlT : toSub.length = k)
    (hdF : allDigits fromSub = true) (hdT : allDigits toSub = true)
    (hlt : digitVal d < digitVal b) (s' : List Char) :
    (s'.length = k + 1 ∧ allDigits s' = true ∧
      strVal (d :: fromSub) ≤ strVal s' ∧ strVal s' ≤ strVal (b :: toSub)) ↔
    ∃ c x, s' = c :: x ∧ isDigitChar c = true ∧ x.length = k ∧
      allDigits x = true ∧
      ((digitVal c = digitVal d ∧ strVal fromSub ≤ strVal x) ∨
       (digitVal d < digitVal c ∧ digitVal c < digitVal b) ∨
       (digitVal c = digitVal b ∧ strVal x ≤ strVal toSub)) := by
  have hB : 0 < 10 ^ k := Nat.pos_pow_of_pos _ (by omega)
  have hvF : strVal fromSub < 10 ^ k := hlF ▸ strVal_lt fromSub hdF
  have hvT : strVal toSub < 10 ^ k := hlT ▸ strVal_lt toSub hdT
  constructor
  · intro ⟨hl, hdig, h1, h2⟩
    cases s' with
    | nil => simp at hl
    | cons c x =>
      rw [allDigits_cons, Bool.and_eq_true] at hdig
      have hxl : x.length = k := by simpa using hl
      have hvx : strVal x < 10 ^ k := hxl ▸ strVal_lt x hdig.2
      rw [strVal_cons, strVal_cons, hlF, hxl] at h1
      rw [strVal_cons, strVal_cons, hlT, hxl] at h2
      refine ⟨c, x, rfl, hdig.1, hxl, hdig.2, ?_⟩
      have := (interval_head_split hB hvF hvT hvx hlt).mp ⟨h1, h2⟩
      exact this
  · rintro ⟨c, x, rfl, hc, hxl, hxd, hdisj⟩
    have hvx : strVal x < 10 ^ k := hxl ▸ strVal_lt x hxd
    have hint := (interval_head_split hB hvF hvT hvx hlt).mpr hdisj
    refine ⟨by simp [hxl], ?_, ?_, ?_⟩
    · rw [allDigits_cons, hc, hxd]
      rfl
    · rw [strVal_cons, strVal_cons, hlF, hxl]
      exact hint.1
    · rw [strVal_cons, strVal_cons, hlT, hxl]
      exact hint.2

theorem coreZeros_lang {env : Env} {d b : Char} {toSub : List Char} {k : Nat}
    (hdig_d : isDigitChar d = true) (hdig_b : isDigitChar b = true)
    (hlt : digitVal d < digitVal b) (hpos : 0 < k)
    (hlT : toSub.length = k) (hdT : allDigits toSub = true)
    (hIH : ∀ x, GMatch env (uniformRangeE (List.replicate k '0') toSub) x ↔
      (x.length = k ∧ allDigits x = true ∧
        strVal (List.replicate k '0') ≤ strVal x ∧ strVal x ≤ strVal toSub))
    (s' : List Char) :
    GMatch env (GExpr.grp (GExpr.alt
        (GExpr.seq (digitRangeE d (chPred b)) (moreDigitsE k (some k)))
        (GExpr.seq (digitRangeE b b)
          (uniformRangeE (List.replicate k '0') toSub)))) s' ↔
      (s'.length = k + 1 ∧ allDigits s' = true ∧
        strVal (d :: List.replicate k '0') ≤ strVal s' ∧
        strVal s' ≤ strVal (b :: toSub)) := by
  have hb10 := digitVal_lt_ten hdig_b
  have hcp : chPred b = digitChar (digitVal b - 1) := chPred_digit hdig_b (by omega)
  have hcpd : isDigitChar (chPred b) = true := by
    rw [hcp]; exact isDigitChar_digitChar (by omega)
  have hcpv : digitVal (chPred b) = digitVal b - 1 := by
    rw [hcp]; exact digitVal_digitChar (by omega)
  rw [gmatch_grp_iff, gmatch_alt_iff,
    cons_interval_iff hdig_d hdig_b (List.length_replicate k '0') hlT
      (allDigits_replicate_zero k) hdT hlt s',
    seq_digitRange_iff hdig_d hcpd, seq_digitRange_iff hdig_b hdig_b]
  constructor
  · rintro (⟨c, x, rfl, hc, h1, h2, hm⟩ | ⟨c, x, rfl, hc, h1, h2, hm⟩)
    · obtain ⟨hxl, hxd⟩ := (moreDigitsE_lang k hpos x).mp hm
      refine ⟨c, x, rfl, hc, hxl, hxd, ?_⟩
      rw [hcpv] at h2
      rcases Nat.eq_or_lt_of_le h1 with he | hlt2
      · exact Or.inl ⟨he.symm, by rw [strVal_replicate_zero]; omega⟩
      · exact Or.inr (Or.inl ⟨hlt2, by omega⟩)
    · obtain ⟨hxl, hxd, hx0, hxT⟩ := (hIH x).mp hm
      exact ⟨c, x, rfl, hc, hxl, hxd, Or.inr (Or.inr ⟨by omega, hxT⟩)⟩
  · rintro ⟨c, x, rfl, hc, hxl, hxd, (⟨he, _⟩ | ⟨ha1, ha2⟩ | ⟨he, hT⟩)⟩
    · exact Or.inl ⟨c, x, rfl, hc, by omega, by rw [hcpv]; omega,
        (moreDigitsE_lang k hpos x).mpr ⟨hxl, hxd⟩⟩
    · exact Or.inl ⟨c, x, rfl, hc, by omega, by rw [hcpv]; omega,
        (moreDigitsE_lang k hpos x).mpr ⟨hxl, hxd⟩⟩
    · exact Or.inr ⟨c, x, rfl, hc, by omega, by omega,
        (hIH x).mpr ⟨hxl, hxd, by rw [strVal_replicate_zero]; omega, hT⟩⟩

theorem coreNines_lang {env : Env} {d b : Char} {fromSub : List Char} {k : Nat}
    (hdig_d : isDigitChar d = true) (hdig_b : isDigitChar b = true)
    (hlt : digitVal d < digitVal b) (hpos : 0 < k)
    (hlF : fromSub.length = k) (hdF : allDigits fromSub = true)
    (hIH : ∀ x, GMatch env (uniformRangeE fromSub (List.replicate k '9')) x ↔
      (x.length = k ∧ allDigits x = true ∧
        strVal fromSub ≤ strVal x ∧ strVal x ≤ strVal (List.replicate k '9')))
    (s' : List Char) :
    GMatch env (GExpr.grp (GExpr.alt
        (GExpr.seq (GExpr.cls false [ClsItem.single d])
          (GExpr.grp (uniformRangeE fromSub (List.replicate k '9'))))
        (GExpr.seq (digitRangeE (chSucc d) b) (moreDigitsE k (some k))))) s' ↔
      (s'.length = k + 1 ∧ allDigits s' = true ∧
        strVal (d :: fromSub) ≤ strVal s' ∧
        strVal s' ≤ strVal (b :: List.replicate k '9')) := by
  have hb10 := digitVal_lt_ten hdig_b
  have hcs : chSucc d = digitChar (digitVal d + 1) := chSucc_digit hdig_d
  have hcsd : isDigitChar (chSucc d) = true := by
    rw [hcs]; exact isDigitChar_digitChar (by omega)
  have hcsv : digitVal (chSucc d) = digitVal d + 1 := by
    rw [hcs]; exact digitVal_digitChar (by omega)
  rw [gmatch_grp_iff, gmatch_alt_iff,
    cons_interval_iff hdig_d hdig_b hlF (List.length_replicate k '9')
      hdF (allDigits_replicate_nine k) hlt s',
    seq_single_iff, seq_digitRange_iff hcsd hdig_b]
  constructor
  · rintro (⟨x, rfl, hm⟩ | ⟨c, x, rfl, hc, h1, h2, hm⟩)
    · rw [gmatch_grp_iff] at hm
      obtain ⟨hxl, hxd, hxF, hx9⟩ := (hIH x).mp hm
      exact ⟨d, x, rfl, hdig_d, hxl, hxd, Or.inl ⟨rfl, hxF⟩⟩
    · obtain ⟨hxl, hxd⟩ := (moreDigitsE_lang k hpos x).mp hm
      refine ⟨c, x, rfl, hc, hxl, hxd, ?_⟩
      rw [hcsv] at h1
      rcases Nat.eq_or_lt_of_le h2 with he | hlt2
      · refine Or.inr (Or.inr ⟨he, ?_⟩)
        rw [strVal_replicate_nine]
        have := hxl ▸ strVal_lt x hxd
        omega
      · exact Or.inr (Or.inl ⟨by omega, hlt2⟩)
  · rintro ⟨c, x, rfl, hc, hxl, hxd, (⟨he, hF⟩ | ⟨ha1, ha2⟩ | ⟨he, _⟩)⟩
    · have hcd : c = d := (digit_eq_iff hc hdig_d).mpr he
      subst hcd
      refine Or.inl ⟨x, rfl, ?_⟩
      rw [gmatch_grp_iff]
      refine (hIH x).mpr ⟨hxl, hxd, hF, ?_⟩
      rw [strVal_replicate_nine]
      have := hxl ▸ strVal_lt x hxd
      omega
    · exact Or.inr ⟨c, x, rfl, hc, by rw [hcsv]; omega, by omega,
        (moreDigitsE_lang k hpos x).mpr ⟨hxl, hxd⟩⟩
    · exact Or.inr ⟨c, x, rfl, hc, by rw [hcsv]; omega, by omega,
        (moreDigitsE_lang k hpos x).mpr ⟨hxl, hxd⟩⟩

theorem coreMid_lang {env : Env} {d b : Char} {fromSub toSub : List Char} {k : Nat}
    (hdig_d : isDigitChar d = true) (hdig_b : isDigitChar b = true)
    (hgap2 : digitVal d + 1 < digitVal b) (hpos : 0 < k)
    (hlF : fromSub.length = k) (hdF : allDigits fromSub = true)
    (hlT : toSub.length = k) (hdT : allDigits toSub = true)
    (hIH9 : ∀ x, GMatch env (uniformRangeE fromSub (List.replicate k '9')) x ↔
      (x.length = k ∧ allDigits x = true ∧
        strVal fromSub ≤ strVal x ∧ strVal x ≤ strVal (List.replicate k '9')))
    (hIH0 : ∀ x, GMatch env (uniformRangeE (List.replicate k '0') toSub) x ↔
      (x.length = k ∧ allDigits x = true ∧
        strVal (List.replicate k '0') ≤ strVal x ∧ strVal x ≤ strVal toSub))
    (s' : List Char) :
    GMatch env (GExpr.grp (GExpr.alt
        (GExpr.alt
          (GExpr.seq (GExpr.cls false [ClsItem.single d])
            (GExpr.grp (uniformRangeE fromSub (List.replicate k '9'))))
          (GExpr.seq (digitRangeE (chSucc d) (chPred b)) (moreDigitsE k (some k))))
        (GExpr.seq (digitRangeE b b)
          (uniformRangeE (List.replicate k '0') toSub)))) s' ↔
      (s'.length = k + 1 ∧ allDigits s' = true ∧
        strVal (d :: fromSub) ≤ strVal s' ∧ strVal s' ≤ strVal (b :: toSub)) := by
  have hb10 := digitVal_lt_ten hdig_b
  have hcs : chSucc d = digitChar (digitVal d + 1) := chSucc_digit hdig_d
  have hcsd : isDigitChar (chSucc d) = true := by
    rw [hcs]; exact isDigitChar_digitChar (by omega)
  have hcsv : digitVal (chSucc d) = digitVal d + 1 := by
    rw [hcs]; exact digitVal_digitChar (by omega)
  have hcp : chPred b = digitChar (digitVal b - 1) := chPred_digit hdig_b (by omega)
  have hcpd : isDigitChar (chPred b) = true := by
    rw [hcp]; exact isDigitChar_digitChar (by omega)
  have hcpv : digitVal (chPred b) = digitVal b - 1 := by
    rw [hcp]; exact digitVal_digitChar (by omega)
  rw [gmatch_grp_iff, gmatch_alt_iff, gmatch_alt_iff,
    cons_interval_iff hdig_d hdig_b hlF hlT hdF hdT (by omega) s',
    seq_single_iff, seq_digitRange_iff hcsd hcpd, seq_digitRange_iff hdig_b hdig_b]
  constructor
  · rintro ((⟨x, rfl, hm⟩ | ⟨c, x, rfl, hc, h1, h2, hm⟩) |
      ⟨c, x, rfl, hc, h1, h2, hm⟩)
    · rw [gmatch_grp_iff] at hm
      obtain ⟨hxl, hxd, hxF, hx9⟩ := (hIH9 x).mp hm
      exact ⟨d, x, rfl, hdig_d, hxl, hxd, Or.inl ⟨rfl, hxF⟩⟩
    · obtain ⟨hxl, hxd⟩ := (moreDigitsE_lang k hpos x).mp hm
      rw [hcsv] at h1
      rw [hcpv] at h2
      exact ⟨c, x, rfl, hc, hxl, hxd, Or.inr (Or.inl ⟨by omega, by omega⟩)⟩
    · obtain ⟨hxl, hxd, hx0, hxT⟩ := (hIH0 x).mp hm
      exact ⟨c, x, rfl, hc, hxl, hxd, Or.inr (Or.inr ⟨by omega, hxT⟩)⟩
  · rintro ⟨c, x, rfl, hc, hxl, hxd, (⟨he, hF⟩ | ⟨ha1, ha2⟩ | ⟨he, hT⟩)⟩
    · have hcd : c = d := (digit_eq_iff hc hdig_d).mpr he
      subst hcd
      refine Or.inl (Or.inl ⟨x, rfl, ?_⟩)
      rw [gmatch_grp_iff]
      refine (hIH9 x).mpr ⟨hxl, hxd, hF, ?_⟩
      rw [strVal_replicate_nine]
      have := hxl ▸ strVal_lt x hxd
      omega
    · exact Or.inl (Or.inr ⟨c, x, rfl, hc, by rw [hcsv]; omega,
        by rw [hcpv]; omega, (moreDigitsE_lang k hpos x).mpr ⟨hxl, hxd⟩⟩)
    · exact Or.inr ⟨c, x, rfl, hc, by omega, by omega,
        (hIH0 x).mpr ⟨hxl, hxd, by rw [strVal_replicate_zero]; omega, hT⟩⟩

theorem coreAdj_lang {env : Env} {d b : Char} {fromSub toSub : List Char} {k : Nat}
    (hdig_d : isDigitChar d = true) (hdig_b : isDigitChar b = true)
    (hadj : digitVal b = digitVal d + 1) (hpos : 0 < k)
    (hlF : fromSub.length = k) (hdF : allDigits fromSub = true)
    (hlT : toSub.length = k) (hdT : allDigits toSub = true)
    (hIH9 : ∀ x, GMatch env (uniformRangeE fromSub (List.replicate k '9')) x ↔
      (x.length = k ∧ allDigits x = true ∧
        strVal fromSub ≤ strVal x ∧ strVal x ≤ strVal (List.replicate k '9')))
    (hIH0 : ∀ x, GMatch env (uniformRangeE (List.replicate k '0') toSub) x ↔
      (x.length = k ∧ allDigits x = true ∧
        strVal (List.replicate k '0') ≤ strVal x ∧ strVal x ≤ strVal toSub))
    (s' : List Char) :
    GMatch env (GExpr.grp (GExpr.alt
        (GExpr.seq (GExpr.cls false [ClsItem.single d])
          (GExpr.grp (uniformRangeE fromSub (List.replicate k '9'))))
        (GExpr.seq (digitRangeE b b)
          (uniformRangeE (List.replicate k '0') toSub)))) s' ↔
      (s'.length = k + 1 ∧ allDigits s' = true ∧
        strVal (d :: fromSub) ≤ strVal s' ∧ strVal s' ≤ strVal (b :: toSub)) := by
  rw [gmatch_grp_iff, gmatch_alt_iff,
    cons_interval_iff hdig_d hdig_b hlF hlT hdF hdT (by omega) s',
    seq_single_iff, seq_digitRange_iff hdig_b hdig_b]
  constructor
  · rintro (⟨x, rfl, hm⟩ | ⟨c, x, rfl, hc, h1, h2, hm⟩)
    · rw [gmatch_grp_iff] at hm
      obtain ⟨hxl, hxd, hxF, hx9⟩ := (hIH9 x).mp hm
      exact ⟨d, x, rfl, hdig_d, hxl, hxd, Or.inl ⟨rfl, hxF⟩⟩
    · obtain ⟨hxl, hxd, hx0, hxT⟩ := (hIH0 x).mp hm
      exact ⟨c, x, rfl, hc, hxl, hxd, Or.inr (Or.inr ⟨by omega, hxT⟩)⟩
  · rintro ⟨c, x, rfl, hc, hxl, hxd, (⟨he, hF⟩ | ⟨ha1, ha2⟩ | ⟨he, hT⟩)⟩
    · have hcd : c = d := (digit_eq_iff hc hdig_d).mpr he
      subst hcd
      refine Or.inl ⟨x, rfl, ?_⟩
      rw [gmatch_grp_iff]
      refine (hIH9 x).mpr ⟨hxl, hxd, hF, ?_⟩
      rw [strVal_replicate_nine]
      have := hxl ▸ strVal_lt x hxd
      omega
    · omega
    · exact Or.inr ⟨c, x, rfl, hc, by omega, by omega,
        (hIH0 x).mpr ⟨hxl, hxd, by rw [strVal_replicate_zero]; omega, hT⟩⟩

theorem rhs_split {ds bs : List Char} {L : Nat} {d b : Char} {k : Nat}
    (hdl : ds.length = L) (hbl : bs.length = L)
    (hi : commonPrefixLen ds bs < ds.length)
    (hbi : commonPrefixLen ds bs < bs.length)
    (hdd : allDigits ds = true) (hbd : allDigits bs = true)
    (hd : ds.get ⟨commonPrefixLen ds bs, hi⟩ = d)
    (hb : bs.getD (commonPrefixLen ds bs) '0' = b)
    (hk : ds.length - commonPrefixLen ds bs - 1 = k)
    (s : List Char) :
    (s.length = L ∧ allDigits s = true ∧
      strVal ds ≤ strVal s ∧ strVal s ≤ strVal bs) ↔
    ∃ s', s = ds.take (commonPrefixLen ds bs) ++ s' ∧
      (s'.length = k + 1 ∧ allDigits s' = true ∧
        strVal (d :: ds.drop (commonPrefixLen ds bs + 1)) ≤ strVal s' ∧
        strVal s' ≤ strVal (b :: bs.drop (commonPrefixLen ds bs + 1))) := by
  have hds_cons : ds.drop (commonPrefixLen ds bs) =
      d :: ds.drop (commonPrefixLen ds bs + 1) := by
    rw [List.drop_eq_get_cons hi, hd]
  have hbs_cons : bs.drop (commonPrefixLen ds bs) =
      b :: bs.drop (commonPrefixLen ds bs + 1) := by
    rw [List.drop_eq_get_cons hbi, ← hb, list_getD_eq_get hbi]
  have hpre : ds.take (commonPrefixLen ds bs) = bs.take (commonPrefixLen ds bs) :=
    commonPrefixLen_take ds bs
  constructor
  · intro ⟨hl, hdig, h1, h2⟩
    have htake : s.take (commonPrefixLen ds bs) = ds.take (commonPrefixLen ds bs) :=
      take_val_between (commonPrefixLen ds bs) (by omega) (by omega) (by omega)
        hdd hbd hdig hpre h1 h2
    refine ⟨s.drop (commonPrefixLen ds bs), ?_, ?_, ?_, ?_, ?_⟩
    · conv_lhs => rw [← List.take_append_drop (commonPrefixLen ds bs) s]
      rw [htake]
    · simp
      omega
    · have hsp := hdig
      conv at hsp => rw [← List.take_append_drop (commonPrefixLen ds bs) s]
      rw [allDigits_append, Bool.and_eq_true] at hsp
      exact hsp.2
    · rw [← hds_cons]
      exact (strVal_le_of_take_eq (by omega) hdd hdig _ htake.symm).mp h1
    · rw [← hbs_cons]
      exact (strVal_le_of_take_eq (by omega) hdig hbd _
        (htake.trans hpre)).mp h2
  · rintro ⟨s', rfl, hsl, hsd, hF, hT⟩
    have htl : (ds.take (commonPrefixLen ds bs)).length = commonPrefixLen ds bs := by
      simp
      omega
    have hddrop : (ds.drop (commonPrefixLen ds bs)).length = k + 1 := by
      simp
      omega
    have hbdrop : (bs.drop (commonPrefixLen ds bs)).length = k + 1 := by
      simp
      omega
    have htd : allDigits (ds.take (commonPrefixLen ds bs)) = true := by
      have hsp := hdd
      conv at hsp => rw [← List.take_append_drop (commonPrefixLen ds bs) ds]
      rw [allDigits_append, Bool.and_eq_true] at hsp
      exact hsp.1
    refine ⟨?_, ?_, ?_, ?_⟩
    · rw [List.length_append, htl]
      omega
    · rw [allDigits_append, htd, hsd]
      rfl
    · conv_lhs => rw [← List.take_append_drop (commonPrefixLen ds bs) ds]
      rw [strVal_append, strVal_append, hddrop, hsl]
      refine Nat.add_le_add_left ?_ _
      rw [hds_cons]
      exact hF
    · conv_rhs => rw [← List.take_append_drop (commonPrefixLen ds bs) bs]
      rw [hpre, strVal_append, strVal_append, hbdrop, hsl]
      refine Nat.add_le_add_left ?_ _
      rw [hbs_cons]
      exact hT

theorem strVal_single (c : Char) : strVal [c] = digitVal c := by
  rw [strVal_cons]
  simp [strVal]

theorem uniformRangeE_lang {env : Env} : ∀ (L : Nat) (ds bs : List Char),
    ds.length = L → bs.length = L → allDigits ds = true → allDigits bs = true →
    strVal ds ≤ strVal bs → ∀ s : List Char,
    (GMatch env (uniformRangeE ds bs) s ↔
      (s.length = L ∧ allDigits s = true ∧ strVal ds ≤ strVal s ∧
        strVal s ≤ strVal bs)) := by
  intro L
  induction L using Nat.strong_induction_on with
  | _ L ih =>
  intro ds bs hdl hbl hdd hbd hord s
  by_cases hi : commonPrefixLen ds bs < ds.length
  · -- the strings diverge at some position
    have hbi : commonPrefixLen ds bs < bs.length := by omega
    obtain ⟨d, hd⟩ : ∃ d, ds.get ⟨commonPrefixLen ds bs, hi⟩ = d := ⟨_, rfl⟩
    obtain ⟨b, hb⟩ : ∃ b, bs.getD (commonPrefixLen ds bs) '0' = b := ⟨_, rfl⟩
    obtain ⟨k, hk⟩ : ∃ k, ds.length - commonPrefixLen ds bs - 1 = k := ⟨_, rfl⟩
    have hdig_d : isDigitChar d = true := by
      refine allDigits_mem hdd ?_
      rw [← hd]
      exact List.get_mem ds _ _
    have hdig_b : isDigitChar b = true := by
      refine allDigits_mem hbd ?_
      rw [← hb, list_getD_eq_get hbi]
      exact List.get_mem bs _ _
    have hne : d ≠ b := by
      have hgn := commonPrefixLen_getD_ne ds bs hi hbi
      rw [list_getD_eq_get hi, hd, hb] at hgn
      exact hgn
    have hds_cons : ds.drop (commonPrefixLen ds bs) =
        d :: ds.drop (commonPrefixLen ds bs + 1) := by
      rw [List.drop_eq_get_cons hi, hd]
    have hbs_cons : bs.drop (commonPrefixLen ds bs) =
        b :: bs.drop (commonPrefixLen ds bs + 1) := by
      rw [List.drop_eq_get_cons hbi, ← hb, list_getD_eq_get hbi]
    have hdropd : allDigits (ds.drop (commonPrefixLen ds bs)) = true := by
      have hsp := hdd
      conv at hsp => rw [← List.take_append_drop (commonPrefixLen ds bs) ds]
      rw [allDigits_append, Bool.and_eq_true] at hsp
      exact hsp.2
    have hdropb : allDigits (bs.drop (commonPrefixLen ds bs)) = true := by
      have hsp := hbd
      conv at hsp => rw [← List.take_append_drop (commonPrefixLen ds bs) bs]
      rw [allDigits_append, Bool.and_eq_true] at hsp
      exact hsp.2
    have hdF : allDigits (ds.drop (commonPrefixLen ds bs + 1)) = true := by
      rw [hds_cons, allDigits_cons, Bool.and_eq_true] at hdropd
      exact hdropd.2
    have hdT : allDigits (bs.drop (commonPrefixLen ds bs + 1)) = true := by
      rw [hbs_cons, allDigits_cons, Bool.and_eq_true] at hdropb
      exact hdropb.2
    have hlF : (ds.drop (commonPrefixLen ds bs + 1)).length = k := by
      simp
      omega
    have hlT : (bs.drop (commonPrefixLen ds bs + 1)).length = k := by
      simp
      omega
    have hvlt : digitVal d < digitVal b := by
      have h1 := (strVal_le_of_take_eq (by omega) hdd hbd (commonPrefixLen ds bs)
        (commonPrefixLen_take ds bs)).mp hord
      rw [hds_cons, hbs_cons, strVal_cons, strVal_cons, hlF, hlT] at h1
      have hvF : strVal (ds.drop (commonPrefixLen ds bs + 1)) < 10 ^ k :=
        hlF ▸ strVal_lt _ hdF
      have hvT : strVal (bs.drop (commonPrefixLen ds bs + 1)) < 10 ^ k :=
        hlT ▸ strVal_lt _ hdT
      have hdvne : digitVal d ≠ digitVal b := fun hcontra =>
        hne ((digit_eq_iff hdig_d hdig_b).mpr hcontra)
      have hB : 0 < 10 ^ k := Nat.pos_pow_of_pos _ (by omega)
      rcases Nat.lt_or_ge (digitVal d) (digitVal b) with hlt | hge
      · exact hlt
      · exfalso
        have hbd2 : digitVal b < digitVal d := by omega
        nlinarith
    rw [rhs_split hdl hbl hi hbi hdd hbd hd hb hk s]
    by_cases hk0 : k = 0
    · subst hk0
      rw [uniformRangeE_case0 hi hd hb hk, wrapPre_lang]
      apply exists_congr
      intro s'
      apply and_congr_right
      intro _
      have hfe : ds.drop (commonPrefixLen ds bs + 1) = [] :=
        List.eq_nil_of_length_eq_zero hlF
      have hte : bs.drop (commonPrefixLen ds bs + 1) = [] :=
        List.eq_nil_of_length_eq_zero hlT
      have hdr : GExpr.cls false [ClsItem.range d b] = digitRangeE d b := by
        rw [digitRangeE, if_neg hne]
      rw [hfe, hte, hdr, digitRangeE_lang hdig_d hdig_b]
      constructor
      · rintro ⟨c, rfl, hc, h1, h2⟩
        refine ⟨rfl, ?_, ?_, ?_⟩
        · rw [allDigits_cons, hc]
          rfl
        · rw [strVal_single, strVal_single]
          omega
        · rw [strVal_single, strVal_single]
          omega
      · rintro ⟨hl, hdg, h1, h2⟩
        cases s' with
        | nil => simp at hl
        | cons c x =>
          have hx : x = [] := by simpa using hl
          subst hx
          rw [allDigits_cons, Bool.and_eq_true] at hdg
          rw [strVal_single, strVal_single] at h1 h2
          exact ⟨c, rfl, hdg.1, h1, h2⟩
    · have hpos : 0 < k := by omega
      have hkL : k < L := by omega
      by_cases hz : ds.drop (commonPrefixLen ds bs + 1) = List.replicate k '0'
      · rw [uniformRangeE_caseZeros hi hd hb hk hpos hz, wrapPre_lang]
        apply exists_congr
        intro s'
        apply and_congr_right
        intro _
        rw [hz]
        exact coreZeros_lang hdig_d hdig_b hvlt hpos hlT hdT
          (fun x => ih k hkL (List.replicate k '0')
            (bs.drop (commonPrefixLen ds bs + 1)) (by simp) hlT
            (allDigits_replicate_zero k) hdT
            (by rw [strVal_replicate_zero]; exact Nat.zero_le _) x) s'
      · by_cases hgap : d.toNat < b.toNat - 1
        · by_cases hnines :
              bs.drop (commonPrefixLen ds bs + 1) = List.replicate k '9'
          · rw [uniformRangeE_caseNines hi hd hb hk hpos hz hgap hnines,
              wrapPre_lang]
            apply exists_congr
            intro s'
            apply and_congr_right
            intro _
            rw [hnines]
            exact coreNines_lang hdig_d hdig_b hvlt hpos hlF hdF
              (fun x => ih k hkL (ds.drop (commonPrefixLen ds bs + 1))
                (List.replicate k '9') hlF (by simp) hdF
                (allDigits_replicate_nine k)
                (by
                  rw [strVal_replicate_nine]
                  have hvF := hlF ▸ strVal_lt _ hdF
                  omega) x) s'
          · have hgap2 : digitVal d + 1 < digitVal b := by
              rw [toNat_eq_digitVal hdig_d, toNat_eq_digitVal hdig_b] at hgap
              omega
            rw [uniformRangeE_caseMid hi hd hb hk hpos hz hgap hnines,
              wrapPre_lang]
            apply exists_congr
            intro s'
            apply and_congr_right
            intro _
            exact coreMid_lang hdig_d hdig_b hgap2 hpos hlF hdF hlT hdT
              (fun x => ih k hkL (ds.drop (commonPrefixLen ds bs + 1))
                (List.replicate k '9') hlF (by simp) hdF
                (allDigits_replicate_nine k)
                (by
                  rw [strVal_replicate_nine]
                  have hvF := hlF ▸ strVal_lt _ hdF
                  omega) x)
              (fun x => ih k hkL (List.replicate k '0')
                (bs.drop (commonPrefixLen ds bs + 1)) (by simp) hlT
                (allDigits_replicate_zero k) hdT
                (by rw [strVal_replicate_zero]; exact Nat.zero_le _) x) s'
        · have hadj : digitVal b = digitVal d + 1 := by
            rw [toNat_eq_digitVal hdig_d, toNat_eq_digitVal hdig_b] at hgap
            omega
          rw [uniformRangeE_caseAdj hi hd hb hk hpos hz hgap, wrapPre_lang]
          apply exists_congr
          intro s'
          apply and_congr_right
          intro _
          exact coreAdj_lang hdig_d hdig_b hadj hpos hlF hdF hlT hdT
            (fun x => ih k hkL (ds.drop (commonPrefixLen ds bs + 1))
              (List.replicate k '9') hlF (by simp) hdF
              (allDigits_replicate_nine k)
              (by
                rw [strVal_replicate_nine]
                have hvF := hlF ▸ strVal_lt _ hdF
                omega) x)
            (fun x => ih k hkL (List.replicate k '0')
              (bs.drop (commonPrefixLen ds bs + 1)) (by simp) hlT
              (allDigits_replicate_zero k) hdT
              (by rw [strVal_replicate_zero]; exact Nat.zero_le _) x) s'
  · -- the common prefix is all of the first string: the strings are equal
    have hieq : commonPrefixLen ds bs = ds.length := by
      have hle := commonPrefixLen_le_left ds bs
      omega
    have htake_ds : ds.take (commonPrefixLen ds bs) = ds := by
      rw [hieq]
      exact List.take_length ds
    have hdsbs : ds = bs := by
      have h1 := commonPrefixLen_take ds bs
      rw [htake_ds] at h1
      rw [hieq, hdl, ← hbl] at h1
      rw [h1]
      exact List.take_length bs
    rw [uniformRangeE_allCommon hi]
    by_cases hz0 : 0 < commonPrefixLen ds bs
    · rw [if_pos hz0, gmatch_lit_iff, htake_ds]
      constructor
      · rintro rfl
        exact ⟨hdl, hdd, le_refl _, hord⟩
      · rintro ⟨h1, h2, h3, h4⟩
        have hveq : strVal s = strVal ds := by
          rw [← hdsbs] at h4
          omega
        exact strVal_inj (by omega) h2 hdd hveq
    · rw [if_neg hz0, gmatch_eps_iff]
      have hds0 : ds = [] := List.eq_nil_of_length_eq_zero (by omega)
      have hbs0 : bs = [] := List.eq_nil_of_length_eq_zero (by
        rw [hbl, ← hdl]
        omega)
      constructor
      · rintro rfl
        subst hds0
        subst hbs0
        exact ⟨by omega, rfl, le_refl _, le_refl _⟩
      · rintro ⟨h1, _, _, _⟩
        have hL0 : L = 0 := by omega
        exact List.eq_nil_of_length_eq_zero (by omega)

/-! ### `generateMinMaxInt` with both bounds present (src lines 172-199) -/

/-- The `for (let digits = minDigits; digits < maxDigits; digits++)` loop of
src lines 192-197 followed by the final `uniformRange(minS, maxS)` call:
each iteration emits `uniformRange(minS, "9".repeat(digits))`, replaces
`minS` by `"1" + "0".repeat(digits)` and joins with `" | "`. -/
def bandsLoop (cur maxS : List Char) : GExpr :=
  if cur.length < maxS.length then
    GExpr.alt (uniformRangeE cur (List.replicate cur.length '9'))
      (bandsLoop ('1' :: List.replicate cur.length '0') maxS)
  else uniformRangeE cur maxS
termination_by maxS.length - cur.length
decreasing_by
  simp
  omega

/-- The nonnegative both-bounds body of `generateMinMaxInt` (src lines
187-198), with `minValue.toString()` and `maxValue.toString()` rendered by
`natDigits`. -/
def bandsE (m M : Nat) : GExpr := bandsLoop (natDigits m) (natDigits M)

/-- `generateMinMaxInt(minValue, maxValue, out)` with both bounds non-null
(src lines 172-199).  The two recursive calls of the source (lines 175 and
182) pass nonnegative bounds and therefore land in the band loop, embedded
here by `bandsE`. -/
def genMinMaxIntE (mn mx : Int) : GExpr :=
  if mn < 0 ∧ mx < 0 then
    GExpr.seq (GExpr.lit ['-']) (GExpr.grp (bandsE (-mx).toNat (-mn).toNat))
  else if mn < 0 then
    GExpr.alt (GExpr.seq (GExpr.lit ['-']) (GExpr.grp (bandsE 0 (-mn).toNat)))
      (bandsE 0 mx.toNat)
  else
    bandsE mn.toNat mx.toNat

/-- A digit string has a leading zero iff it starts with `'0'` and has at
least two characters. -/
def leadZero : List Char → Bool
  | c :: _ :: _ => c = '0'
  | _ => false

/-- Leading-zero test for an integer representation: the sign is skipped. -/
def hasLeadingZero (s : List Char) : Bool :=
  match s with
  | c :: rest => if c = '-' then leadZero rest else leadZero (c :: rest)
  | [] => false

/-! ### Digit-count lemmas for `natDigits` -/

theorem natDigits_length_pos (n : Nat) : 0 < (natDigits n).length :=
  List.length_pos.mpr (natDigits_ne_nil n)

theorem natDigits_lt_pow (n : Nat) : n < 10 ^ (natDigits n).length := by
  have h := strVal_lt (natDigits n) (allDigits_natDigits n)
  rw [strVal_natDigits] at h
  exact h

theorem natDigits_ge_pow : ∀ n : Nat, 1 ≤ n →
    10 ^ ((natDigits n).length - 1) ≤ n := by
  intro n
  induction n using Nat.strong_induction_on with
  | _ n ih =>
  intro h1
  by_cases h10 : n < 10
  · rw [natDigits_lt_ten h10]
    simpa using h1
  · rw [natDigits_ge_ten h10]
    have hq1 : 1 ≤ n / 10 := by omega
    have hql : n / 10 < n := Nat.div_lt_self (by omega) (by omega)
    have hih := ih (n / 10) hql hq1
    have hl := natDigits_length_pos (n / 10)
    simp only [List.length_append, List.length_cons, List.length_nil]
    have he : (natDigits (n / 10)).length + 1 - 1 =
        ((natDigits (n / 10)).length - 1) + 1 := by omega
    rw [he, pow_succ]
    have : 10 ^ ((natDigits (n / 10)).length - 1) * 10 ≤ (n / 10) * 10 :=
      Nat.mul_le_mul_right 10 hih
    have hdm := Nat.div_mul_le_self n 10
    omega

theorem natDigits_length_le {n k : Nat} (hk : 0 < k) (h : n < 10 ^ k) :
    (natDigits n).length ≤ k := by
  by_contra hgt
  have hlen : k + 1 ≤ (natDigits n).length := by omega
  have hn1 : 1 ≤ n := by
    by_contra hn0
    have : n = 0 := by omega
    subst this
    rw [show natDigits 0 = [digitChar 0] from natDigits_lt_ten (by omega)] at hgt
    simp at hgt
    omega
  have hge := natDigits_ge_pow n hn1
  have hpow : 10 ^ k ≤ 10 ^ ((natDigits n).length - 1) :=
    Nat.pow_le_pow_right (by omega) (by omega)
  omega

theorem natDigits_length_mono {c M : Nat} (h : c ≤ M) :
    (natDigits c).length ≤ (natDigits M).length := by
  by_cases hc : c < 10
  · rw [natDigits_lt_ten hc]
    simpa using natDigits_length_pos M
  · have hc1 : 1 ≤ c := by omega
    have hge := natDigits_ge_pow c hc1
    have hlt := natDigits_lt_pow M
    by_contra hgt
    have hpow : 10 ^ (natDigits M).length ≤ 10 ^ ((natDigits c).length - 1) :=
      Nat.pow_le_pow_right (by omega) (by omega)
    omega

theorem natDigits_pow10 : ∀ d : Nat,
    natDigits (10 ^ d) = '1' :: List.replicate d '0' := by
  intro d
  induction d with
  | zero =>
    rw [pow_zero, natDigits_lt_ten (by omega)]
    rfl
  | succ d ih =>
    have h10 : ¬ 10 ^ (d + 1) < 10 := by
      have : (10 : Nat) ^ 1 ≤ 10 ^ (d + 1) := Nat.pow_le_pow_right (by omega) (by omega)
      simpa using this
    rw [natDigits_ge_ten h10]
    have hdiv : 10 ^ (d + 1) / 10 = 10 ^ d := by
      rw [pow_succ]
      exact Nat.mul_div_cancel _ (by omega)
    have hmod : 10 ^ (d + 1) % 10 = 0 := by
      rw [pow_succ]
      exact Nat.mul_mod_left _ _
    rw [hdiv, hmod, ih]
    have : digitChar 0 = '0' := by decide
    rw [this, List.replicate_succ']
    rfl

theorem natDigits_head_ne_zero : ∀ n : Nat, 1 ≤ n → ∀ t : List Char,
    natDigits n ≠ '0' :: t := by
  intro n
  induction n using Nat.strong_induction_on with
  | _ n ih =>
  intro h1 t hcontra
  by_cases h10 : n < 10
  · rw [natDigits_lt_ten h10] at hcontra
    have : digitChar n = '0' := by
      injection hcontra
    have hv : digitVal (digitChar n) = digitVal '0' := by rw [this]
    rw [digitVal_digitChar h10] at hv
    have : digitVal '0' = 0 := by decide
    omega
  · rw [natDigits_ge_ten h10] at hcontra
    have hq1 : 1 ≤ n / 10 := by omega
    have hql : n / 10 < n := Nat.div_lt_self (by omega) (by omega)
    cases hnd : natDigits (n / 10) with
    | nil => exact natDigits_ne_nil _ hnd
    | cons c cs =>
      rw [hnd] at hcontra
      have hc : c = '0' := by
        injection hcontra
      exact ih (n / 10) hql hq1 cs (by rw [hnd, hc])

theorem eq_natDigits_of_val {s : List Char} (hd : allDigits s = true)
    {d : Nat} (hlen : s.length = d)
    (hbound : 10 ^ (d - 1) ≤ strVal s ∨ d = 1) :
    s = natDigits (strVal s) := by
  have hvlt : strVal s < 10 ^ d := hlen ▸ strVal_lt s hd
  have hd1 : 1 ≤ d := by
    rcases hbound with h | h
    · by_contra h0
      have hd0 : d = 0 := by omega
      subst hd0
      have hse : s = [] := List.eq_nil_of_length_eq_zero hlen
      subst hse
      simp [strVal] at h
    · omega
  have hlle : (natDigits (strVal s)).length ≤ d :=
    natDigits_length_le (by omega) hvlt
  have hlge : d ≤ (natDigits (strVal s)).length := by
    rcases hbound with h | h
    · by_contra hlt
      have hvv := natDigits_lt_pow (strVal s)
      have hpow : 10 ^ (natDigits (strVal s)).length ≤ 10 ^ (d - 1) :=
        Nat.pow_le_pow_right (by omega) (by omega)
      omega
    · subst h
      simpa using natDigits_length_pos (strVal s)
  refine strVal_inj (by omega) hd (allDigits_natDigits _) ?_
  rw [strVal_natDigits]

theorem band_to_natDigits {c M d : Nat}
    (hcd : (natDigits c).length = d) (hcM : c ≤ M) (hMlt : M < 10 ^ d)
    (s : List Char) :
    (s.length = d ∧ allDigits s = true ∧ c ≤ strVal s ∧ strVal s ≤ M) ↔
    (∃ n, c ≤ n ∧ n ≤ M ∧ s = natDigits n) := by
  have hd1 : 1 ≤ d := hcd ▸ natDigits_length_pos c
  constructor
  · intro ⟨h1, h2, h3, h4⟩
    refine ⟨strVal s, h3, h4, ?_⟩
    apply eq_natDigits_of_val h2 h1
    by_cases hdd : d = 1
    · exact Or.inr hdd
    · left
      have hc10 : ¬ c < 10 := by
        intro hc
        rw [natDigits_lt_ten hc] at hcd
        simp at hcd
        omega
      have hge := natDigits_ge_pow c (by omega)
      rw [hcd] at hge
      omega
  · rintro ⟨n, hn1, hn2, rfl⟩
    refine ⟨?_, allDigits_natDigits n, ?_, ?_⟩
    · have hle : (natDigits n).length ≤ d :=
        natDigits_length_le (by omega) (by omega)
      have hge : d ≤ (natDigits n).length := hcd ▸ natDigits_length_mono hn1
      omega
    · rw [strVal_natDigits]
      exact hn1
    · rw [strVal_natDigits]
      exact hn2

theorem bandsLoop_lang {env : Env} : ∀ (j c M : Nat),
    (natDigits M).length - (natDigits c).length = j → c ≤ M →
    ∀ s : List Char,
    (GMatch env (bandsLoop (natDigits c) (natDigits M)) s ↔
      ∃ n, c ≤ n ∧ n ≤ M ∧ s = natDigits n) := by
  intro j
  induction j with
  | zero =>
    intro c M hj hcM s
    have hmono := natDigits_length_mono hcM
    have heq : (natDigits c).length = (natDigits M).length := by omega
    rw [bandsLoop, if_neg (by omega)]
    rw [uniformRangeE_lang ((natDigits M).length) (natDigits c) (natDigits M)
      heq rfl (allDigits_natDigits c) (allDigits_natDigits M)
      (by rw [strVal_natDigits, strVal_natDigits]; exact hcM) s]
    rw [strVal_natDigits, strVal_natDigits]
    exact band_to_natDigits heq hcM (natDigits_lt_pow M) s
  | succ j ihj =>
    intro c M hj hcM s
    have hlt : (natDigits c).length < (natDigits M).length := by omega
    have hclt := natDigits_lt_pow c
    rw [bandsLoop, if_pos hlt, gmatch_alt_iff]
    rw [uniformRangeE_lang ((natDigits c).length) (natDigits c)
      (List.replicate ((natDigits c).length) '9') rfl
      (List.length_replicate _ _) (allDigits_natDigits c)
      (allDigits_replicate_nine _)
      (by rw [strVal_natDigits, strVal_replicate_nine]; omega) s]
    rw [strVal_natDigits, strVal_replicate_nine]
    have hpow := (natDigits_pow10 ((natDigits c).length)).symm
    rw [hpow]
    have hM1 : 10 ^ (natDigits c).length ≤ M := by
      have hM10 : 1 ≤ M := by
        by_contra h0
        have hM0 : M = 0 := by omega
        subst hM0
        have h1l : (natDigits 0).length = 1 := by
          rw [natDigits_lt_ten (by omega)]
          rfl
        have := natDigits_length_pos c
        omega
      have hge := natDigits_ge_pow M hM10
      have hpw : 10 ^ (natDigits c).length ≤ 10 ^ ((natDigits M).length - 1) :=
        Nat.pow_le_pow_right (by omega) (by omega)
      omega
    have hjj : (natDigits M).length -
        (natDigits (10 ^ (natDigits c).length)).length = j := by
      rw [natDigits_pow10]
      simp
      omega
    rw [ihj _ M hjj hM1 s]
    rw [band_to_natDigits rfl (by omega) (by omega) s]
    constructor
    · rintro (⟨n, h1, h2, rfl⟩ | ⟨n, h1, h2, rfl⟩)
      · exact ⟨n, h1, by omega, rfl⟩
      · exact ⟨n, by omega, h2, rfl⟩
    · rintro ⟨n, h1, h2, rfl⟩
      by_cases hn : n < 10 ^ (natDigits c).length
      · exact Or.inl ⟨n, h1, by omega, rfl⟩
      · exact Or.inr ⟨n, by omega, h2, rfl⟩

theorem bandsE_lang {env : Env} {m M : Nat} (h : m ≤ M) (s : List Char) :
    GMatch env (bandsE m M) s ↔ ∃ n, m ≤ n ∧ n ≤ M ∧ s = natDigits n :=
  bandsLoop_lang _ m M rfl h s

theorem intRepr_nonneg {n : Int} (h : 0 ≤ n) :
    intRepr n = natDigits n.toNat := by
  rw [intRepr, if_neg (by omega)]

theorem intRepr_neg {n : Int} (h : n < 0) :
    intRepr n = '-' :: natDigits (-n).toNat := by
  rw [intRepr, if_pos h]

theorem intRepr_coe (n : Nat) : intRepr (n : Int) = natDigits n := by
  rw [intRepr_nonneg (by omega)]
  simp

theorem intRepr_neg_coe {n : Nat} (h : 1 ≤ n) :
    intRepr (-(n : Int)) = '-' :: natDigits n := by
  rw [intRepr_neg (by omega)]
  have he : (- -(n : Int)).toNat = n := by omega
  rw [he]

theorem natDigits_zero : natDigits 0 = ['0'] := by
  rw [natDigits_lt_ten (by omega)]
  decide

theorem genMinMaxIntE_lang {env : Env} {mn mx : Int} (h : mn ≤ mx)
    (s : List Char) :
    GMatch env (genMinMaxIntE mn mx) s ↔
      ((∃ n : Int, mn ≤ n ∧ n ≤ mx ∧ s = intRepr n) ∨
       (mn < 0 ∧ 0 ≤ mx ∧ s = ['-', '0'])) := by
  by_cases hneg : mn < 0 ∧ mx < 0
  · obtain ⟨hn1, hn2⟩ := hneg
    rw [genMinMaxIntE, if_pos ⟨hn1, hn2⟩, gmatch_seq_iff]
    constructor
    · rintro ⟨u, v, rfl, hu, hv⟩
      rw [gmatch_lit_iff] at hu
      subst hu
      rw [gmatch_grp_iff] at hv
      obtain ⟨n, h1, h2, rfl⟩ := (bandsE_lang (by omega) v).mp hv
      left
      refine ⟨-(n : Int), by omega, by omega, ?_⟩
      rw [intRepr_neg_coe (by omega)]
      rfl
    · rintro (⟨n, h1, h2, rfl⟩ | ⟨h1, h2, h3⟩)
      · rw [intRepr_neg (by omega)]
        refine ⟨['-'], natDigits (-n).toNat, rfl, GMatch.lit _, ?_⟩
        rw [gmatch_grp_iff]
        exact (bandsE_lang (by omega) _).mpr ⟨(-n).toNat, by omega, by omega, rfl⟩
      · omega
  · by_cases hmn : mn < 0
    · have hmx : 0 ≤ mx := by
        by_contra hc
        exact hneg ⟨hmn, by omega⟩
      rw [genMinMaxIntE, if_neg hneg, if_pos hmn, gmatch_alt_iff, gmatch_seq_iff]
      constructor
      · rintro (⟨u, v, rfl, hu, hv⟩ | hr)
        · rw [gmatch_lit_iff] at hu
          subst hu
          rw [gmatch_grp_iff] at hv
          obtain ⟨n, h1, h2, rfl⟩ := (bandsE_lang (by omega) v).mp hv
          by_cases hn0 : n = 0
          · subst hn0
            right
            rw [natDigits_zero]
            exact ⟨hmn, hmx, rfl⟩
          · left
            refine ⟨-(n : Int), by omega, by omega, ?_⟩
            rw [intRepr_neg_coe (by omega)]
            rfl
        · obtain ⟨n, h1, h2, rfl⟩ := (bandsE_lang (by omega) s).mp hr
          left
          refine ⟨(n : Int), by omega, by omega, ?_⟩
          rw [intRepr_coe]
      · rintro (⟨n, h1, h2, rfl⟩ | ⟨h1, h2, h3⟩)
        · by_cases hn : n < 0
          · left
            rw [intRepr_neg hn]
            refine ⟨['-'], natDigits (-n).toNat, rfl, GMatch.lit _, ?_⟩
            rw [gmatch_grp_iff]
            exact (bandsE_lang (by omega) _).mpr
              ⟨(-n).toNat, by omega, by omega, rfl⟩
          · right
            rw [intRepr_nonneg (by omega)]
            exact (bandsE_lang (by omega) _).mpr
              ⟨n.toNat, by omega, by omega, rfl⟩
        · left
          subst h3
          refine ⟨['-'], ['0'], rfl, GMatch.lit _, ?_⟩
          rw [gmatch_grp_iff]
          exact (bandsE_lang (by omega) _).mpr
            ⟨0, by omega, by omega, natDigits_zero.symm⟩
    · have hmn0 : 0 ≤ mn := by omega
      rw [genMinMaxIntE, if_neg hneg, if_neg hmn]
      rw [bandsE_lang (by omega) s]
      constructor
      · rintro ⟨n, h1, h2, rfl⟩
        left
        refine ⟨(n : Int), by omega, by omega, ?_⟩
        rw [intRepr_coe]
      · rintro (⟨n, h1, h2, rfl⟩ | ⟨h1, h2, h3⟩)
        · refine ⟨n.toNat, by omega, by omega, ?_⟩
          rw [intRepr_nonneg (by omega)]
        · omega

theorem leadZero_cons2 (c d : Char) (t : List Char) :
    leadZero (c :: d :: t) = decide (c = '0') := rfl

theorem hasLeadingZero_cons (c : Char) (rest : List Char) :
    hasLeadingZero (c :: rest) =
      (if c = '-' then leadZero rest else leadZero (c :: rest)) := rfl

theorem natDigits_not_dash (m : Nat) (t : List Char) :
    natDigits m ≠ '-' :: t := by
  intro hc
  have hall := allDigits_natDigits m
  rw [hc, allDigits_cons, Bool.and_eq_true] at hall
  have hdd : isDigitChar '-' = true := hall.1
  exact absurd hdd (by decide)

theorem intRepr_inj {a b : Int} (h : intRepr a = intRepr b) : a = b := by
  by_cases ha : a < 0 <;> by_cases hb : b < 0
  · rw [intRepr_neg ha, intRepr_neg hb] at h
    have h2 : natDigits (-a).toNat = natDigits (-b).toNat := by injection h
    have := natDigits_inj h2
    omega
  · rw [intRepr_neg ha, intRepr_nonneg (by omega)] at h
    exact absurd h.symm (natDigits_not_dash _ _)
  · rw [intRepr_nonneg (by omega), intRepr_neg hb] at h
    exact absurd h (natDigits_not_dash _ _)
  · rw [intRepr_nonneg (by omega), intRepr_nonneg (by omega)] at h
    have := natDigits_inj h
    omega

theorem intRepr_ne_neg_zero (n : Int) : intRepr n ≠ ['-', '0'] := by
  intro hc
  by_cases hn : n < 0
  · rw [intRepr_neg hn] at hc
    have h2 : natDigits (-n).toNat = ['0'] := by injection hc
    rw [← natDigits_zero] at h2
    have := natDigits_inj h2
    omega
  · rw [intRepr_nonneg (by omega)] at hc
    exact natDigits_not_dash _ _ hc

theorem leadZero_natDigits (m : Nat) : leadZero (natDigits m) = false := by
  by_cases hm : m = 0
  · subst hm
    rw [natDigits_zero]
    rfl
  · rcases hnd : natDigits m with _ | ⟨c, rest⟩
    · rfl
    · rcases rest with _ | ⟨c2, t⟩
      · rfl
      · have hne := natDigits_head_ne_zero m (by omega) (c2 :: t)
        rw [hnd] at hne
        rw [leadZero_cons2]
        simp only [decide_eq_false_iff_not]
        intro hc
        exact hne (by rw [hc])

theorem hasLeadingZero_intRepr (n : Int) :
    hasLeadingZero (intRepr n) = false := by
  by_cases hn : n < 0
  · rw [intRepr_neg hn, hasLeadingZero_cons, if_pos rfl]
    exact leadZero_natDigits _
  · rw [intRepr_nonneg (by omega)]
    rcases hnd : natDigits n.toNat with _ | ⟨c, rest⟩
    · rfl
    · rw [hasLeadingZero_cons]
      have hcd : isDigitChar c = true := by
        have hall := allDigits_natDigits n.toNat
        rw [hnd, allDigits_cons, Bool.and_eq_true] at hall
        exact hall.1
      have hcne : ¬ c = '-' := by
        intro hc
        rw [hc] at hcd
        exact absurd hcd (by decide)
      rw [if_neg hcne, ← hnd]
      exact leadZero_natDigits _

/-- C2: for every inclusive bound pair `(mn, mx)` with `mn ≤ mx`, the grammar
emitted by `generateMinMaxInt` (both bounds present) accepts the decimal
representation of every integer `n` with `mn ≤ n ≤ mx`, rejects the decimal
representations of `mn - 1` and of `mx + 1`, and accepts no string with a
leading zero (a `'0'` followed by further digits, after the optional sign). -/
theorem claim_C2_generateMinMaxInt {env : Env} (mn mx : Int) (h : mn ≤ mx) :
    (∀ n : Int, mn ≤ n → n ≤ mx →
      GMatch env (genMinMaxIntE mn mx) (intRepr n)) ∧
    ¬ GMatch env (genMinMaxIntE mn mx) (intRepr (mn - 1)) ∧
    ¬ GMatch env (genMinMaxIntE mn mx) (intRepr (mx + 1)) ∧
    (∀ s : List Char, GMatch env (genMinMaxIntE mn mx) s →
      hasLeadingZero s = false) := by
  refine ⟨?_, ?_, ?_, ?_⟩
  · intro n h1 h2
    exact (genMinMaxIntE_lang h _).mpr (Or.inl ⟨n, h1, h2, rfl⟩)
  · intro hm
    rcases (genMinMaxIntE_lang h _).mp hm with ⟨n, h1, h2, he⟩ | ⟨_, _, he⟩
    · have := intRepr_inj he
      omega
    · exact intRepr_ne_neg_zero _ he
  · intro hm
    rcases (genMinMaxIntE_lang h _).mp hm with ⟨n, h1, h2, he⟩ | ⟨_, _, he⟩
    · have := intRepr_inj he
      omega
    · exact intRepr_ne_neg_zero _ he
  · intro s hs
    rcases (genMinMaxIntE_lang h s).mp hs with ⟨n, _, _, rfl⟩ | ⟨_, _, rfl⟩
    · exact hasLeadingZero_intRepr n
    · decide

theorem claim_C2_witness :
    (-3 : Int) ≤ 12 ∧
    GMatch emptyEnv (genMinMaxIntE (-3) 12) (intRepr 7) ∧
    ¬ GMatch emptyEnv (genMinMaxIntE (-3) 12) (intRepr ((-3) - 1)) :=
  ⟨by decide,
   (claim_C2_generateMinMaxInt (-3) 12 (by decide)).1 7 (by decide) (by decide),
   (claim_C2_generateMinMaxInt (-3) 12 (by decide)).2.1⟩

/-! ## `_buildObjectRule` with only required properties (src lines 990-1088)

With `_propOrder` empty, the comparator at src lines 999-1007 reduces to
`findIndex(a) - findIndex(b)`, so `sortedProps` is the declaration order of
`properties`; with every property required and `additionalProperties` absent,
`requiredProps` is that same list and `optionalProps` is empty, so the rule
built at src lines 1044-1083 is
`'"\x7b" space ' + kvNames.join(' "," space ') + ' "\x7d" space'`.
`objTailE` embeds that token sequence from the first k-v reference on. -/
def objTailE : List String → GExpr
  | [] => GExpr.seq (GExpr.lit ['}']) (GExpr.ref "space")
  | [k] => GExpr.seq (GExpr.ref k) (GExpr.seq (GExpr.lit ['}']) (GExpr.ref "space"))
  | k :: k2 :: ks => GExpr.seq (GExpr.ref k)
      (GExpr.seq (GExpr.lit [','])
        (GExpr.seq (GExpr.ref "space") (objTailE (k2 :: ks))))

/-- The whole object rule for a required-only object, given the registered
k-v rule names in declaration order. -/
def objRequiredExpr (kvNames : List String) : GExpr :=
  GExpr.seq (GExpr.lit ['{']) (GExpr.seq (GExpr.ref "space") (objTailE kvNames))

/-- The serialized form `"key":value` of one key-value pair (no whitespace). -/
def serKV (k v : List Char) : List Char := '"' :: (k ++ '"' :: ':' :: v)

/-- Comma-join of serialized pairs. -/
def joinComma : List (List Char) → List Char
  | [] => []
  | [x] => x
  | x :: y :: t => x ++ ',' :: joinComma (y :: t)

/-- A whitespace-free JSON object serialization with the given keys in the
given order. -/
def serObj (ks vs : List (List Char)) : List Char :=
  '{' :: (joinComma (List.zipWith serKV ks vs) ++ ['}'])

mutual
/-- The quoted segments of a string: the maximal runs strictly between an
opening and a closing `'"'`, scanned left to right (outside-quotes state). -/
def qsOut : List Char → List (List Char)
  | [] => []
  | c :: rest => if c = '"' then qsIn rest [] else qsOut rest

/-- Inside-quotes state of the scanner; `acc` holds the segment read so far,
reversed. -/
def qsIn : List Char → List Char → List (List Char)
  | [], acc => [acc.reverse]
  | c :: rest, acc =>
      if c = '"' then acc.reverse :: qsOut rest else qsIn rest (c :: acc)
end

theorem qsOut_nil : qsOut [] = [] := by rw [qsOut]

theorem qsOut_cons_ne {c : Char} (h : ¬ c = '"') (rest : List Char) :
    qsOut (c :: rest) = qsOut rest := by
  rw [qsOut, if_neg h]

theorem qsOut_cons_quote (rest : List Char) :
    qsOut ('"' :: rest) = qsIn rest [] := by
  rw [qsOut, if_pos rfl]

theorem qsOut_quotefree_append {a : List Char} (h : ∀ c ∈ a, ¬ c = '"')
    (b : List Char) : qsOut (a ++ b) = qsOut b := by
  induction a with
  | nil => rfl
  | cons c cs ih =>
    rw [List.cons_append, qsOut_cons_ne (h c (by simp))]
    exact ih (fun d hd => h d (by simp [hd]))

theorem qsIn_quotefree : ∀ (k : List Char), (∀ c ∈ k, ¬ c = '"') →
    ∀ (acc b : List Char),
    qsIn (k ++ '"' :: b) acc = (acc.reverse ++ k) :: qsOut b := by
  intro k
  induction k with
  | nil =>
    intro _ acc b
    rw [List.nil_append, qsIn, if_pos rfl]
    simp
  | cons c cs ih =>
    intro h acc b
    rw [List.cons_append, qsIn, if_neg (h c (by simp))]
    rw [ih (fun d hd => h d (by simp [hd])) (c :: acc) b]
    simp

theorem qsOut_quoted {k : List Char} (hk : ∀ c ∈ k, ¬ c = '"')
    (b : List Char) : qsOut ('"' :: (k ++ '"' :: b)) = k :: qsOut b := by
  rw [qsOut_cons_quote, qsIn_quotefree k hk [] b]
  simp

theorem qsOut_quotefree {a : List Char} (h : ∀ c ∈ a, ¬ c = '"') :
    qsOut a = [] := by
  have hq := qsOut_quotefree_append h []
  simpa using hq

theorem objTailE_segs {env : Env}
    (hspace : ∀ s, env "space" s → ∀ c ∈ s, ¬ c = '"') :
    ∀ (pairs : List (String × List Char)),
    (∀ p ∈ pairs, ∀ s, env p.1 s →
      ∃ tail, s = '"' :: (p.2 ++ '"' :: tail) ∧
        (∀ c ∈ p.2, ¬ c = '"') ∧ (∀ c ∈ tail, ¬ c = '"')) →
    ∀ s, GMatch env (objTailE (pairs.map Prod.fst)) s →
    qsOut s = pairs.map Prod.snd := by
  intro pairs
  induction pairs with
  | nil =>
    intro _ s hs
    simp only [List.map_nil] at hs
    rw [objTailE] at hs
    rcases gmatch_seq_iff.mp hs with ⟨u, v, rfl, hu, hv⟩
    rw [gmatch_lit_iff] at hu
    subst hu
    rw [gmatch_ref_iff] at hv
    show qsOut ('}' :: v) = List.map Prod.snd []
    rw [qsOut_cons_ne (by decide), qsOut_quotefree (hspace v hv)]
    rfl
  | cons p ps ih =>
    intro hsound s hs
    cases ps with
    | nil =>
      simp only [List.map] at hs
      rw [objTailE] at hs
      rcases gmatch_seq_iff.mp hs with ⟨u, v, rfl, hu, hv⟩
      rw [gmatch_ref_iff] at hu
      obtain ⟨tail, rfl, hk, ht⟩ := hsound p (by simp) u hu
      rcases gmatch_seq_iff.mp hv with ⟨u2, v2, rfl, hu2, hv2⟩
      rw [gmatch_lit_iff] at hu2
      subst hu2
      rw [gmatch_ref_iff] at hv2
      have hre : ('"' :: (p.2 ++ '"' :: tail)) ++ (['}'] ++ v2) =
          '"' :: (p.2 ++ '"' :: (tail ++ '}' :: v2)) := by
        simp
      rw [hre, qsOut_quoted hk, qsOut_quotefree_append ht,
        qsOut_cons_ne (by decide), qsOut_quotefree (hspace v2 hv2)]
      rfl
    | cons p2 ps2 =>
      simp only [List.map] at hs
      rw [objTailE] at hs
      rcases gmatch_seq_iff.mp hs with ⟨u, v, rfl, hu, hv⟩
      rw [gmatch_ref_iff] at hu
      obtain ⟨tail, rfl, hk, ht⟩ := hsound p (by simp) u hu
      rcases gmatch_seq_iff.mp hv with ⟨u2, v2, rfl, hu2, hv2⟩
      rw [gmatch_lit_iff] at hu2
      subst hu2
      rcases gmatch_seq_iff.mp hv2 with ⟨u3, v3, rfl, hu3, hv3⟩
      rw [gmatch_ref_iff] at hu3
      have hchain := ih (fun q hq => hsound q (by simp [hq])) v3 (by
        simpa only [List.map] using hv3)
      have hre : ('"' :: (p.2 ++ '"' :: tail)) ++ ([','] ++ (u3 ++ v3)) =
          '"' :: (p.2 ++ '"' :: (tail ++ ',' :: (u3 ++ v3))) := by
        simp
      rw [hre, qsOut_quoted hk, qsOut_quotefree_append ht,
        qsOut_cons_ne (by decide), qsOut_quotefree_append (hspace u3 hu3),
        hchain]
      rfl

theorem objTailE_accept {env : Env} (hsp_nil : env "space" []) :
    ∀ (pairs : List (String × List Char)) (vals : List (List Char)),
    List.Forall₂ (fun p v => env p.1 (serKV p.2 v)) pairs vals →
    GMatch env (objTailE (pairs.map Prod.fst))
      (joinComma (List.zipWith serKV (pairs.map Prod.snd) vals) ++ ['}']) := by
  intro pairs
  induction pairs with
  | nil =>
    intro vals hf
    cases hf
    simp only [List.map_nil, List.zipWith_nil_left, joinComma, List.nil_append]
    rw [objTailE]
    simpa using GMatch.seq (GMatch.lit ['}']) (GMatch.ref hsp_nil)
  | cons p ps ih =>
    intro vals hf
    cases hf with
    | cons hpv htail =>
      rename_i v vs
      cases ps with
      | nil =>
        cases htail
        simp only [List.map, List.zipWith, joinComma]
        rw [objTailE]
        have h2 := GMatch.seq (GMatch.lit ['}']) (GMatch.ref hsp_nil)
        have h := GMatch.seq (GMatch.ref hpv) h2
        simpa using h
      | cons p2 ps2 =>
        cases htail with
        | cons h2v ht2 =>
          rename_i v2 vs2
          have hih := ih (v2 :: vs2) (List.Forall₂.cons h2v ht2)
          simp only [List.map, List.zipWith, joinComma]
          rw [objTailE]
          have h := GMatch.seq (GMatch.ref hpv)
            (GMatch.seq (GMatch.lit [','])
              (GMatch.seq (GMatch.ref hsp_nil) (by
                simpa only [List.map, List.zipWith] using hih)))
          have he : serKV p.2 v ++
              ([','] ++ ([] ++ (joinComma (serKV p2.2 v2 ::
                List.zipWith serKV (List.map Prod.snd ps2) vs2) ++ ['}']))) =
              (serKV p.2 v ++ ',' :: joinComma (serKV p2.2 v2 ::
                List.zipWith serKV (List.map Prod.snd ps2) vs2)) ++ ['}'] := by
            simp
          rw [← he]
          exact h

theorem joinComma_segs : ∀ (ks vs : List (List Char)), ks.length = vs.length →
    (∀ k ∈ ks, ∀ c ∈ k, ¬ c = '"') → (∀ v ∈ vs, ∀ c ∈ v, ¬ c = '"') →
    ∀ t, (∀ c ∈ t, ¬ c = '"') →
    qsOut (joinComma (List.zipWith serKV ks vs) ++ t) = ks := by
  intro ks
  induction ks with
  | nil =>
    intro vs _ _ _ t ht
    simp only [List.zipWith_nil_left, joinComma, List.nil_append]
    exact qsOut_quotefree ht
  | cons k ks' ih =>
    intro vs hlen hks hvs t ht
    cases vs with
    | nil => simp at hlen
    | cons v vs' =>
      cases ks' with
      | nil =>
        simp only [List.zipWith, List.zipWith_nil_left, joinComma]
        have hre : serKV k v ++ t = '"' :: (k ++ '"' :: (':' :: (v ++ t))) := by
          rw [serKV]
          simp
        rw [hre, qsOut_quoted (hks k (by simp)), qsOut_cons_ne (by decide)]
        rw [qsOut_quotefree (fun c hc => by
          rcases List.mem_append.mp hc with h | h
          · exact hvs v (by simp) c h
          · exact ht c h)]
      | cons k2 ks2 =>
        cases vs' with
        | nil => simp at hlen
        | cons v2 vs2 =>
          simp only [List.zipWith, joinComma]
          have hre : (serKV k v ++ ',' :: joinComma (serKV k2 v2 ::
              List.zipWith serKV ks2 vs2)) ++ t =
              '"' :: (k ++ '"' :: (':' :: (v ++ (',' ::
                (joinComma (serKV k2 v2 :: List.zipWith serKV ks2 vs2)
                  ++ t))))) := by
            rw [serKV]
            simp
          rw [hre, qsOut_quoted (hks k (by simp)), qsOut_cons_ne (by decide),
            qsOut_quotefree_append (fun c hc => hvs v (by simp) c hc),
            qsOut_cons_ne (by decide)]
          have hihx := ih (v2 :: vs2) (by simpa using hlen)
            (fun kk hk => hks kk (by simp [hk]))
            (fun vv hv => hvs vv (by simp [hv])) t ht
          simp only [List.zipWith] at hihx
          rw [hihx]

theorem serObj_segs (ks vs : List (List Char)) (hlen : ks.length = vs.length)
    (hks : ∀ k ∈ ks, ∀ c ∈ k, ¬ c = '"')
    (hvs : ∀ v ∈ vs, ∀ c ∈ v, ¬ c = '"') :
    qsOut (serObj ks vs) = ks := by
  rw [serObj, qsOut_cons_ne (by decide)]
  exact joinComma_segs ks vs hlen hks hvs ['}'] (by decide)

/-- C3: for an object schema whose properties are all required, with no
property-ordering override and no `additionalProperties`, the object rule
built by `_buildObjectRule` accepts the serialization whose keys appear in
declaration order, every accepted string carries the quoted keys exactly in
declaration order, and a serialization with any other key sequence is
rejected.  `pairs` lists the registered k-v rule names with their property
names in declaration order; the environment hypotheses state what `visit`
registered for each k-v rule and for `space`. -/
theorem claim_C3_buildObjectRule {env : Env}
    (pairs : List (String × List Char)) (vals : List (List Char))
    (hspace : ∀ s, env "space" s → ∀ c ∈ s, ¬ c = '"')
    (hsp_nil : env "space" [])
    (hkv_sound : ∀ p ∈ pairs, ∀ s, env p.1 s →
      ∃ tail, s = '"' :: (p.2 ++ '"' :: tail) ∧
        (∀ c ∈ p.2, ¬ c = '"') ∧ (∀ c ∈ tail, ¬ c = '"'))
    (hkv_mem : List.Forall₂ (fun p v => env p.1 (serKV p.2 v)) pairs vals) :
    GMatch env (objRequiredExpr (pairs.map Prod.fst))
      (serObj (pairs.map Prod.snd) vals) ∧
    (∀ s, GMatch env (objRequiredExpr (pairs.map Prod.fst)) s →
      qsOut s = pairs.map Prod.snd) ∧
    (∀ ks2 vs2 : List (List Char), ks2.length = vs2.length →
      (∀ k ∈ ks2, ∀ c ∈ k, ¬ c = '"') →
      (∀ v ∈ vs2, ∀ c ∈ v, ¬ c = '"') →
      ks2 ≠ pairs.map Prod.snd →
      ¬ GMatch env (objRequiredExpr (pairs.map Prod.fst))
        (serObj ks2 vs2)) := by
  have huniq : ∀ s, GMatch env (objRequiredExpr (pairs.map Prod.fst)) s →
      qsOut s = pairs.map Prod.snd := by
    intro s hs
    rw [objRequiredExpr] at hs
    rcases gmatch_seq_iff.mp hs with ⟨u, v, rfl, hu, hv⟩
    rw [gmatch_lit_iff] at hu
    subst hu
    rcases gmatch_seq_iff.mp hv with ⟨u2, v2, rfl, hu2, hv2⟩
    rw [gmatch_ref_iff] at hu2
    have hchain := objTailE_segs hspace pairs hkv_sound v2 hv2
    show qsOut ('{' :: (u2 ++ v2)) = _
    rw [qsOut_cons_ne (by decide), qsOut_quotefree_append (hspace u2 hu2),
      hchain]
  refine ⟨?_, huniq, ?_⟩
  · rw [objRequiredExpr]
    have h := GMatch.seq (GMatch.lit ['{'])
      (GMatch.seq (GMatch.ref hsp_nil)
        (objTailE_accept hsp_nil pairs vals hkv_mem))
    simpa [serObj] using h
  · intro ks2 vs2 hlen hks hvs hne hm
    have h1 := huniq _ hm
    have h2 := serObj_segs ks2 vs2 hlen hks hvs
    exact hne (h2.symm.trans h1)

/-- A concrete two-property environment: `space` matches only the empty
string, and the two k-v rules match exactly their serialized pair. -/
def envC3 : Env := fun r s =>
  (r = "space" ∧ s = []) ∨
  (r = "a-kv" ∧ s = serKV ['a'] ['1']) ∨
  (r = "b-kv" ∧ s = serKV ['b'] ['2'])

theorem claim_C3_witness :
    GMatch envC3 (objRequiredExpr ["a-kv", "b-kv"])
      (serObj [['a'], ['b']] [['1'], ['2']]) ∧
    ¬ GMatch envC3 (objRequiredExpr ["a-kv", "b-kv"])
      (serObj [['b'], ['a']] [['2'], ['1']]) := by
  have hspace : ∀ s, envC3 "space" s → ∀ c ∈ s, ¬ c = '"' := by
    intro s hs
    rcases hs with ⟨_, rfl⟩ | ⟨h, _⟩ | ⟨h, _⟩
    · simp
    · exact absurd h (by decide)
    · exact absurd h (by decide)
  have hsp_nil : envC3 "space" [] := Or.inl ⟨rfl, rfl⟩
  have hsound : ∀ p ∈ [("a-kv", ['a']), ("b-kv", ['b'])], ∀ s, envC3 p.1 s →
      ∃ tail, s = '"' :: (p.2 ++ '"' :: tail) ∧
        (∀ c ∈ p.2, ¬ c = '"') ∧ (∀ c ∈ tail, ¬ c = '"') := by
    intro p hp s hs
    simp only [List.mem_cons, List.mem_singleton] at hp
    rcases hp with rfl | rfl | habs
    · rcases hs with ⟨h, _⟩ | ⟨_, rfl⟩ | ⟨h, _⟩
      · exact absurd h (by decide)
      · exact ⟨[':', '1'], rfl, by decide, by decide⟩
      · exact absurd h (by decide)
    · rcases hs with ⟨h, _⟩ | ⟨h, _⟩ | ⟨_, rfl⟩
      · exact absurd h (by decide)
      · exact absurd h (by decide)
      · exact ⟨[':', '2'], rfl, by decide, by decide⟩
    · exact absurd habs (by simp)
  have hmem : List.Forall₂ (fun (p : String × List Char) v =>
      envC3 p.1 (serKV p.2 v)) [("a-kv", ['a']), ("b-kv", ['b'])]
      [['1'], ['2']] :=
    List.Forall₂.cons (Or.inr (Or.inl ⟨rfl, rfl⟩))
      (List.Forall₂.cons (Or.inr (Or.inr ⟨rfl, rfl⟩)) List.Forall₂.nil)
  have h := claim_C3_buildObjectRule [("a-kv", ['a']), ("b-kv", ['b'])]
    [['1'], ['2']] hspace hsp_nil hsound hmem
  exact ⟨h.1, h.2.2 [['b'], ['a']] [['2'], ['1']] rfl (by decide) (by decide)
    (by decide)⟩

theorem objRequired_render_example :
    render (objRequiredExpr ["a-kv", "b-kv"]) =
      "\"\x7b\" space a-kv \",\" space b-kv \"\x7d\" space" := by
  decide

/-! ## The JSON value model for the converter pipeline

`visit`, `resolveRefs` and friends consume parsed JSON schemas.  `Json`
models the JS values involved: object fields keep their insertion order, as
`Object.entries`/`Object.keys` do for string keys. -/

inductive Json : Type
  | null
  | bool (b : Bool)
  | num (n : Int)
  | str (s : String)
  | arr (xs : List Json)
  | obj (fields : List (String × Json))
deriving Repr

/-- Object field lookup, `schema[key]` (`none` for absence or non-objects). -/
def jget : Json → String → Option Json
  | Json.obj fs, k => jgetF fs k
  | _, _ => none
where jgetF : List (String × Json) → String → Option Json
  | [], _ => none
  | (k', v) :: t, k => if k' = k then some v else jgetF t k

/-- `key in obj` for objects (the only shape the converter applies it to). -/
def jhasKey (j : Json) (k : String) : Bool :=
  match j with
  | Json.obj fs => (jget.jgetF fs k).isSome
  | _ => false

/-- JS truthiness of a value. -/
def jsTruthy : Json → Bool
  | Json.null => false
  | Json.bool b => b
  | Json.num n => decide (¬ n = 0)
  | Json.str s => decide (¬ s = "")
  | Json.arr _ => true
  | Json.obj _ => true

/-- `String(v)`: JS string coercion. -/
def jsDisplay : Json → String
  | Json.null => "null"
  | Json.bool true => "true"
  | Json.bool false => "false"
  | Json.num n => String.mk (intRepr n)
  | Json.str s => s
  | Json.arr _ => ""
  | Json.obj _ => "[object Object]"

/-- One character of a `JSON.stringify` string body (the escapes JSON
requires for the characters the converter's inputs use). -/
def jsonEscChar (c : Char) : List Char :=
  if c = '"' then ['\\', '"']
  else if c = '\\' then ['\\', '\\']
  else if c = '\n' then ['\\', 'n']
  else if c = '\r' then ['\\', 'r']
  else if c = '\t' then ['\\', 't']
  else [c]

/-- `JSON.stringify` of a string. -/
def jsonQuote (s : String) : String :=
  "\"" ++ String.mk (s.data.map jsonEscChar).join ++ "\""

mutual
/-- `JSON.stringify(v)` (no spacing argument). -/
def jsonStringify : Json → String
  | Json.null => "null"
  | Json.bool true => "true"
  | Json.bool false => "false"
  | Json.num n => String.mk (intRepr n)
  | Json.str s => jsonQuote s
  | Json.arr xs => "[" ++ jsonStringifyArr xs ++ "]"
  | Json.obj fs => "\x7b" ++ jsonStringifyObj fs ++ "\x7d"

/-- Comma-joined stringification of array elements. -/
def jsonStringifyArr : List Json → String
  | [] => ""
  | [x] => jsonStringify x
  | x :: y :: t => jsonStringify x ++ "," ++ jsonStringifyArr (y :: t)

/-- Comma-joined stringification of object fields. -/
def jsonStringifyObj : List (String × Json) → String
  | [] => ""
  | [(k, v)] => jsonQuote k ++ ":" ++ jsonStringify v
  | (k, v) :: y :: t =>
      jsonQuote k ++ ":" ++ jsonStringify v ++ "," ++ jsonStringifyObj (y :: t)
end

/-- `{...schema, [k]: v}`: replace a field in place, or append it. -/
def jset : List (String × Json) → String → Json → List (String × Json)
  | [], k, v => [(k, v)]
  | (k', v') :: t, k, v =>
      if k' = k then (k, v) :: t else (k', v') :: jset t k v

/-- `String.prototype.split` on a single-character separator. -/
def splitChar (sep : Char) : List Char → List (List Char)
  | [] => [[]]
  | c :: rest =>
      if c = sep then [] :: splitChar sep rest
      else
        match splitChar sep rest with
        | [] => [[c]]
        | x :: xs => (c :: x) :: xs

/-- Concatenation of strings with a separator (`Array.prototype.join`). -/
def joinStr (sep : String) : List String → String
  | [] => ""
  | [x] => x
  | x :: y :: t => x ++ sep ++ joinStr sep (y :: t)

/-! ## Builtin rule tables and string builders of the converter -/

/-- `SPACE_RULE` (src line 23). -/
def spaceRuleStr : String := "| \" \" | \"\\n\"\x7b1,2\x7d [ \\t]\x7b0,20\x7d"

/-- `BuiltinRule` (src lines 282-290). -/
structure BuiltinRule : Type where
  content : String
  deps : List String
deriving Repr

/-- `PRIMITIVE_RULES` (src lines 292-326), in declaration order. -/
def PRIMITIVE_RULES : List (String × BuiltinRule) :=
  [("boolean", ⟨"(\"true\" | \"false\") space", []⟩),
   ("decimal-part", ⟨"[0-9]\x7b1,16\x7d", []⟩),
   ("integral-part", ⟨"[0] | [1-9] [0-9]\x7b0,15\x7d", []⟩),
   ("number",
    ⟨"(\"-\"? integral-part) (\".\" decimal-part)? ([eE] [-+]? integral-part)? space",
     ["integral-part", "decimal-part"]⟩),
   ("integer", ⟨"(\"-\"? integral-part) space", ["integral-part"]⟩),
   ("value",
    ⟨"object | array | string | number | boolean | null",
     ["object", "array", "string", "number", "boolean", "null"]⟩),
   ("object",
    ⟨"\"\x7b\" space ( string \":\" space value (\",\" space string \":\" space value)* )? \"\x7d\" space",
     ["string", "value"]⟩),
   ("array",
    ⟨"\"[\" space ( value (\",\" space value)* )? \"]\" space", ["value"]⟩),
   ("uuid",
    ⟨"\"\\\"\" [0-9a-fA-F]\x7b8\x7d \"-\" [0-9a-fA-F]\x7b4\x7d \"-\" [0-9a-fA-F]\x7b4\x7d \"-\" [0-9a-fA-F]\x7b4\x7d \"-\" [0-9a-fA-F]\x7b12\x7d \"\\\"\" space",
     []⟩),
   ("char",
    ⟨"[^\"\\\\\\x7F\\x00-\\x1F] | [\\\\] ([\"\\\\bfnrt] | \"u\" [0-9a-fA-F]\x7b4\x7d)",
     []⟩),
   ("string", ⟨"\"\\\"\" char* \"\\\"\" space", ["char"]⟩),
   ("null", ⟨"\"null\" space", []⟩)]

/-- `STRING_FORMAT_RULES` (src lines 328-343). -/
def STRING_FORMAT_RULES : List (String × BuiltinRule) :=
  [("date",
    ⟨"[0-9]\x7b4\x7d \"-\" ( \"0\" [1-9] | \"1\" [0-2] ) \"-\" ( \"0\" [1-9] | [1-2] [0-9] | \"3\" [0-1] )",
     []⟩),
   ("time",
    ⟨"([01] [0-9] | \"2\" [0-3]) \":\" [0-5] [0-9] \":\" [0-5] [0-9] ( \".\" [0-9]\x7b3\x7d )? ( \"Z\" | ( \"+\" | \"-\" ) ( [01] [0-9] | \"2\" [0-3] ) \":\" [0-5] [0-9] )",
     []⟩),
   ("date-time", ⟨"date \"T\" time", ["date", "time"]⟩),
   ("date-string", ⟨"\"\\\"\" date \"\\\"\" space", ["date"]⟩),
   ("time-string", ⟨"\"\\\"\" time \"\\\"\" space", ["time"]⟩),
   ("date-time-string",
    ⟨"\"\\\"\" date-time \"\\\"\" space", ["date-time"]⟩)]

/-- Association lookup in a builtin-rule table. -/
def lookupBR : List (String × BuiltinRule) → String → Option BuiltinRule
  | [], _ => none
  | (n, r) :: t, k => if n = k then some r else lookupBR t k

/-- `RESERVED_NAMES` (src lines 345-349): `root` plus every builtin name. -/
def RESERVED_NAMES : List String :=
  "root" :: PRIMITIVE_RULES.map Prod.fst ++ STRING_FORMAT_RULES.map Prod.fst

/-- `buildRepetition` with no separator rule: the five simple shapes
(src lines 36-53). -/
def buildRepNoSep (itemRule : String) (minItems : Nat)
    (maxItems : Option Nat) : String :=
  if maxItems = some 0 then ""
  else if minItems = 0 ∧ maxItems = some 1 then itemRule ++ "?"
  else if minItems = 1 ∧ maxItems = none then itemRule ++ "+"
  else if minItems = 0 ∧ maxItems = none then itemRule ++ "*"
  else itemRule ++ "\x7b" ++ natRepr minItems ++ "," ++
    (match maxItems with | some m => natRepr m | none => "") ++ "\x7d"

/-- `buildRepetition(itemRule, minItems, maxItems, opts)` (src lines 30-64).
The single recursive call passes no options, so it reduces to
`buildRepNoSep`; `opts.itemRuleIsLiteral` is never read by the body. -/
def buildRepetitionS (itemRule : String) (minItems : Nat)
    (maxItems : Option Nat) (separatorRule : String) : String :=
  if separatorRule = "" then buildRepNoSep itemRule minItems maxItems
  else if maxItems = some 0 then ""
  else if minItems = 0 ∧ maxItems = some 1 then itemRule ++ "?"
  else
    let result := itemRule ++ " " ++
      buildRepNoSep ("(" ++ separatorRule ++ " " ++ itemRule ++ ")")
        (if 0 < minItems then minItems - 1 else 0)
        (maxItems.map (fun m => m - 1))
    if minItems = 0 then "(" ++ result ++ ")?" else result

/-- One character of `_formatLiteral`'s escaping (src lines 353-359,
421-427). -/
def escLitChar (c : Char) : List Char :=
  if c = '\r' then ['\\', 'r']
  else if c = '\n' then ['\\', 'n']
  else if c = '"' then ['\\', '"']
  else if c = '\\' then ['\\', '\\']
  else [c]

/-- `_formatLiteral(literal)` (src lines 421-427). -/
def formatLiteralS (s : String) : String :=
  "\"" ++ String.mk (s.data.map escLitChar).join ++ "\""

/-- Code-point lexicographic order on character lists; on the rule-name
alphabet `[0-9A-Za-z-]` this models the total order
`String.prototype.localeCompare` induces in `formatGrammar`. -/
def strLeL : List Char → List Char → Bool
  | [], _ => true
  | _ :: _, [] => false
  | a :: as, b :: bs =>
      if a < b then true else if b < a then false else strLeL as bs

/-- Insertion into a name-sorted rule list. -/
def insertSorted (p : String × String) : Rules → Rules
  | [] => [p]
  | q :: t =>
      if strLeL p.1.data q.1.data then p :: q :: t else q :: insertSorted p t

/-- Sorting the rule entries by name (the `sort` of src line 1095). -/
def sortRules : Rules → Rules
  | [] => []
  | p :: t => insertSorted p (sortRules t)

/-- The `` `${name} ::= ${rule}\n` `` lines of `formatGrammar`. -/
def grammarLines : Rules → String
  | [] => ""
  | (n, b) :: t => n ++ " ::= " ++ b ++ "\n" ++ grammarLines t

/-- `formatGrammar()` (src lines 1093-1101). -/
def formatGrammarS (rules : Rules) : String := grammarLines (sortRules rules)

/-! ## `resolveRefs` (src lines 455-493)

`convertJsonSchemaToGrammar` calls `resolveRefs(schema)` with the default
`url = ""`, so `fullRef` equals `ref` and the `n.$ref = fullRef` write is the
identity; the embedding therefore only threads the `_refs` table. -/

/-- Canonical array-index parse: the strings under which JS array elements
are keyed (`"0"`, `"1"`, ...; no leading zeros). -/
def natOfString (s : String) : Option Nat :=
  match s.data with
  | [] => none
  | c :: rest =>
      if allDigits (c :: rest) ∧ (rest = [] ∨ ¬ c = '0')
      then some (strVal (c :: rest)) else none

/-- `sel in target` plus the member access `target[sel]`: `ok (some v)` when
the property exists with value `v`, `ok none` when absent, and an error for
the `TypeError` JS raises when `in` is applied to a primitive. -/
def jsonMember : Json → String → Except String (Option Json)
  | Json.obj fs, sel => Except.ok (jget.jgetF fs sel)
  | Json.arr xs, sel =>
      if sel = "length" then Except.ok (some (Json.num xs.length))
      else
        (match natOfString sel with
         | some i =>
             if h : i < xs.length then Except.ok (some (xs.get ⟨i, h⟩))
             else Except.ok none
         | none => Except.ok none)
  | t, _ =>
      Except.error ("TypeError: cannot use 'in' operator on " ++
        jsonStringify t)

/-- The `for (const sel of selectors)` walk of src lines 470-480. -/
def refWalk (ref : String) : Json → List String → Except String Json
  | target, [] => Except.ok target
  | target, sel :: rest =>
      if jsTruthy target then
        match jsonMember target sel with
        | Except.error e => Except.error e
        | Except.ok (some next) => refWalk ref next rest
        | Except.ok none =>
            Except.error ("Error resolving ref " ++ ref ++ ": " ++ sel ++
              " not in " ++ jsonStringify target)
      else
        Except.error ("Error resolving ref " ++ ref ++ ": " ++ sel ++
          " not in " ++ jsonStringify target)

/-- First-match lookup in the `_refs` table. -/
def lookupRef : List (String × Json) → String → Option Json
  | [], _ => none
  | (k, v) :: t, r => if k = r then some v else lookupRef t r

/-- `this._refs[fullRef] = target`. -/
def setRef : List (String × Json) → String → Json → List (String × Json)
  | [], k, v => [(k, v)]
  | (k', v') :: t, k, v =>
      if k' = k then (k, v) :: t else (k', v') :: setRef t k v

/-- The selector list `ref.split("/").slice(1)`. -/
def refSelectors (ref : String) : List String :=
  ((splitChar '/' ref.data).drop 1).map String.mk

mutual
/-- The inner `visit` closure of `resolveRefs` (src lines 456-488) on one
node. -/
def rrVisit (root : Json) :
    Json → List (String × Json) → Except String (List (String × Json))
  | Json.arr xs, refs => rrVisitList root xs refs
  | Json.obj fs, refs =>
      match jget.jgetF fs "$ref" with
      | some (Json.str ref) =>
          if (match lookupRef refs ref with
              | some v => jsTruthy v
              | none => false) then
            rrVisitFields root fs refs
          else if List.isPrefixOf "https://".data ref.data then
            Except.error
              "Fetching remote schemas is not supported in this implementation"
          else if List.isPrefixOf "#/".data ref.data then
            match refWalk ref root (refSelectors ref) with
            | Except.error e => Except.error e
            | Except.ok target => Except.ok (setRef refs ref target)
          else Except.error ("Unsupported ref " ++ ref)
      | some _ => Except.error "TypeError: ref is not a string"
      | none => rrVisitFields root fs refs
  | _, refs => Except.ok refs

/-- `n.forEach(visit)` over an array. -/
def rrVisitList (root : Json) :
    List Json → List (String × Json) → Except String (List (String × Json))
  | [], refs => Except.ok refs
  | x :: t, refs =>
      match rrVisit root x refs with
      | Except.error e => Except.error e
      | Except.ok refs' => rrVisitList root t refs'

/-- `Object.values(n).forEach(visit)` over an object's fields. -/
def rrVisitFields (root : Json) :
    List (String × Json) → List (String × Json) →
    Except String (List (String × Json))
  | [], refs => Except.ok refs
  | (_, v) :: t, refs =>
      match rrVisit root v refs with
      | Except.error e => Except.error e
      | Except.ok refs' => rrVisitFields root t refs'
end

/-- `resolveRefs(schema)` as called by `convertJsonSchemaToGrammar`. -/
def resolveRefsS (schema : Json) : Except String (List (String × Json)) :=
  rrVisit schema schema []

/-! ## `_visitPattern` (src lines 506-695)

The converter is constructed with default options, so `_dotall` is `false`
and `getDot` always registers `dot ::= [^\x0A\x0D]`.  The scanner state is
the remaining input together with the absolute index `i` the source
maintains (error messages report it). -/

/-- `NON_LITERAL_SET` (src line 360). -/
def nonLit (c : Char) : Bool :=
  c ∈ ['|', '.', '(', ')', '[', ']', '{', '}', '*', '+', '?']

/-- `ESCAPED_IN_REGEXPS_BUT_NOT_IN_LITERALS` (src line 361). -/
def escapedInRegexps (c : Char) : Bool :=
  c ∈ ['^', '$', '.', '[', ']', '(', ')', '|', '{', '}', '*', '+', '?']

/-- `toRule` (src lines 526-527). -/
def toRuleS : String × Bool → String
  | (s, true) => "\"" ++ s ++ "\""
  | (s, false) => s

/-- The literal-merging of `joinSeq`'s `groupBy` pass (src lines 533-541):
consecutive literal entries collapse into one literal. -/
def groupLits : List (String × Bool) → List (String × Bool)
  | [] => []
  | (s, true) :: rest =>
      (match groupLits rest with
       | (s2, true) :: r2 => (s ++ s2, true) :: r2
       | r => (s, true) :: r)
  | (s, false) :: rest => (s, false) :: groupLits rest

/-- `joinSeq` (src lines 533-546). -/
def joinSeqS (seqv : List (String × Bool)) : String × Bool :=
  match groupLits seqv with
  | [x] => x
  | ret => (joinStr " " (ret.map toRuleS), false)

/-- The square-bracket scan (src lines 573-582): returns the scanned body,
the rest of the input (starting at the closing `]` if one was found), the
final index, and whether a `]` was reached. -/
def scanSquare : List Char → Nat → List Char × List Char × Nat × Bool
  | [], i => ([], [], i, false)
  | c :: rest, i =>
      if c = ']' then ([], c :: rest, i, true)
      else if c = '\\' then
        match rest with
        | [] => (['\\'], [], i + 2, false)
        | d :: rest2 =>
            let r := scanSquare rest2 (i + 2)
            ('\\' :: d :: r.1, r.2)
      else
        let r := scanSquare rest (i + 1)
        (c :: r.1, r.2)

/-- The curly-bracket scan (src lines 599-603). -/
def scanCurly : List Char → Nat → List Char × List Char × Nat × Bool
  | [], i => ([], [], i, false)
  | c :: rest, i =>
      if c = '}' then ([], c :: rest, i, true)
      else
        let r := scanCurly rest (i + 1)
        (c :: r.1, r.2)

/-- The literal-chunk loop (src lines 654-678): returns the collected
literal, the rest of the input, and the final index. -/
def litLoop : List Char → Nat → List Char → List Char × List Char × Nat
  | [], i, acc => (acc, [], i)
  | ['\\'], i, acc => (acc ++ ['\\'], [], i + 1)
  | '\\' :: d :: rest2, i, acc =>
      if escapedInRegexps d then litLoop rest2 (i + 2) (acc ++ [d])
      else litLoop rest2 (i + 2) (acc ++ ['\\', d])
  | c :: rest, i, acc =>
      if c = '"' then litLoop rest (i + 1) (acc ++ ['\\', '"'])
      else if !(nonLit c) &&
          (rest.isEmpty || acc.isEmpty ||
           (match rest with
            | d :: _ => (d = '.') || !(nonLit d)
            | [] => true)) then
        litLoop rest (i + 1) (acc ++ [c])
      else (acc, c :: rest, i)

/-- JS `String.prototype.trim` on the space shapes quantifiers use. -/
def trimChars (s : List Char) : List Char :=
  ((s.dropWhile (fun c => c = ' ' ∨ c = '\t' ∨ c = '\n' ∨ c = '\r')).reverse.dropWhile
    (fun c => c = ' ' ∨ c = '\t' ∨ c = '\n' ∨ c = '\r')).reverse

/-- `parseInt(s, 10)` on the numeric quantifier bodies; `none` models `NaN`
(the modeled domain is decimal digit strings). -/
def parseIntS (s : List Char) : Option Nat :=
  match s with
  | [] => none
  | c :: _ => if allDigits s then some (strVal s) else none

/-- One parse of the `transform` closure (src lines 529-681), fueled: `full`
is the anchor-stripped pattern (for error messages and the `)`-validation),
`rest` the unconsumed input, `i` the absolute index, `start` the index at
which this `transform` invocation began, and `seqv` the sequence collected
so far.  Returns the produced fragment, the input left after a closing `)`,
the index, and the updated rule table and sub-rule map. -/
def transformS : Nat → String → List Char → Rules →
    List (String × String) → List Char → Nat → Nat →
    List (String × Bool) →
    Except String ((String × Bool) × List Char × Nat × Rules ×
      List (String × String))
  | 0, _, _, _, _, _, _, _, _ => Except.error "out of fuel"
  | fuel + 1, name, full, st, subIds, rest, i, start, seqv =>
    match rest with
    | [] => Except.ok (joinSeqS seqv, [], i, st, subIds)
    | c :: rest' =>
      if c = '.' then
        let r := addRule st "dot" "[^\\x0A\\x0D]"
        transformS fuel name full r.1 subIds rest' (i + 1) start
          (seqv ++ [(r.2, false)])
      else if c = '(' then
        if rest'.head? = some '?' then
          Except.error ("Unsupported pattern syntax \"?\" at index " ++
            natRepr (i + 1) ++ " of /" ++ String.mk full ++ "/")
        else
          match transformS fuel name full st subIds rest' (i + 1) (i + 1) []
          with
          | Except.error e => Except.error e
          | Except.ok (tr, rest2, i2, st2, subIds2) =>
              transformS fuel name full st2 subIds2 rest2 i2 start
                (seqv ++ [("(" ++ toRuleS tr ++ ")", false)])
      else if c = ')' then
        if start = 0 ∨ ¬ (full.getD (start - 1) ' ' = '(') then
          Except.error ("Unbalanced parentheses; start = " ++ natRepr start ++
            ", i = " ++ natRepr (i + 1) ++ ", pattern = " ++ String.mk full)
        else Except.ok (joinSeqS seqv, rest', i + 1, st, subIds)
      else if c = '[' then
        let r := scanSquare rest' (i + 1)
        if r.2.2.2 then
          transformS fuel name full st subIds (r.2.1.drop 1) (r.2.2.1 + 1)
            start (seqv ++ [(String.mk ('[' :: r.1 ++ [']']), false)])
        else
          Except.error ("Unbalanced square brackets; start = " ++
            natRepr start ++ ", i = " ++ natRepr r.2.2.1 ++ ", pattern = " ++
            String.mk full)
      else if c = '|' then
        transformS fuel name full st subIds rest' (i + 1) start
          (seqv ++ [("|", false)])
      else if c = '*' ∨ c = '+' ∨ c = '?' then
        match seqv.getLast? with
        | none => Except.error "TypeError: reading the last sequence element"
        | some last =>
            transformS fuel name full st subIds rest' (i + 1) start
              (seqv.dropLast ++ [(toRuleS last ++ String.singleton c, false)])
      else if c = '{' then
        let r := scanCurly rest' (i + 1)
        if !r.2.2.2 then
          Except.error ("Unbalanced curly brackets; start = " ++
            natRepr start ++ ", i = " ++ natRepr r.2.2.1 ++ ", pattern = " ++
            String.mk full)
        else
          let curly := "\x7b" ++ String.mk r.1 ++ "\x7d"
          let nums := (splitChar ',' r.1).map trimChars
          let bounds : Except String (Nat × Option Nat) :=
            match nums with
            | [n1] =>
                (match parseIntS n1 with
                 | some v => Except.ok (v, some v)
                 | none => Except.error "NaN quantifier (unmodeled)")
            | [n1, n2] =>
                (match (if n1 = [] then some 0 else parseIntS n1),
                       (if n2 = [] then some 0 else parseIntS n2) with
                 | some lo, some hi =>
                     Except.ok (lo, if n2 = [] then none else some hi)
                 | _, _ => Except.error "NaN quantifier (unmodeled)")
            | _ => Except.error ("Invalid quantifier " ++ curly)
          match bounds with
          | Except.error e => Except.error e
          | Except.ok (minT, maxT) =>
            match seqv.getLast? with
            | none =>
                Except.error "TypeError: reading the last sequence element"
            | some (sub, subLit) =>
              if subLit then
                transformS fuel name full st subIds (r.2.1.drop 1)
                  (r.2.2.1 + 1) start
                  (seqv.dropLast ++
                    [(buildRepetitionS ("\"" ++ sub ++ "\"") minT maxT "",
                      false)])
              else
                match lookupRule subIds sub with
                | some id =>
                    transformS fuel name full st subIds (r.2.1.drop 1)
                      (r.2.2.1 + 1) start
                      (seqv.dropLast ++
                        [(buildRepetitionS id minT maxT "", false)])
                | none =>
                    let ar := addRule st
                      (name ++ "-" ++ natRepr (subIds.length + 1)) sub
                    transformS fuel name full ar.1
                      (subIds ++ [(sub, ar.2)]) (r.2.1.drop 1)
                      (r.2.2.1 + 1) start
                      (seqv.dropLast ++
                        [(buildRepetitionS ar.2 minT maxT "", false)])
      else
        let r := litLoop (c :: rest') i []
        match r.1 with
        | [] => transformS fuel name full st subIds (c :: rest') i start seqv
        | lit =>
            transformS fuel name full st subIds r.2.1 r.2.2 start
              (seqv ++ [(String.mk lit, true)])

/-- `_visitPattern(pattern, name)` (src lines 506-695). -/
def visitPatternS (fuel : Nat) (st : Rules) (pattern : String)
    (name : String) : Except String (String × Rules) :=
  if List.isPrefixOf ['^'] pattern.data ∧
      pattern.data.getLast? = some '$' then
    let pat := (pattern.data.drop 1).dropLast
    match transformS fuel name pat st [] pat 0 0 [] with
    | Except.error e => Except.error e
    | Except.ok (tr, _, _, st2, _) =>
        let ar := addRule st2 name
          ("\"\\\"\" (" ++ toRuleS tr ++ ") \"\\\"\" space")
        Except.ok (ar.2, ar.1)
  else Except.error "Pattern must start with \"^\" and end with \"$\""

mutual
/-- Structural equality of JSON values. -/
def jsonBeq : Json → Json → Bool
  | Json.null, Json.null => true
  | Json.bool a, Json.bool b => a == b
  | Json.num a, Json.num b => a == b
  | Json.str a, Json.str b => a == b
  | Json.arr a, Json.arr b => jsonBeqList a b
  | Json.obj a, Json.obj b => jsonBeqFields a b
  | _, _ => false

/-- Element-wise equality of JSON arrays. -/
def jsonBeqList : List Json → List Json → Bool
  | [], [] => true
  | x :: xs, y :: ys => jsonBeq x y && jsonBeqList xs ys
  | _, _ => false

/-- Field-wise equality of JSON objects. -/
def jsonBeqFields : List (String × Json) → List (String × Json) → Bool
  | [], [] => true
  | (k, v) :: xs, (k2, v2) :: ys =>
      k == k2 && jsonBeq v v2 && jsonBeqFields xs ys
  | _, _ => false
end

instance : BEq Json := ⟨jsonBeq⟩

/-- `` `${name ?? ""}${name ? "-" : ""}${suffix}` ``: the sub-rule naming
scheme used throughout `visit` and `_buildObjectRule`. -/
def nameDash (name suffix : String) : String :=
  (if name = "" then "" else name ++ "-") ++ suffix

/-- `/^uuid[1-5]?$/.test(f)`. -/
def uuidTest (f : String) : Bool :=
  f ∈ ["uuid", "uuid1", "uuid2", "uuid3", "uuid4", "uuid5"]

/-- Generic insertion step for `sortBy`. -/
def insertBy {α : Type} (le : α → α → Bool) (x : α) : List α → List α
  | [] => [x]
  | y :: t => if le x y then x :: y :: t else y :: insertBy le x t

/-- Insertion sort by a boolean comparison (total preorders only, as with
the comparator functions JS `sort` receives here). -/
def sortBy {α : Type} (le : α → α → Bool) : List α → List α
  | [] => []
  | x :: t => insertBy le x (sortBy le t)

/-- `digitRange(fromChar, toChar)` of `generateMinMaxInt` as text
(src lines 76-86). -/
def digitRangeStr (a b : Char) : String :=
  "[" ++ String.singleton a ++
    (if a = b then "" else "-" ++ String.singleton b) ++ "]"

/-- `moreDigits(minDigits, maxDigits)` as text (src lines 88-102); `none`
stands for the `Number.MAX_SAFE_INTEGER` sentinel. -/
def moreDigitsStr (mn : Nat) (mx : Option Nat) : String :=
  if mn = 1 ∧ mx = some 1 then "[0-9]"
  else "[0-9]\x7b" ++ natRepr mn ++
    (match mx with
     | some m => if m = mn then "" else "," ++ natRepr m
     | none => ",") ++ "\x7d"

/-- `generateMinMaxInt(minValue, maxValue, out, decimalsLeft, topLevel)`
(src lines 66-280) as the text pushed onto `out`.  The both-bounds path is
the `render`ing of `genMinMaxIntE`, whose branch-by-branch agreement with
the source's `uniformRange`/band loop is established by the C2 development;
the single-bound paths are translated directly.  Single-character string
comparisons such as `c > rangeStart` are code-point comparisons. -/
def genMinMaxIntS : Nat → Option Int → Option Int → Nat → Bool →
    Except String String
  | 0, _, _, _, _ => Except.error "out of fuel"
  | _ + 1, some mn, some mx, _, _ =>
      Except.ok (render (genMinMaxIntE mn mx))
  | fuel + 1, some mn, none, decimalsLeft, topLevel =>
      let lessDecimals := max (decimalsLeft - 1) 1
      if mn < 0 then
        (genMinMaxIntS fuel none (some (-mn)) decimalsLeft false).map
          (fun s => "\"-\" (" ++ s ++ ") | [0] | [1-9] " ++
            moreDigitsStr 0 (some (decimalsLeft - 1)))
      else if mn = 0 then
        if topLevel then
          Except.ok ("[0] | [1-9] " ++ moreDigitsStr 0 (some lessDecimals))
        else Except.ok (moreDigitsStr 1 (some decimalsLeft))
      else if mn ≤ 9 then
        let c := digitChar mn.toNat
        let rangeStart := if topLevel then '1' else '0'
        Except.ok
          ((if rangeStart < c then
              digitRangeStr rangeStart (chPred c) ++ " " ++
                moreDigitsStr 1 (some lessDecimals) ++ " | "
            else "") ++
           digitRangeStr c '9' ++ " " ++ moreDigitsStr 0 (some lessDecimals))
      else
        let minS := natDigits mn.toNat
        let c := minS.headD '0'
        (genMinMaxIntS fuel (some (Int.ofNat (strVal (minS.drop 1)))) none
          lessDecimals false).map (fun s =>
          (if '1' < c then
             digitRangeStr (if topLevel then '1' else '0') (chPred c) ++
               " " ++ moreDigitsStr minS.length (some lessDecimals) ++ " | "
           else "") ++
          digitRangeStr c c ++ " (" ++ s ++ ")" ++
          (if c < '9' then
             " | " ++ digitRangeStr (chSucc c) '9' ++ " " ++
               moreDigitsStr (minS.length - 1) (some lessDecimals)
           else ""))
  | fuel + 1, none, some mx, decimalsLeft, topLevel =>
      let lessDecimals := max (decimalsLeft - 1) 1
      if 0 ≤ mx then
        (genMinMaxIntS fuel (some 0) (some mx) decimalsLeft true).map
          (fun s =>
            (if topLevel then
               "\"-\" [1-9] " ++ moreDigitsStr 0 (some lessDecimals) ++ " | "
             else "") ++ s)
      else
        (genMinMaxIntS fuel (some (-mx)) none decimalsLeft false).map
          (fun s => "\"-\" (" ++ s ++ ")")
  | _ + 1, none, none, _, _ =>
      Except.error "At least one of minValue or maxValue must be set"

/-- Converter state: the rule table, the resolved-reference table and the
`_refsBeingResolved` set (src lines 405-419). -/
structure ConvSt : Type where
  rules : Rules
  refs : List (String × Json)
  beingResolved : List String
deriving Repr

/-- Replace the rule table of a state. -/
def withRules (st : ConvSt) (r : Rules) : ConvSt :=
  ⟨r, st.refs, st.beingResolved⟩

/-- `type` dispatch test: `schemaType === undefined || schemaType === s`. -/
def typeNoneOr (tOpt : Option Json) (s : String) : Bool :=
  match tOpt with
  | none => true
  | some (Json.str t) => t == s
  | _ => false

/-- `schemaType === s` (strict equality with a string literal). -/
def typeIs (tOpt : Option Json) (s : String) : Bool :=
  match tOpt with
  | some (Json.str t) => t == s
  | _ => false

/-- `getRecursiveRefs(ks, firstIsOptional)` (src lines 1053-1076): builds
the optional-property chain, registering the `-rest` helper rules. -/
def getRecRefsS (kvMap : List (String × String)) (name : String) :
    List String → Bool → Rules → String × Rules
  | [], _, st => ("", st)
  | k :: rest, firstIsOptional, st =>
      let kvRuleName := (lookupRule kvMap k).getD ""
      let commaRef := "( \",\" space " ++ kvRuleName ++ " )"
      let res :=
        if firstIsOptional then commaRef ++ (if k = "*" then "*" else "?")
        else kvRuleName ++ (if k = "*" then " " ++ commaRef ++ "*" else "")
      match rest with
      | [] => (res, st)
      | _ :: _ =>
          let inner := getRecRefsS kvMap name rest true st
          let ar := addRule inner.2 (nameDash name k ++ "-rest") inner.1
          (res ++ " " ++ ar.2, ar.1)

/-- The `optionalProps.map((_, i) => getRecursiveRefs(optionalProps.slice(i),
false))` pass (src lines 1078-1080), threading the rule table left to
right. -/
def recRefsAltsS (kvMap : List (String × String)) (name : String) :
    List String → Rules → List String × Rules
  | [], st => ([], st)
  | k :: rest, st =>
      let a := getRecRefsS kvMap name (k :: rest) false st
      let r := recRefsAltsS kvMap name rest a.2
      (a.1 :: r.1, r.2)

/-- `addComponent` of the `allOf` branch (src lines 817-837): accumulates
`(properties, required, enumSets)`. -/
def addComponentS (refs : List (String × Json)) (comp : Json)
    (isReq : Bool)
    (acc : List (String × Json) × List String × List (List Json)) :
    Except String
      (List (String × Json) × List String × List (List Json)) := do
  let comp ←
    match jget comp "$ref" with
    | some (Json.str r) =>
        (match lookupRef refs r with
         | some c => Except.ok c
         | none => Except.error "TypeError: unresolved $ref in allOf component")
    | some _ => Except.error "TypeError: non-string $ref"
    | none => Except.ok comp
  let fields :=
    match jget comp "properties" with
    | some (Json.obj pfs) => pfs
    | _ => []
  let props := acc.1 ++ (if jhasKey comp "properties" then fields else [])
  let req := acc.2.1 ++
    (if isReq ∧ jhasKey comp "properties" then fields.map Prod.fst else [])
  let enums ←
    if jhasKey comp "enum" then
      match jget comp "enum" with
      | some (Json.arr vs) => Except.ok (acc.2.2 ++ [vs])
      | some v =>
          if jsTruthy v then
            Except.error "TypeError: enum is not an array"
          else Except.ok (acc.2.2 ++ [[]])
      | none => Except.ok acc.2.2
    else Except.ok acc.2.2
  Except.ok (props, req, enums)

/-- The `for (const t of schema.allOf)` collection loop
(src lines 839-847). -/
def allOfCollectS (refs : List (String × Json)) :
    List Json →
    (List (String × Json) × List String × List (List Json)) →
    Except String
      (List (String × Json) × List String × List (List Json))
  | [], acc => Except.ok acc
  | t :: rest, acc => do
      let acc' ←
        if jhasKey t "anyOf" then
          match jget t "anyOf" with
          | some (Json.arr tts) => allOfAnyS refs tts acc
          | _ => Except.error "TypeError: anyOf is not an array"
        else addComponentS refs t true acc
      allOfCollectS refs rest acc'
where
  allOfAnyS (refs : List (String × Json)) :
      List Json →
      (List (String × Json) × List String × List (List Json)) →
      Except String
        (List (String × Json) × List String × List (List Json))
    | [], acc => Except.ok acc
    | tt :: rest, acc => do
        let acc' ← addComponentS refs tt false acc
        allOfAnyS refs rest acc'

/-- Builtin-rule access for the statically known keys `visit` uses. -/
def primOf (k : String) : BuiltinRule :=
  (lookupBR PRIMITIVE_RULES k).getD ⟨"", []⟩

mutual
/-- `visit(schema, name)` (src lines 756-974), fueled.  The dispatch chain
follows the source branch for branch; the returned string is the rule name
`visit` returns, paired with the updated converter state.  JS property reads
on non-object schemas raise `TypeError`s, modeled as errors. -/
def visitS : Nat → ConvSt → Json → String → Except String (String × ConvSt)
  | 0, _, _, _ => Except.error "out of fuel"
  | fuel + 1, st, Json.obj fs, name =>
    let ruleName :=
      if RESERVED_NAMES.contains name then name ++ "-"
      else if name = "" then "root" else name
    let tOpt := jget.jgetF fs "type"
    match jget.jgetF fs "$ref" with
    | some (Json.str ref) => do
        let rs ← resolveRefS fuel st ref
        let ar := addRule rs.2.rules ruleName rs.1
        Except.ok (ar.2, withRules rs.2 ar.1)
    | some _ => Except.error "TypeError: non-string $ref"
    | none =>
      let oneOfV := jget.jgetF fs "oneOf"
      let anyOfV := jget.jgetF fs "anyOf"
      if (match oneOfV with | some v => jsTruthy v | none => false) ||
         (match anyOfV with | some v => jsTruthy v | none => false) then
        match
          (match oneOfV with
           | some v => if jsTruthy v then some v else anyOfV
           | none => anyOfV) with
        | some (Json.arr alts) => do
            let us ← unionRuleS fuel st name alts 0
            let ar := addRule us.2.rules ruleName (joinStr " | " us.1)
            Except.ok (ar.2, withRules us.2 ar.1)
        | _ => Except.error "TypeError: oneOf/anyOf is not an array"
      else
      match tOpt with
      | some (Json.arr ts) => do
          let us ← unionRuleS fuel st name
            (ts.map (fun t => Json.obj (jset fs "type" t))) 0
          let ar := addRule us.2.rules ruleName (joinStr " | " us.1)
          Except.ok (ar.2, withRules us.2 ar.1)
      | _ =>
        if jhasKey (Json.obj fs) "const" then
          let cv := (jget.jgetF fs "const").getD Json.null
          let ar := addRule st.rules ruleName
            (formatLiteralS (jsonStringify cv) ++ " space")
          Except.ok (ar.2, withRules st ar.1)
        else if jhasKey (Json.obj fs) "enum" then
          match jget.jgetF fs "enum" with
          | some (Json.arr vs) =>
              let ar := addRule st.rules ruleName
                ("(" ++
                  joinStr " | "
                    (vs.map (fun v => formatLiteralS (jsonStringify v))) ++
                  ") space")
              Except.ok (ar.2, withRules st ar.1)
          | _ => Except.error "TypeError: enum is not an array"
        else if typeNoneOr tOpt "object" &&
            (jhasKey (Json.obj fs) "properties" ||
             (jhasKey (Json.obj fs) "additionalProperties" &&
              !(jget.jgetF fs "additionalProperties" == some (Json.bool true))))
        then do
          let required :=
            match jget.jgetF fs "required" with
            | some (Json.arr xs) =>
                xs.filterMap (fun j =>
                  match j with | Json.str s => some s | _ => none)
            | _ => []
          let props :=
            match jget.jgetF fs "properties" with
            | some (Json.obj pfs) => pfs
            | _ => []
          let br ← buildObjectRuleS fuel st props required name
            (jget.jgetF fs "additionalProperties")
          let ar := addRule br.2.rules ruleName br.1
          Except.ok (ar.2, withRules br.2 ar.1)
        else if (typeNoneOr tOpt "object" || typeIs tOpt "string") &&
            jhasKey (Json.obj fs) "allOf" then
          match jget.jgetF fs "allOf" with
          | some (Json.arr comps) => do
              let acc ← allOfCollectS st.refs comps ([], [], [])
              match acc.2.2 with
              | e0 :: eRest =>
                  let inter := (List.eraseDups e0).filter (fun v =>
                    (e0 :: eRest).all (fun s => s.contains v))
                  if inter.isEmpty then do
                    let br ← buildObjectRuleS fuel st acc.1 acc.2.1 name none
                    let ar := addRule br.2.rules ruleName br.1
                    Except.ok (ar.2, withRules br.2 ar.1)
                  else
                    let sortedEnums := sortBy
                      (fun a b => strLeL (jsDisplay a).data (jsDisplay b).data)
                      inter
                    let ar := addRule st.rules ruleName
                      ("(" ++
                        joinStr " | " (sortedEnums.map (fun v =>
                          formatLiteralS (jsonStringify v))) ++
                        ") space")
                    Except.ok (ar.2, withRules st ar.1)
              | [] => do
                  let br ← buildObjectRuleS fuel st acc.1 acc.2.1 name none
                  let ar := addRule br.2.rules ruleName br.1
                  Except.ok (ar.2, withRules br.2 ar.1)
          | _ => Except.error "TypeError: allOf is not an array"
        else if typeNoneOr tOpt "array" &&
            (jhasKey (Json.obj fs) "items" ||
             jhasKey (Json.obj fs) "prefixItems") then
          match
            (match jget.jgetF fs "items" with
             | some Json.null => jget.jgetF fs "prefixItems"
             | none => jget.jgetF fs "prefixItems"
             | some v => some v) with
          | some (Json.arr its) => do
              let ts ← tupleItemsS fuel st name its 0
              let ar := addRule ts.2.rules ruleName
                ("\"[\" space " ++ joinStr " \",\" space " ts.1 ++
                  " \"]\" space")
              Except.ok (ar.2, withRules ts.2 ar.1)
          | some itv => do
              let ir ← visitS fuel st itv (nameDash name "item")
              let minItems :=
                match jget.jgetF fs "minItems" with
                | some (Json.num n) => n.toNat
                | _ => 0
              let maxItems :=
                match jget.jgetF fs "maxItems" with
                | some (Json.num n) => some n.toNat
                | _ => none
              let ar := addRule ir.2.rules ruleName
                ("\"[\" space " ++
                  buildRepetitionS ir.1 minItems maxItems "\",\" space" ++
                  " \"]\" space")
              Except.ok (ar.2, withRules ir.2 ar.1)
          | none => Except.error "TypeError: items is undefined"
        else if typeNoneOr tOpt "string" && jhasKey (Json.obj fs) "pattern"
        then
          match jget.jgetF fs "pattern" with
          | some (Json.str p) =>
              match visitPatternS fuel st.rules p ruleName with
              | Except.error e => Except.error e
              | Except.ok (n, rules') => Except.ok (n, withRules st rules')
          | _ => Except.error "TypeError: pattern is not a string"
        else if typeNoneOr tOpt "string" &&
            uuidTest
              (match jget.jgetF fs "format" with
               | some (Json.str f) => f
               | _ => "") then
          addPrimitiveS fuel st
            (if ruleName = "root" then "root"
             else
               (match jget.jgetF fs "format" with
                | some (Json.str f) => f
                | _ => ""))
            (primOf "uuid")
        else if typeNoneOr tOpt "string" &&
            (lookupBR STRING_FORMAT_RULES
              ((match jget.jgetF fs "format" with
                | some (Json.str f) => f
                | some v => jsDisplay v
                | none => "undefined") ++ "-string")).isSome then
          let primName :=
            (match jget.jgetF fs "format" with
             | some (Json.str f) => f
             | some v => jsDisplay v
             | none => "undefined") ++ "-string"
          match lookupBR STRING_FORMAT_RULES primName with
          | some r => do
              let pr ← addPrimitiveS fuel st primName r
              let ar := addRule pr.2.rules ruleName pr.1
              Except.ok (ar.2, withRules pr.2 ar.1)
          | none => Except.error "unreachable: format rule vanished"
        else if typeIs tOpt "string" &&
            (jhasKey (Json.obj fs) "minLength" ||
             jhasKey (Json.obj fs) "maxLength") then do
          let cr ← addPrimitiveS fuel st "char" (primOf "char")
          let minLen :=
            match jget.jgetF fs "minLength" with
            | some (Json.num n) => n.toNat
            | _ => 0
          let maxLen :=
            match jget.jgetF fs "maxLength" with
            | some (Json.num n) => some n.toNat
            | _ => none
          let ar := addRule cr.2.rules ruleName
            ("\"\\\"\" " ++ buildRepetitionS cr.1 minLen maxLen "" ++
              " \"\\\"\" space")
          Except.ok (ar.2, withRules cr.2 ar.1)
        else if typeIs tOpt "integer" &&
            (jhasKey (Json.obj fs) "minimum" ||
             jhasKey (Json.obj fs) "exclusiveMinimum" ||
             jhasKey (Json.obj fs) "maximum" ||
             jhasKey (Json.obj fs) "exclusiveMaximum") then do
          let minV ←
            if jhasKey (Json.obj fs) "minimum" then
              match jget.jgetF fs "minimum" with
              | some (Json.num n) => Except.ok (some n)
              | _ => Except.error "TypeError: non-numeric bound (unmodeled)"
            else if jhasKey (Json.obj fs) "exclusiveMinimum" then
              match jget.jgetF fs "exclusiveMinimum" with
              | some (Json.num n) => Except.ok (some (n + 1))
              | _ => Except.error "TypeError: non-numeric bound (unmodeled)"
            else Except.ok none
          let maxV ←
            if jhasKey (Json.obj fs) "maximum" then
              match jget.jgetF fs "maximum" with
              | some (Json.num n) => Except.ok (some n)
              | _ => Except.error "TypeError: non-numeric bound (unmodeled)"
            else if jhasKey (Json.obj fs) "exclusiveMaximum" then
              match jget.jgetF fs "exclusiveMaximum" with
              | some (Json.num n) => Except.ok (some (n - 1))
              | _ => Except.error "TypeError: non-numeric bound (unmodeled)"
            else Except.ok none
          let s ← genMinMaxIntS fuel minV maxV 16 true
          let ar := addRule st.rules ruleName ("(" ++ s ++ ") space")
          Except.ok (ar.2, withRules st ar.1)
        else if typeIs tOpt "object" || fs.isEmpty then do
          let pr ← addPrimitiveS fuel st "object" (primOf "object")
          let ar := addRule pr.2.rules ruleName pr.1
          Except.ok (ar.2, withRules pr.2 ar.1)
        else
          match tOpt with
          | some (Json.str t) =>
              match lookupBR PRIMITIVE_RULES t with
              | none =>
                  Except.error
                    ("Unrecognized schema: " ++ jsonStringify (Json.obj fs))
              | some pr =>
                  addPrimitiveS fuel st
                    (if ruleName = "root" then "root" else t) pr
          | _ =>
              Except.error
                ("Unrecognized schema: " ++ jsonStringify (Json.obj fs))
  | _ + 1, _, schema, _ =>
      Except.error ("TypeError: schema is not an object: " ++
        jsonStringify schema)

/-- `_generateUnionRule` (src lines 495-504): visits each alternative and
returns the rule names in order. -/
def unionRuleS : Nat → ConvSt → String → List Json → Nat →
    Except String (List String × ConvSt)
  | 0, _, _, _, _ => Except.error "out of fuel"
  | _ + 1, st, _, [], _ => Except.ok ([], st)
  | fuel + 1, st, name, alt :: rest, i => do
      let r ← visitS fuel st alt
        (if name = "" then "alternative-" ++ natRepr i
         else name ++ "-" ++ natRepr i)
      let rs ← unionRuleS fuel r.2 name rest (i + 1)
      Except.ok (r.1 :: rs.1, rs.2)

/-- The tuple-items visits of the array branch (src lines 875-884). -/
def tupleItemsS : Nat → ConvSt → String → List Json → Nat →
    Except String (List String × ConvSt)
  | 0, _, _, _, _ => Except.error "out of fuel"
  | _ + 1, st, _, [], _ => Except.ok ([], st)
  | fuel + 1, st, name, item :: rest, i => do
      let r ← visitS fuel st item (nameDash name ("tuple-" ++ natRepr i))
      let rs ← tupleItemsS fuel r.2 name rest (i + 1)
      Except.ok (r.1 :: rs.1, rs.2)

/-- The per-property visit-and-register loop of `_buildObjectRule`
(src lines 1009-1019): returns `propKvRuleNames` in declaration order. -/
def objPropPairsS : Nat → ConvSt → String → List (String × Json) →
    Except String (List (String × String) × ConvSt)
  | 0, _, _, _ => Except.error "out of fuel"
  | _ + 1, st, _, [] => Except.ok ([], st)
  | fuel + 1, st, name, (pn, ps) :: rest => do
      let r ← visitS fuel st ps (nameDash name pn)
      let ar := addRule r.2.rules (nameDash name pn ++ "-kv")
        (formatLiteralS (jsonQuote pn) ++ " space \":\" space " ++ r.1)
      let rs ← objPropPairsS fuel (withRules r.2 ar.1) name rest
      Except.ok ((pn, ar.2) :: rs.1, rs.2)

/-- `_buildObjectRule(properties, required, name, additionalProperties)`
(src lines 990-1088), returning the rule body.  With `_propOrder` empty the
sort comparator of src lines 999-1007 is `findIndex(a) - findIndex(b)`, so
`sortedProps` is the declaration order. -/
def buildObjectRuleS : Nat → ConvSt → List (String × Json) →
    List String → String → Option Json → Except String (String × ConvSt)
  | 0, _, _, _, _, _ => Except.error "out of fuel"
  | fuel + 1, st, props, required, name, addProps => do
      let sortedProps := props.map Prod.fst
      let pp ← objPropPairsS fuel st name props
      let requiredProps := sortedProps.filter (fun k => required.contains k)
      let optionalProps0 :=
        sortedProps.filter (fun k => !(required.contains k))
      let tri ←
        match addProps with
        | some ap =>
          if jsTruthy ap then do
            let subName := nameDash name "additional"
            let vr ←
              match ap with
              | Json.obj _ => visitS fuel pp.2 ap (subName ++ "-value")
              | Json.arr _ => visitS fuel pp.2 ap (subName ++ "-value")
              | _ => addPrimitiveS fuel pp.2 "value" (primOf "value")
            let kr ←
              if sortedProps.isEmpty then
                addPrimitiveS fuel vr.2 "string" (primOf "string")
              else do
                let cr ← addPrimitiveS fuel vr.2 "char" (primOf "char")
                let ar := addRule cr.2.rules (subName ++ "-k")
                  (render (notStringsExpr cr.1 sortedProps))
                Except.ok (ar.2, withRules cr.2 ar.1)
            let ar2 := addRule kr.2.rules (subName ++ "-kv")
              (kr.1 ++ " \":\" space " ++ vr.1)
            Except.ok (optionalProps0 ++ ["*"],
              pp.1 ++ [("*", ar2.2)], withRules kr.2 ar2.1)
          else Except.ok (optionalProps0, pp.1, pp.2)
        | none => Except.ok (optionalProps0, pp.1, pp.2)
      let optionalProps := tri.1
      let kvMap := tri.2.1
      let st2 := tri.2.2
      let rulePre := "\"\x7b\" space " ++
        joinStr " \",\" space "
          (requiredProps.map (fun k => (lookupRule kvMap k).getD ""))
      if optionalProps.isEmpty then
        Except.ok (rulePre ++ " \"\x7d\" space", st2)
      else
        let alts := recRefsAltsS kvMap name optionalProps st2.rules
        Except.ok
          (rulePre ++ " (" ++
            (if requiredProps.isEmpty then "" else " \",\" space ( ") ++
            joinStr " | " alts.1 ++
            (if requiredProps.isEmpty then "" else " )") ++
            " )?" ++ " \"\x7d\" space",
           withRules st2 alts.2)

/-- `_addPrimitive(name, rule)` (src lines 976-988). -/
def addPrimitiveS : Nat → ConvSt → String → BuiltinRule →
    Except String (String × ConvSt)
  | 0, _, _, _ => Except.error "out of fuel"
  | fuel + 1, st, name, rule => do
      let ar := addRule st.rules name rule.content
      let st' ← addPrimDepsS fuel (withRules st ar.1) rule.deps
      Except.ok (ar.2, st')

/-- The dependency loop of `_addPrimitive` (src lines 978-987). -/
def addPrimDepsS : Nat → ConvSt → List String → Except String ConvSt
  | 0, _, _ => Except.error "out of fuel"
  | _ + 1, st, [] => Except.ok st
  | fuel + 1, st, dep :: rest => do
      let depRule ←
        match lookupBR PRIMITIVE_RULES dep with
        | some r => Except.ok r
        | none =>
            match lookupBR STRING_FORMAT_RULES dep with
            | some r => Except.ok r
            | none => Except.error ("Rule " ++ dep ++ " not known")
      let st' ←
        if (lookupRule st.rules dep).isSome then Except.ok st
        else do
          let pr ← addPrimitiveS fuel st dep depRule
          Except.ok pr.2
      addPrimDepsS fuel st' rest

/-- `_resolveRef(ref)` (src lines 740-750): the `_refsBeingResolved` set
makes a reference already in flight answer with its rule name instead of
recursing. -/
def resolveRefS : Nat → ConvSt → String → Except String (String × ConvSt)
  | 0, _, _ => Except.error "out of fuel"
  | fuel + 1, st, ref =>
      let fragment := ((splitChar '#' ref.data).getLast?).getD []
      let refName := "ref" ++ String.mk (escCharsAux false fragment)
      if (lookupRule st.rules refName).isSome ||
          st.beingResolved.contains ref then
        Except.ok (refName, st)
      else
        match lookupRef st.refs ref with
        | none => Except.error "TypeError: $ref was not resolved"
        | some resolved => do
            let r ← visitS fuel
              ⟨st.rules, st.refs, st.beingResolved ++ [ref]⟩ resolved refName
            Except.ok (r.1,
              ⟨r.2.rules, r.2.refs,
               r.2.beingResolved.filter (fun x => !(x == ref))⟩)
end

/-- `convertJsonSchemaToGrammar(schema)` with default options
(src lines 1107-1115). -/
def convertJsonSchemaToGrammarS (fuel : Nat) (schema : Json) :
    Except String String := do
  let refs ← resolveRefsS schema
  let r ← visitS fuel ⟨[("space", spaceRuleStr)], refs, []⟩ schema ""
  Except.ok (formatGrammarS r.2.rules)

/-- The cyclic self-referential schema of the claim:
`$defs.node.properties.next = \x7b$ref: "#/$defs/node"\x7d`, with the root
itself referring to the node definition. -/
def schemaC5 : Json := Json.obj [
  ("$ref", Json.str "#/$defs/node"),
  ("$defs", Json.obj [("node", Json.obj [("properties",
    Json.obj [("next", Json.obj [("$ref", Json.str "#/$defs/node")])])])])]

/-- C5: compiling the cyclic schema terminates: `resolveRefs` follows the
`#/$defs/node` pointer once, and during `visit` the `_refsBeingResolved`
set makes the in-flight `$ref` inside `node.properties.next` resolve to the
rule name `ref-defs-node` instead of recursing, yielding this finite,
self-referential five-rule grammar. -/
theorem claim_C5_cycle_termination :
    convertJsonSchemaToGrammarS 20 schemaC5 = Except.ok
      ("ref-defs-node ::= \"\x7b\" space  (ref-defs-node-next-kv )? \"\x7d\" space\n" ++
       "ref-defs-node-next ::= ref-defs-node\n" ++
       "ref-defs-node-next-kv ::= \"\\\"next\\\"\" space \":\" space ref-defs-node-next\n" ++
       "root ::= ref-defs-node\n" ++
       "space ::= | \" \" | \"\\n\"\x7b1,2\x7d [ \\t]\x7b0,20\x7d\n") := by
  rfl

/-- The state a fresh converter starts with: only the `space` rule
(src line 416). -/
def initConvSt : ConvSt := ⟨[("space", spaceRuleStr)], [], []⟩

/-- Association lookup hits only listed keys. -/
theorem lookupBR_mem {l : List (String × BuiltinRule)} {t : String}
    {pr : BuiltinRule} (h : lookupBR l t = some pr) :
    t ∈ l.map Prod.fst := by
  induction l with
  | nil => simp [lookupBR] at h
  | cons p rest ih =>
    rw [lookupBR] at h
    by_cases he : p.1 = t
    · simp [he]
    · rw [if_neg ?_] at h
      · simp [ih h]
      · exact he

/-- On a schema of the shape `\x7btype: t\x7d` with `t ≠ "object"`, every
dispatch branch before the final one fails, so `visit` reaches the fallback
of src lines 960-973: a `PRIMITIVE_RULES` lookup of `t`, and otherwise the
fatal `Unrecognized schema` error. -/
theorem visitS_typeonly (fuel : Nat) (st : ConvSt) (t : String)
    (ht : ¬ t = "object") :
    visitS (fuel + 1) st (Json.obj [("type", Json.str t)]) "" =
      (match lookupBR PRIMITIVE_RULES t with
       | none => Except.error ("Unrecognized schema: " ++
           jsonStringify (Json.obj [("type", Json.str t)]))
       | some pr => addPrimitiveS fuel st "root" pr) := by
  rw [visitS]
  simp +decide only [jget.jgetF, jhasKey, typeNoneOr, typeIs, uuidTest,
    lookupBR, RESERVED_NAMES, PRIMITIVE_RULES, STRING_FORMAT_RULES,
    List.contains]
  simp +decide [ht]

/-- C7 counterexample: the schema `\x7btype: "array"\x7d` reaches the
fallback branch (it matches no earlier dispatch rule) yet `visit` succeeds,
because `"array"` is a `PRIMITIVE_RULES` key; so visiting it does not
require `type` to be one of `string`, `number`, `integer`, `boolean`,
`null` as claimed. -/
theorem claim_C7_counterexample :
    (visitS 50 initConvSt (Json.obj [("type", Json.str "array")]) "").isOk =
      true ∧
    ¬ "array" ∈ ["string", "number", "integer", "boolean", "null"] := by
  constructor
  · decide
  · decide

/-- C7 (amended): for every schema of the fallback-reaching shape
`\x7btype: t\x7d` with `t ≠ "object"`, `visit` raises the fatal
`Unrecognized schema` error with the schema's JSON representation exactly
when `t` is not a `PRIMITIVE_RULES` key, and succeeds for every one of the
twelve primitive keys — not only for `string`, `number`, `integer`,
`boolean`, `null`. -/
theorem claim_C7_visit_fallback (t : String) (ht : ¬ t = "object") :
    (lookupBR PRIMITIVE_RULES t = none →
      visitS 50 initConvSt (Json.obj [("type", Json.str t)]) "" =
        Except.error ("Unrecognized schema: " ++
          jsonStringify (Json.obj [("type", Json.str t)]))) ∧
    (∀ pr, lookupBR PRIMITIVE_RULES t = some pr →
      (visitS 50 initConvSt (Json.obj [("type", Json.str t)]) "").isOk =
        true) := by
  constructor
  · intro hnone
    rw [show (50 : Nat) = 49 + 1 from rfl, visitS_typeonly 49 initConvSt t ht,
      hnone]
  · intro pr hsome
    have hmem := lookupBR_mem hsome
    simp only [PRIMITIVE_RULES, List.map, List.mem_cons,
      List.not_mem_nil, or_false] at hmem
    rcases hmem with rfl | rfl | rfl | rfl | rfl | rfl | rfl | rfl | rfl |
      rfl | rfl | rfl
    · decide
    · decide
    · decide
    · decide
    · decide
    · decide
    · exact absurd rfl ht
    · decide
    · decide
    · decide
    · decide
    · decide

deriving instance DecidableEq for BuiltinRule

theorem claim_C7_witness :
    ¬ "foo" = "object" ∧
    visitS 50 initConvSt (Json.obj [("type", Json.str "foo")]) "" =
      Except.error ("Unrecognized schema: " ++
        jsonStringify (Json.obj [("type", Json.str "foo")])) ∧
    (visitS 50 initConvSt (Json.obj [("type", Json.str "value")]) "").isOk =
      true :=
  ⟨by decide,
   (claim_C7_visit_fallback "foo" (by decide)).1 (by decide),
   (claim_C7_visit_fallback "value" (by decide)).2
     ((lookupBR PRIMITIVE_RULES "value").getD ⟨"", []⟩) (by decide)⟩

theorem natRepr_one : natRepr 1 = "1" := by
  rw [natRepr, natDigits_lt_ten (by omega)]
  decide

theorem natRepr_zero : natRepr 0 = "0" := by
  rw [natRepr, natDigits_lt_ten (by omega)]
  decide

/-- If the scanned input holds no `]` (and no escape), the square-bracket
scan runs off the end, advancing the index once per character. -/
theorem scanSquare_no_close {rest : List Char} (h1 : ¬ ']' ∈ rest)
    (h2 : ¬ '\\' ∈ rest) : ∀ i : Nat,
    scanSquare rest i = (rest, [], i + rest.length, false) := by
  induction rest with
  | nil => intro i; simp [scanSquare]
  | cons c cs ih =>
    intro i
    have hc1 : ¬ c = ']' := by intro hc; exact h1 (by simp [hc])
    have hc2 : ¬ c = '\\' := by intro hc; exact h2 (by simp [hc])
    rw [scanSquare.eq_def]
    simp only [if_neg hc1, if_neg hc2]
    rw [ih (fun hc => h1 (List.mem_cons_of_mem _ hc))
      (fun hc => h2 (List.mem_cons_of_mem _ hc)) (i + 1)]
    simp
    omega

/-- If the scanned input holds no `\x7d`, the curly-bracket scan runs off
the end. -/
theorem scanCurly_no_close {rest : List Char} (h1 : ¬ '}' ∈ rest) :
    ∀ i : Nat, scanCurly rest i = (rest, [], i + rest.length, false) := by
  induction rest with
  | nil => intro i; simp [scanCurly]
  | cons c cs ih =>
    intro i
    have hc1 : ¬ c = '}' := by intro hc; exact h1 (by simp [hc])
    rw [scanCurly.eq_def]
    simp only [if_neg hc1]
    rw [ih (fun hc => h1 (List.mem_cons_of_mem _ hc)) (i + 1)]
    simp
    omega

/-- C9 counterexample: the pattern `^(a$` has an unterminated `(` group,
yet `_visitPattern` does not raise an unbalanced-delimiter error: the inner
`transform` simply returns at end of input and the pattern compiles to a
rule. -/
theorem claim_C9_counterexample :
    visitPatternS 50 [("space", spaceRuleStr)] "^(a$" "root" =
      Except.ok ("root",
        [("space", spaceRuleStr),
         ("root", "\"\\\"\" ((\"a\")) \"\\\"\" space")]) := by
  rfl

/-- C9 (amended): the Pattern Translator's precondition errors.  A pattern
that does not both start with `^` and end with `$` is a fatal error; a `(`
followed by `?` is a fatal "Unsupported pattern syntax" error reporting the
offending index and the stripped pattern; an unterminated `[` or `\x7b`
group is a fatal unbalanced-delimiter error reporting the parse position.
An unterminated `(` group, however, is NOT detected (see the
counterexample), so the unbalanced-delimiter reporting the claim ascribes
to `(` does not exist. -/
theorem claim_C9_pattern_errors :
    (∀ (fuel : Nat) (st : Rules) (p name : String),
      ¬ (List.isPrefixOf ['^'] p.data ∧ p.data.getLast? = some '$') →
      visitPatternS fuel st p name =
        Except.error "Pattern must start with \"^\" and end with \"$\"") ∧
    (∀ (f : Nat) (st : Rules) (name : String) (rest : List Char),
      visitPatternS (f + 1) st
        (String.mk ('^' :: '(' :: '?' :: (rest ++ ['$']))) name =
        Except.error ("Unsupported pattern syntax \"?\" at index " ++
          natRepr 1 ++ " of /" ++ String.mk ('(' :: '?' :: rest) ++ "/")) ∧
    (∀ (f : Nat) (st : Rules) (name : String) (rest : List Char),
      ¬ ']' ∈ rest → ¬ '\\' ∈ rest →
      visitPatternS (f + 1) st
        (String.mk ('^' :: '[' :: (rest ++ ['$']))) name =
        Except.error ("Unbalanced square brackets; start = " ++ natRepr 0 ++
          ", i = " ++ natRepr (1 + rest.length) ++ ", pattern = " ++
          String.mk ('[' :: rest))) ∧
    (∀ (f : Nat) (st : Rules) (name : String) (rest : List Char),
      ¬ '}' ∈ rest →
      visitPatternS (f + 1) st
        (String.mk ('^' :: '{' :: (rest ++ ['$']))) name =
        Except.error ("Unbalanced curly brackets; start = " ++ natRepr 0 ++
          ", i = " ++ natRepr (1 + rest.length) ++ ", pattern = " ++
          String.mk ('{' :: rest))) := by
  refine ⟨?_, ?_, ?_, ?_⟩
  · intro fuel st p name h
    rw [visitPatternS, if_neg h]
  · intro f st name rest
    have hcond : List.isPrefixOf ['^']
        (String.mk ('^' :: '(' :: '?' :: (rest ++ ['$']))).data ∧
        (String.mk ('^' :: '(' :: '?' :: (rest ++ ['$']))).data.getLast? =
          some '$' := by
      constructor
      · simp [List.isPrefixOf]
      · show List.getLast? ('^' :: '(' :: '?' :: (rest ++ ['$'])) = some '$'
        have he : '^' :: '(' :: '?' :: (rest ++ ['$']) =
            ('^' :: '(' :: '?' :: rest) ++ ['$'] := by simp
        rw [he, List.getLast?_concat]
    rw [visitPatternS, if_pos hcond]
    have hpat :
        ((String.mk ('^' :: '(' :: '?' :: (rest ++ ['$']))).data.drop
          1).dropLast = '(' :: '?' :: rest := by
      show (('(' :: '?' :: (rest ++ ['$'])).dropLast) = _
      have he : '(' :: '?' :: (rest ++ ['$']) =
          ('(' :: '?' :: rest) ++ ['$'] := by simp
      rw [he, List.dropLast_concat]
    simp only [hpat]
    rfl
  · intro f st name rest h1 h2
    have hcond : List.isPrefixOf ['^']
        (String.mk ('^' :: '[' :: (rest ++ ['$']))).data ∧
        (String.mk ('^' :: '[' :: (rest ++ ['$']))).data.getLast? =
          some '$' := by
      constructor
      · simp [List.isPrefixOf]
      · show List.getLast? ('^' :: '[' :: (rest ++ ['$'])) = some '$'
        have he : '^' :: '[' :: (rest ++ ['$']) =
            ('^' :: '[' :: rest) ++ ['$'] := by simp
        rw [he, List.getLast?_concat]
    rw [visitPatternS, if_pos hcond]
    have hpat :
        ((String.mk ('^' :: '[' :: (rest ++ ['$']))).data.drop
          1).dropLast = '[' :: rest := by
      show (('[' :: (rest ++ ['$'])).dropLast) = _
      have he : '[' :: (rest ++ ['$']) = ('[' :: rest) ++ ['$'] := by simp
      rw [he, List.dropLast_concat]
    simp only [hpat]
    rw [transformS]
    simp only []
    rw [if_neg (show ¬ ('[' = '.') from by decide),
      if_neg (show ¬ ('[' = '(') from by decide),
      if_neg (show ¬ ('[' = ')') from by decide)]
    simp only [if_true]
    rw [scanSquare_no_close h1 h2 (0 + 1)]
    simp only [Nat.zero_add]
    rfl
  · intro f st name rest h1
    have hcond : List.isPrefixOf ['^']
        (String.mk ('^' :: '{' :: (rest ++ ['$']))).data ∧
        (String.mk ('^' :: '{' :: (rest ++ ['$']))).data.getLast? =
          some '$' := by
      constructor
      · simp [List.isPrefixOf]
      · show List.getLast? ('^' :: '{' :: (rest ++ ['$'])) = some '$'
        have he : '^' :: '{' :: (rest ++ ['$']) =
            ('^' :: '{' :: rest) ++ ['$'] := by simp
        rw [he, List.getLast?_concat]
    rw [visitPatternS, if_pos hcond]
    have hpat :
        ((String.mk ('^' :: '{' :: (rest ++ ['$']))).data.drop
          1).dropLast = '{' :: rest := by
      show (('{' :: (rest ++ ['$'])).dropLast) = _
      have he : '{' :: (rest ++ ['$']) = ('{' :: rest) ++ ['$'] := by simp
      rw [he, List.dropLast_concat]
    simp only [hpat]
    rw [transformS]
    simp only []
    rw [if_neg (show ¬ ('{' = '.') from by decide),
      if_neg (show ¬ ('{' = '(') from by decide),
      if_neg (show ¬ ('{' = ')') from by decide),
      if_neg (show ¬ ('{' = '[') from by decide),
      if_neg (show ¬ ('{' = '|') from by decide),
      if_neg (show ¬ ('{' = '*' ∨ '{' = '+' ∨ '{' = '?') from by decide)]
    simp only [if_true]
    rw [scanCurly_no_close h1 (0 + 1)]
    simp only [Nat.zero_add]
    rfl

theorem claim_C9_witness :
    visitPatternS 5 [] "abc" "root" =
      Except.error "Pattern must start with \"^\" and end with \"$\"" ∧
    visitPatternS (10 + 1) [] (String.mk ('^' :: '[' :: (['a', 'b'] ++ ['$'])))
      "root" =
      Except.error ("Unbalanced square brackets; start = " ++ natRepr 0 ++
        ", i = " ++ natRepr (1 + ['a', 'b'].length) ++ ", pattern = " ++
        String.mk ('[' :: ['a', 'b'])) :=
  ⟨claim_C9_pattern_errors.1 5 [] "abc" "root" (by decide),
   claim_C9_pattern_errors.2.2.1 10 [] "root" ['a', 'b'] (by decide)
     (by decide)⟩
